import Mathlib

/-!
# nettable: wire codec and client registry

A shallow embedding of the Go package `nettable` (`io.go`, `entry.go`,
`nettable.go`, `protocol.go`).

* A Go `byte` is a natural number below 256, an `ID` (`uint32`) a natural
  number below `2 ^ 32`; every wrapping operation carries its modulus.
* An `io.Reader` is the list of bytes still to be read; a read returns the Go
  result pair together with the unread rest.
* An `io.Writer` is the list of bytes written so far together with the number
  of bytes the sink still accepts (`none` for a sink that never refuses, such
  as `bytes.Buffer`).
* A Go `string` is its list of bytes.
-/

namespace Nettable

/-! ## Bytes, errors, readers and writers -/

/-- A Go `string`, as its bytes. -/
abbrev Str := List Nat

/-- The error values that the package returns or passes on. -/
inductive Error where
  /-- `io.EOF` -/
  | EOF
  /-- `io.ErrUnexpectedEOF` -/
  | ErrUnexpectedEOF
  /-- the error of a sink that refuses a write -/
  | ErrShortWrite
  /-- "A NetworkTable string cannot contain null bytes" -/
  | nullInString
  /-- "Unrecognized entry code" -/
  | unrecognizedEntryCode
  /-- `ErrDenial`, "Value changed by peer" -/
  | ErrDenial
  /-- "readConfirmation called on bad message" -/
  | badConfirmation
  /-- "readDenial called on bad message" -/
  | badDenial
  deriving DecidableEq, Repr

/-- What a reading function hands back: the Go pair `(val, err)` and the bytes
left unread. -/
structure Got (α : Type) where
  val : α
  err : Option Error
  rest : List Nat
  deriving DecidableEq, Repr

/-- Outcome of a reading function that may fault at run time. -/
inductive Outcome (α : Type) where
  | done (g : Got α)
  | panic
  deriving DecidableEq, Repr

/-- Go `io.ReadFull(r, buf)` with `len(buf) = n`: exactly `n` bytes, or
`io.EOF` when nothing could be read, or `io.ErrUnexpectedEOF` after a short
read. The value is the part of the buffer that was filled. -/
def ReadFull (r : List Nat) (n : Nat) : Got (List Nat) :=
  if n ≤ r.length then ⟨r.take n, none, r.drop n⟩
  else if r.length = 0 then ⟨[], some Error.EOF, []⟩
  else ⟨r, some Error.ErrUnexpectedEOF, []⟩

/-- An `io.Writer`: the bytes written so far and the room that is left. -/
structure Writer where
  data : List Nat
  room : Option Nat
  deriving DecidableEq, Repr

/-- An empty `bytes.Buffer`. -/
def Writer.buffer : Writer := ⟨[], none⟩

/-- Go `w.Write(p)`: all of `p` is appended when the sink has room, otherwise
the part that fits is appended and the write returns an error. -/
def Writer.Write (w : Writer) (p : List Nat) : Writer × Option Error :=
  match w.room with
  | none => (⟨w.data ++ p, none⟩, none)
  | some k =>
    if p.length ≤ k then (⟨w.data ++ p, some (k - p.length)⟩, none)
    else (⟨w.data ++ p.take k, some 0⟩, some Error.ErrShortWrite)

/-- Go `a &^ b` on bytes. -/
def andNot (a b : Nat) : Nat := a &&& (255 ^^^ b)

/-! ## protocol.go: code constants -/

def codeString : Nat := 0
def codeInt : Nat := 1
def codeDouble : Nat := 2
def codeTable : Nat := 3
def codeTableAssignment : Nat := codeTable
def codeBoolFalse : Nat := 4
def codeBoolTrue : Nat := 5
def codeAssignment : Nat := 6
def codeTableRequest : Nat := 12
def codeID : Nat := 1 <<< 7
def codeTableID : Nat := 1 <<< 6
def codeConfirmation : Nat := 1 <<< 5
def codeDenial : Nat := 1 <<< 4

/-! ## io.go -/

/-- Go `readByte`: one byte, or `io.EOF`. -/
def readByte : List Nat → Got Nat
  | [] => ⟨0, some Error.EOF, []⟩
  | b :: rest => ⟨b, none, rest⟩

/-- Go `readID`. `mask - 4` is byte arithmetic; the accumulator is a
`uint32`. -/
def readID (r : List Nat) (mask : Nat) : Got Nat :=
  match ReadFull r 1 with
  | ⟨_, some err, rest⟩ => ⟨0, some err, rest⟩
  | ⟨buf, none, rest⟩ =>
    let b0 := andNot (buf.getD 0 0) mask
    if b0 < (mask + 252) % 256 then ⟨b0, none, rest⟩
    else
      let n := (b0 &&& 3) + 1
      match ReadFull rest n with
      | ⟨_, some err, rest2⟩ => ⟨0, some err, rest2⟩
      | ⟨bs, none, rest2⟩ =>
        ⟨bs.foldl (fun id b => ((id <<< 8) % 4294967296) ||| b) 0, none, rest2⟩

/-- Go `writeID`. The slice `p` aliases `buf`, so the final store into
`buf[0]` is a store into the head of `p`. -/
def writeID (w : Writer) (mask : Nat) (id : Nat) : Writer × Option Error :=
  if id < (mask + 252) % 256 then
    w.Write [mask ||| (id % 256)]
  else
    let p : List Nat :=
      if id < 1 <<< 8 then
        [0, id % 256]
      else if id < 1 <<< 16 then
        [0, (id >>> 8) % 256, id % 256]
      else if id < 1 <<< 24 then
        [0, (id >>> 16) % 256, (id >>> 8) % 256, id % 256]
      else
        [0, (id >>> 24) % 256, (id >>> 16) % 256, (id >>> 8) % 256, id % 256]
    w.Write (p.set 0 ((mask ||| andNot ((mask + 255) % 256) 3) ||| ((p.length - 2) % 256)))

def beginStringByte : Nat := 0xff
def endStringByte : Nat := 0x00

/-- The loop of the null-terminated branch of `readString`. `buf` has
capacity 360 and is never reallocated, so the slice expression
`buf[size : size+1]` faults once `size + 1` exceeds 360; it is evaluated
before the read. -/
def readStringLoop : List Nat → List Nat → Outcome Str
  | buf, [] =>
    if 360 < buf.length + 1 then Outcome.panic
    else Outcome.done ⟨buf, some Error.EOF, []⟩
  | buf, b :: rest =>
    if 360 < buf.length + 1 then Outcome.panic
    else if b = endStringByte then Outcome.done ⟨buf, none, rest⟩
    else readStringLoop (buf ++ [b]) rest

/-- Go `readString`. -/
def readString (r : List Nat) : Outcome Str :=
  match readByte r with
  | ⟨_, some err, rest⟩ => Outcome.done ⟨[], some err, rest⟩
  | ⟨lenByte, none, rest⟩ =>
    if lenByte < beginStringByte then
      Outcome.done (ReadFull rest lenByte)
    else
      readStringLoop [] rest

/-- Go `writeString`. `strings.ContainsRune(s, 0)` is a search for the byte
`0x00`. -/
def writeString (w : Writer) (s : Str) : Writer × Option Error :=
  if 0 ∈ s then (w, some Error.nullInString)
  else if s.length < beginStringByte then
    match w.Write [s.length % 256] with
    | (w1, some err) => (w1, some err)
    | (w1, none) => w1.Write s
  else
    match w.Write [beginStringByte] with
    | (w1, some err) => (w1, some err)
    | (w1, none) =>
      match w1.Write s with
      | (w2, some err) => (w2, some err)
      | (w2, none) => w2.Write [endStringByte]

/-! ## entry.go -/

/-- An `Entry`: `Int` is a Go `int32`, `Double` a `float64` kept as its
64-bit IEEE-754 pattern (`math.Float64bits`), `Bool` a `bool`. -/
inductive Entry where
  | Int (i : Int)
  | Double (bits : Nat)
  | Bool (b : Bool)
  deriving DecidableEq, Repr

/-- The values an `Entry` can hold in Go: a 32-bit signed integer, a 64-bit
pattern, a boolean. -/
def Entry.WellFormed : Entry → Prop
  | Entry.Int i => -2147483648 ≤ i ∧ i < 2147483648
  | Entry.Double bits => bits < 18446744073709551616
  | Entry.Bool _ => True

instance (e : Entry) : Decidable e.WellFormed := by
  cases e <;> unfold Entry.WellFormed <;> infer_instance

/-- Go `binary.BigEndian.PutUint32`. -/
def putUint32 (v : Nat) : List Nat :=
  [(v >>> 24) % 256, (v >>> 16) % 256, (v >>> 8) % 256, v % 256]

/-- Go `binary.BigEndian.PutUint64`. -/
def putUint64 (v : Nat) : List Nat :=
  [(v >>> 56) % 256, (v >>> 48) % 256, (v >>> 40) % 256, (v >>> 32) % 256,
   (v >>> 24) % 256, (v >>> 16) % 256, (v >>> 8) % 256, v % 256]

/-- Go `binary.BigEndian.Uint32`. -/
def uint32 (b : List Nat) : Nat :=
  b.getD 3 0 ||| (b.getD 2 0 <<< 8) ||| (b.getD 1 0 <<< 16) ||| (b.getD 0 0 <<< 24)

/-- Go `binary.BigEndian.Uint64`. -/
def uint64 (b : List Nat) : Nat :=
  b.getD 7 0 ||| (b.getD 6 0 <<< 8) ||| (b.getD 5 0 <<< 16) ||| (b.getD 4 0 <<< 24) |||
    (b.getD 3 0 <<< 32) ||| (b.getD 2 0 <<< 40) ||| (b.getD 1 0 <<< 48) ||| (b.getD 0 0 <<< 56)

/-- Go conversion `uint32(i)` of an `int32`. -/
def int32ToUint32 (i : Int) : Nat := (i % 4294967296).toNat

/-- Go conversion `int32(u)` of a `uint32`. -/
def uint32ToInt32 (u : Nat) : Int :=
  if u % 4294967296 < 2147483648 then (u % 4294967296 : Nat) else (u % 4294967296 : Nat) - 4294967296

/-- Go `Int.encode`, `Double.encode` and `Bool.encode`; `binary.Write` puts
the value in a scratch buffer and issues one `Write`. -/
def Entry.encode (e : Entry) (w : Writer) : Writer × Option Error :=
  match e with
  | Entry.Int i =>
    match w.Write [codeInt] with
    | (w1, some err) => (w1, some err)
    | (w1, none) => w1.Write (putUint32 (int32ToUint32 i))
  | Entry.Double n =>
    match w.Write [codeDouble] with
    | (w1, some err) => (w1, some err)
    | (w1, none) => w1.Write (putUint64 n)
  | Entry.Bool b =>
    w.Write [if b then codeBoolTrue else codeBoolFalse]

/-- Go `decodeEntry`. A nil `Entry` is `none`; when `binary.Read` fails the
zero value of the variable is returned next to the error. -/
def decodeEntry (r : List Nat) : Got (Option Entry) :=
  match readByte r with
  | ⟨_, some err, rest⟩ => ⟨none, some err, rest⟩
  | ⟨code, none, rest⟩ =>
    if code = codeBoolTrue then ⟨some (Entry.Bool true), none, rest⟩
    else if code = codeBoolFalse then ⟨some (Entry.Bool false), none, rest⟩
    else if code = codeInt then
      match ReadFull rest 4 with
      | ⟨_, some err, rest2⟩ => ⟨some (Entry.Int 0), some err, rest2⟩
      | ⟨bs, none, rest2⟩ => ⟨some (Entry.Int (uint32ToInt32 (uint32 bs))), none, rest2⟩
    else if code = codeDouble then
      match ReadFull rest 8 with
      | ⟨_, some err, rest2⟩ => ⟨some (Entry.Double 0), some err, rest2⟩
      | ⟨bs, none, rest2⟩ => ⟨some (Entry.Double (uint64 bs)), none, rest2⟩
    else ⟨none, some Error.unrecognizedEntryCode, rest⟩

/-! ## Go maps -/

/-- Go `m[k]` with the comma-ok result, on a map kept as an association
list in insertion order. -/
def lookup {κ ν : Type} [DecidableEq κ] : List (κ × ν) → κ → Option ν
  | [], _ => none
  | (k1, v) :: m, k => if k1 = k then some v else lookup m k

/-- Go `m[k] = v`: replaces the value of a present key, adds an absent one. -/
def store {κ ν : Type} [DecidableEq κ] : List (κ × ν) → κ → ν → List (κ × ν)
  | [], k, v => [(k, v)]
  | (k1, v1) :: m, k, v => if k1 = k then (k, v) :: m else (k1, v1) :: store m k v

/-! ## nettable.go and protocol.go: frames -/

/-- Go `type key struct`. -/
structure key where
  TableID : Nat
  ID : Nat
  Name : Str
  deriving DecidableEq, Repr

/-- Go `key.encode`: the key-assignment frame. -/
def key.encode (k : key) (w : Writer) : Writer × Option Error :=
  match w.Write [codeAssignment] with
  | (w1, some err) => (w1, some err)
  | (w1, none) =>
    match writeID w1 codeTableID k.TableID with
    | (w2, some err) => (w2, some err)
    | (w2, none) =>
      match writeString w2 k.Name with
      | (w3, some err) => (w3, some err)
      | (w3, none) => writeID w3 codeID k.ID

/-- Go `type tableRequest struct`. -/
structure tableRequest where
  TableName : Str
  LocalID : Nat
  deriving DecidableEq, Repr

/-- Go `tableRequest.encode`. -/
def tableRequest.encode (ta : tableRequest) (w : Writer) : Writer × Option Error :=
  match w.Write [codeTableRequest] with
  | (w1, some err) => (w1, some err)
  | (w1, none) =>
    match writeString w1 ta.TableName with
    | (w2, some err) => (w2, some err)
    | (w2, none) => writeID w2 codeTableID ta.LocalID

/-- Go `type entryData struct`; the value is always an `Entry`. -/
structure entryData where
  LocalID : Nat
  Value : Entry
  deriving DecidableEq, Repr

/-- Go `entryData.encode`. -/
def entryData.encode (e : entryData) (w : Writer) : Writer × Option Error :=
  match writeID w codeID e.LocalID with
  | (w1, some err) => (w1, some err)
  | (w1, none) => e.Value.encode w1

/-- Go `confirmation.encode` for `confirmation(c)`. -/
def confirmation.encode (c : Nat) (w : Writer) : Writer × Option Error :=
  w.Write [codeConfirmation ||| (c % 256)]

/-- The `encoder` values that the client sends on `writeChan`. -/
inductive Frame where
  | key (k : key)
  | tableRequest (ta : tableRequest)
  | entryData (e : entryData)
  | confirmation (c : Nat)
  deriving DecidableEq, Repr

/-- The dynamic call `e.encode(w)` on an `encoder`. -/
def Frame.encode (f : Frame) (w : Writer) : Writer × Option Error :=
  match f with
  | Frame.key k => k.encode w
  | Frame.tableRequest ta => ta.encode w
  | Frame.entryData e => e.encode w
  | Frame.confirmation c => confirmation.encode c w

/-! ## nettable.go and protocol.go: tables and the client

A `*Table` is an index into `Client.heap`, the list of the `Table` objects
allocated so far. `writeChan` and `confirmChan` record, oldest first, the
values sent on the two channels. A handler returns `none` when it dereferences
a nil pointer. -/

/-- Go `type Table struct`: the local ID and the cache `values`. -/
structure Table where
  id : Nat
  values : List (Str × Entry)
  deriving DecidableEq, Repr

/-- Go `Table.Get`: the cached value, or nil (`none`). -/
def Table.Get (t : Table) (k : Str) : Option Entry := lookup t.values k

/-- Go `Table.update`. -/
def Table.update (t : Table) (k : Str) (value : Entry) : Table :=
  { t with values := store t.values k value }

/-- Go `type Client struct`: the registry, the table objects and the traffic
on the channels. -/
structure Client where
  nextTableID : Nat
  nextKeyID : Nat
  keys : List (Nat × key)
  tables : List (Nat × Nat)
  tableNames : List (Str × Nat)
  remoteKeys : List (Nat × Nat)
  remoteTables : List (Nat × Nat)
  heap : List Table
  writeChan : List Frame
  confirmChan : List Bool
  deriving DecidableEq, Repr

/-- Go `NewClient`: empty maps, zero counters, nothing sent. -/
def NewClient : Client :=
  { nextTableID := 0, nextKeyID := 0, keys := [], tables := [], tableNames := [],
    remoteKeys := [], remoteTables := [], heap := [], writeChan := [], confirmChan := [] }

/-- Go `type putRequest struct`; the result channel is the returned error. -/
structure putRequest where
  Table : Nat
  Key : Str
  Value : Entry
  deriving DecidableEq, Repr

/-- The call `t.Get(key)` through the pointer `t`. -/
def Client.Get (c : Client) (t : Nat) (k : Str) : Option (Option Entry) :=
  (c.heap[t]?).map (fun T => T.Get k)

/-- The call `t.update(key, value)` through the pointer `t`. -/
def Client.update (c : Client) (t : Nat) (k : Str) (value : Entry) : Option Client :=
  match c.heap[t]? with
  | none => none
  | some T => some { c with heap := c.heap.set t (T.update k value) }

/-- Go `Client.Table`. The result is the new state and the returned
`*Table`. -/
def Client.Table (c : Client) (name : Str) : Client × Option Nat :=
  match lookup c.tableNames name with
  | some id => (c, lookup c.tables id)
  | none =>
    let table : Nettable.Table := { id := c.nextTableID, values := [] }
    let ptr := c.heap.length
    ({ c with
        heap := c.heap ++ [table]
        nextTableID := (c.nextTableID + 1) % 4294967296
        tableNames := store c.tableNames name table.id
        tables := store c.tables table.id ptr
        writeChan := c.writeChan ++ [Frame.tableRequest ⟨name, table.id⟩] },
      some ptr)

/-- Go `Client.getKeyID`. The range over the map visits the keys in
insertion order. -/
def Client.getKeyID (c : Client) (tableID : Nat) (name : Str) : Client × Nat :=
  match c.keys.find? (fun p => decide (p.2.TableID = tableID ∧ p.2.Name = name)) with
  | some p => (c, p.2.ID)
  | none =>
    let k : key := { TableID := tableID, Name := name, ID := c.nextKeyID }
    ({ c with
        keys := store c.keys k.ID k
        nextKeyID := (c.nextKeyID + 1) % 4294967296
        writeChan := c.writeChan ++ [Frame.key k] },
      k.ID)

/-- Go `Client.sendPutRequest`. -/
def Client.sendPutRequest (c : Client) (req : putRequest) : Option Client :=
  match c.heap[req.Table]? with
  | none => none
  | some T =>
    let (c1, id) := c.getKeyID T.id req.Key
    some { c1 with writeChan := c1.writeChan ++ [Frame.entryData ⟨id, req.Value⟩] }

/-- The `putRequests` arm of the loop in Go `Client.requests`, serving one
request: `success` is the value received from `confirmChan`, the error is the
value sent on `req.Result`. -/
def Client.requests (c : Client) (req : putRequest) (success : Bool) :
    Option (Client × Option Error) :=
  match c.sendPutRequest req with
  | none => none
  | some c1 =>
    if success then
      match c1.update req.Table req.Key req.Value with
      | none => none
      | some c2 => some (c2, none)
    else
      some (c1, some Error.ErrDenial)

/-- Go `Client.write`: every frame, in order, encoded onto the connection;
errors are dropped. -/
def Client.write (frames : List Frame) (w : Writer) : Writer :=
  frames.foldl (fun w1 e => (e.encode w1).1) w

/-! ## protocol.go: the reader

The connection `c.r` is the list of bytes that have not been read yet. -/

/-- What one handler of the reader leaves behind: the client, the error it
returned and the unread bytes. -/
structure Step where
  client : Client
  err : Option Error
  rest : List Nat
  deriving DecidableEq, Repr

/-- Go `Client.readData`. The lookups `c.keys[localID]` and
`c.tables[k.TableID]` are unchecked: a missing key is the zero `key`, a
missing table a nil pointer, on which `update` faults. `decodeEntry` never
returns a nil entry next to a nil error. -/
def Client.readData (c : Client) (r : List Nat) : Option Step :=
  match readID r codeID with
  | ⟨_, some err, rest⟩ => some ⟨c, some err, rest⟩
  | ⟨remoteID, none, rest⟩ =>
    match decodeEntry rest with
    | ⟨_, some err, rest2⟩ => some ⟨c, some err, rest2⟩
    | ⟨none, none, _⟩ => none
    | ⟨some entry, none, rest2⟩ =>
      match lookup c.remoteKeys remoteID with
      | none => some ⟨c, none, rest2⟩
      | some localID =>
        let k : key := (lookup c.keys localID).getD { TableID := 0, ID := 0, Name := [] }
        match lookup c.tables k.TableID with
        | none => none
        | some t =>
          match c.update t k.Name entry with
          | none => none
          | some c1 =>
            some ⟨{ c1 with writeChan := c1.writeChan ++ [Frame.confirmation 1] }, none, rest2⟩

/-- Go `Client.readTableAssignment`. -/
def Client.readTableAssignment (c : Client) (r : List Nat) : Option Step :=
  match readByte r with
  | ⟨_, some err, rest⟩ => some ⟨c, some err, rest⟩
  | ⟨_, none, rest⟩ =>
    match readID rest codeTableID with
    | ⟨_, some err, rest1⟩ => some ⟨c, some err, rest1⟩
    | ⟨localTableID, none, rest1⟩ =>
      match readID rest1 codeTableID with
      | ⟨_, some err, rest2⟩ => some ⟨c, some err, rest2⟩
      | ⟨remoteTableID, none, rest2⟩ =>
        match lookup c.tables localTableID with
        | none => some ⟨c, none, rest2⟩
        | some _ =>
          some ⟨{ c with remoteTables := store c.remoteTables remoteTableID localTableID },
            none, rest2⟩

/-- Go `Client.readAssignment`. A fault of `readString` is a fault of the
handler. The range over `c.keys` visits the keys in insertion order. -/
def Client.readAssignment (c : Client) (r : List Nat) : Option Step :=
  match readByte r with
  | ⟨_, some err, rest⟩ => some ⟨c, some err, rest⟩
  | ⟨_, none, rest⟩ =>
    match readID rest codeTableID with
    | ⟨_, some err, rest1⟩ => some ⟨c, some err, rest1⟩
    | ⟨remoteTableID, none, rest1⟩ =>
      match readString rest1 with
      | Outcome.panic => none
      | Outcome.done ⟨_, some err, rest2⟩ => some ⟨c, some err, rest2⟩
      | Outcome.done ⟨keyName, none, rest2⟩ =>
        match readID rest2 codeID with
        | ⟨_, some err, rest3⟩ => some ⟨c, some err, rest3⟩
        | ⟨remoteID, none, rest3⟩ =>
          match lookup c.remoteTables remoteTableID with
          | none => some ⟨c, none, rest3⟩
          | some localTableID =>
            match c.keys.find?
                (fun p => decide (p.2.TableID = localTableID ∧ p.2.Name = keyName)) with
            | some p =>
              some ⟨{ c with remoteKeys := store c.remoteKeys remoteID p.2.ID }, none, rest3⟩
            | none =>
              let (c1, id) := c.getKeyID localTableID keyName
              some ⟨{ c1 with remoteKeys := store c1.remoteKeys remoteID id }, none, rest3⟩

/-- Go `Client.readConfirmation`: `n` sends of `true` on `confirmChan`. -/
def Client.readConfirmation (c : Client) (r : List Nat) : Option Step :=
  match readByte r with
  | ⟨_, some err, rest⟩ => some ⟨c, some err, rest⟩
  | ⟨val, none, rest⟩ =>
    if val < codeConfirmation ∨ val ≥ codeConfirmation <<< 1 then
      some ⟨c, some Error.badConfirmation, rest⟩
    else
      let n := andNot val codeConfirmation
      some ⟨{ c with confirmChan := c.confirmChan ++ List.replicate n true }, none, rest⟩

/-- Go `Client.readDenial`: `n` sends of `false` on `confirmChan`. -/
def Client.readDenial (c : Client) (r : List Nat) : Option Step :=
  match readByte r with
  | ⟨_, some err, rest⟩ => some ⟨c, some err, rest⟩
  | ⟨val, none, rest⟩ =>
    if val < codeDenial ∨ val ≥ codeDenial <<< 1 then
      some ⟨c, some Error.badDenial, rest⟩
    else
      let n := andNot val codeDenial
      some ⟨{ c with confirmChan := c.confirmChan ++ List.replicate n false }, none, rest⟩

/-- One pass of the loop of Go `Client.read`: the leading byte is read and
unread, then the handler chosen by the `switch` runs on the same bytes. A
failed `ReadByte` ends the loop and is reported as the error of the pass; the
error of a handler is dropped by the loop and only reported here. -/
def Client.read (c : Client) (r : List Nat) : Option Step :=
  match readByte r with
  | ⟨_, some err, _⟩ => some ⟨c, some err, r⟩
  | ⟨code, none, rest⟩ =>
    if code ≥ codeID then c.readData r
    else if code = codeTableAssignment then c.readTableAssignment r
    else if code = codeAssignment then c.readAssignment r
    else if code ≥ codeConfirmation then c.readConfirmation r
    else if code ≥ codeDenial then c.readDenial r
    else some ⟨c, none, rest⟩

/-! ## Reachable states -/

/-- The states a client goes through: a new client, then any sequence of
`Table` calls, served puts (confirmed or denied) and passes of the reader
over inbound bytes. -/
inductive Reachable : Client → Prop where
  | new : Reachable NewClient
  | table (c : Client) (name : Str) : Reachable c → Reachable (c.Table name).1
  | put (c c1 : Client) (req : putRequest) (success : Bool) (e : Option Error) :
      Reachable c → c.requests req success = some (c1, e) → Reachable c1
  | frame (c : Client) (r : List Nat) (st : Step) :
      Reachable c → c.read r = some st → Reachable st.client

/-- The states that come after a state `c`: `c` itself, then any sequence of
`Table` calls, served puts and passes of the reader. -/
inductive Later (c : Client) : Client → Prop where
  | refl : Later c c
  | table (c1 : Client) (name : Str) : Later c c1 → Later c (c1.Table name).1
  | put (c1 c2 : Client) (req : putRequest) (success : Bool) (e : Option Error) :
      Later c c1 → c1.requests req success = some (c2, e) → Later c c2
  | frame (c1 : Client) (r : List Nat) (st : Step) :
      Later c c1 → c1.read r = some st → Later c st.client

/-- A denied put of the key whose name is `i` bytes `0x01` on the table
object 0. -/
def deniedPut (c : Client) (i : Nat) : Client :=
  match c.requests ⟨0, List.replicate i 1, Entry.Bool true⟩ false with
  | some (c1, _) => c1
  | none => c

/-- The client after `Table("A")` and `n` denied puts of `n` different keys
on that table. -/
def afterPuts (n : Nat) : Client :=
  (List.range n).foldl deniedPut (NewClient.Table [65]).1

/-- The client after `Table("A")` and the table assignment `03 40 4a`
(remote table 10 is local table 0). -/
def assignedClient : Client :=
  match (NewClient.Table [65]).1.read [0x03, 0x40, 0x4a] with
  | none => NewClient
  | some st => st.client

/-- The client `assignedClient` after the key assignment `06 4a 01 'B' 85`
(remote key 5 is the key `"B"` of remote table 10). -/
def syncedClient : Client :=
  match assignedClient.read [0x06, 0x4a, 0x01, 66, 0x85] with
  | none => NewClient
  | some st => st.client

/-- The client after `n` calls of `Table` with `n` different names: the
name of call `i` is `i` bytes `0x01`. -/
def afterTables (n : Nat) : Client :=
  (List.range n).foldl (fun c i => (c.Table (List.replicate i 1)).1) NewClient

/-! ## io_test.go: test vectors -/

/-- Go `idTests`: mask, ID and encoded bytes. -/
def idTests : List (Nat × Nat × List Nat) :=
  [(codeID, 0x00000000, [0x80]),
   (codeID, 0x00000001, [0x81]),
   (codeID, 0x0000007b, [0xfb]),
   (codeID, 0x0000007c, [0xfc, 0x7c]),
   (codeID, 0x000000ff, [0xfc, 0xff]),
   (codeID, 0x00000100, [0xfd, 0x01, 0x00]),
   (codeID, 0x0000ffff, [0xfd, 0xff, 0xff]),
   (codeID, 0x00010000, [0xfe, 0x01, 0x00, 0x00]),
   (codeID, 0x00ffffff, [0xfe, 0xff, 0xff, 0xff]),
   (codeID, 0x01000000, [0xff, 0x01, 0x00, 0x00, 0x00]),
   (codeID, 0xffffffff, [0xff, 0xff, 0xff, 0xff, 0xff]),
   (codeTableID, 0x00000000, [0x40]),
   (codeTableID, 0x00000001, [0x41]),
   (codeTableID, 0x0000003b, [0x7b]),
   (codeTableID, 0x0000003c, [0x7c, 0x3c]),
   (codeTableID, 0x000000ff, [0x7c, 0xff]),
   (codeTableID, 0x00000100, [0x7d, 0x01, 0x00]),
   (codeTableID, 0x0000ffff, [0x7d, 0xff, 0xff]),
   (codeTableID, 0x00010000, [0x7e, 0x01, 0x00, 0x00]),
   (codeTableID, 0x00ffffff, [0x7e, 0xff, 0xff, 0xff]),
   (codeTableID, 0x01000000, [0x7f, 0x01, 0x00, 0x00, 0x00]),
   (codeTableID, 0xffffffff, [0x7f, 0xff, 0xff, 0xff, 0xff])]

example : (writeID Writer.buffer 0x80 124).1.data = [0xfc, 0x7c] := by decide
example : (writeID Writer.buffer 0x40 0xffffffff).1.data = [0x7f, 0xff, 0xff, 0xff, 0xff] := by decide
example : readID [0x7f, 0xff, 0xff, 0xff, 0xff, 9] 0x40 = ⟨0xffffffff, none, [9]⟩ := by decide
example : (writeString Writer.buffer [72, 105]).1.data = [2, 72, 105] := by decide
example : readString [2, 72, 105, 7] = Outcome.done ⟨[72, 105], none, [7]⟩ := by decide
example : (Client.write (NewClient.Table [65]).1.writeChan Writer.buffer).data = [0x0c, 1, 65, 0x40] := by decide
example : ((NewClient.Table [65]).1.read [0x03, 0x40, 0x4a, 9]).map
    (fun st => (st.client.remoteTables, st.err, st.rest)) = some ([(10, 0)], none, [9]) := by
  decide
example : syncedClient =
    { nextTableID := 1, nextKeyID := 1, keys := [(0, ⟨0, 0, [66]⟩)], tables := [(0, 0)],
      tableNames := [([65], 0)], remoteKeys := [(5, 0)], remoteTables := [(10, 0)],
      heap := [⟨0, []⟩],
      writeChan := [Frame.tableRequest ⟨[65], 0⟩, Frame.key ⟨0, 0, [66]⟩],
      confirmChan := [] } := by decide
example : (afterTables 2).tableNames = [([], 0), ([1], 1)] ∧ (afterTables 2).nextTableID = 2 ∧
    (afterTables 2).tables = [(0, 0), (1, 1)] := by decide
example : (afterPuts 3).keys.map Prod.fst = [0, 1, 2] ∧ (afterPuts 3).nextKeyID = 3 := by decide
example : (NewClient.read [0x23, 9]).map (fun st => (st.client.confirmChan, st.rest)) =
    some ([true, true, true], [9]) := by decide
example : ((NewClient.Table [65]).1.requests ⟨0, [66], Entry.Int (-27)⟩ true).map
    (fun r => ((Client.write r.1.writeChan Writer.buffer).data, r.2, r.1.Get 0 [66])) =
    some ([0x0c, 1, 65, 0x40, 6, 0x40, 1, 66, 0x80, 0x80, 1, 0xff, 0xff, 0xff, 0xe5], none,
      some (some (Entry.Int (-27)))) := by decide


/-! ## Spec-side definitions -/

/-- The `L` big-endian bytes holding `id`: byte `j` is the base-256 digit of
weight `256 ^ (L - 1 - j)`. -/
def bigEndian (L id : Nat) : List Nat :=
  (List.range L).map (fun j => id / 256 ^ (L - 1 - j) % 256)

/-- The 32-bit two's-complement representation of a signed integer: the
value itself when it is not negative, `2 ^ 32` plus the value otherwise. -/
def twosComplement32 (i : Int) : Nat :=
  if 0 ≤ i then i.toNat else (4294967296 + i).toNat

/-- The effect the spec gives a key-assignment frame (remote table `R`, name
`n`, remote key `K`): resolve the remote table ID to a local table ID and
drop the frame when it is unknown; otherwise map the remote key ID to the
local ID of the key for (local table, name), minting that key through the
registry when it does not exist yet. -/
def assignmentEffect (c : Client) (R : Nat) (n : Str) (K : Nat) : Client :=
  match lookup c.remoteTables R with
  | none => c
  | some T =>
    { (c.getKeyID T n).1 with remoteKeys := store c.remoteKeys K (c.getKeyID T n).2 }

/-- The invariant of the key registry, on the map `keys` and the counter
`next`: every key is stored under its own ID, no two keys have the same
(table ID, name) pair, the counter is a `uint32`, and the IDs in use are
`0 .. next - 1` in the order of minting, or all of `0 .. 2 ^ 32 - 1` once the
counter has wrapped around. -/
def KeysInvariant (keys : List (Nat × key)) (next : Nat) : Prop :=
  (∀ p ∈ keys, p.2.ID = p.1) ∧
  keys.Pairwise (fun a b => ¬ (a.2.TableID = b.2.TableID ∧ a.2.Name = b.2.Name)) ∧
  next < 4294967296 ∧
  (keys.map Prod.fst = List.range next ∨ keys.map Prod.fst = List.range 4294967296)

/-- Referential integrity of the registry: every local ID that `remoteKeys`
maps to is a key of `keys`; the table ID of every registered key, every local
ID that `remoteTables` or `tableNames` maps to and the ID of every table
object is a key of `tables`; every pointer in `tables` points to a table
object; the counter `nextTableID` is a `uint32`, and the table IDs in use are
`0 .. nextTableID - 1`, or all of `0 .. 2 ^ 32 - 1` once the counter has
wrapped around. -/
def RegistryInvariant (c : Client) : Prop :=
  (∀ p ∈ c.remoteKeys, p.2 ∈ c.keys.map Prod.fst) ∧
  (∀ p ∈ c.keys, p.2.TableID ∈ c.tables.map Prod.fst) ∧
  (∀ p ∈ c.remoteTables, p.2 ∈ c.tables.map Prod.fst) ∧
  (∀ p ∈ c.tableNames, p.2 ∈ c.tables.map Prod.fst) ∧
  (∀ p ∈ c.tables, p.2 < c.heap.length) ∧
  (∀ T ∈ c.heap, T.id ∈ c.tables.map Prod.fst) ∧
  c.nextTableID < 4294967296 ∧
  (c.tables.map Prod.fst = List.range c.nextTableID ∨
    c.tables.map Prod.fst = List.range 4294967296)

/-! ## Lemmas: writers -/

theorem Write_unbounded (d p : List Nat) :
    Writer.Write ⟨d, none⟩ p = (⟨d ++ p, none⟩, none) := rfl

/-- One step of the big-endian accumulation of `readID` on a byte. -/
theorem readID_step (acc x : Nat) :
    ((acc <<< 8) % 4294967296) ||| (x % 256) = (acc % 16777216) * 256 + x % 256 := by
  have h1 : (acc <<< 8) % 4294967296 = 2 ^ 8 * (acc % 16777216) := by
    rw [Nat.shiftLeft_eq]; omega
  rw [h1, ← Nat.mul_add_lt_is_or (by omega : x % 256 < 2 ^ 8)]
  omega

/-- The bytes `writeID` appends to an unbounded sink, case by case. -/
theorem writeID_unbounded (d : List Nat) (m : Nat) (id : Nat)
    (hm : m = 128 ∨ m = 64) :
    writeID ⟨d, none⟩ m id =
      (⟨d ++
        (if id < m - 4 then [m ||| id]
         else if id < 256 then [m + (m - 4), id]
         else if id < 65536 then [m + (m - 4) + 1, id / 256 % 256, id % 256]
         else if id < 16777216 then [m + (m - 4) + 2, id / 65536 % 256, id / 256 % 256, id % 256]
         else [m + (m - 4) + 3, id / 16777216 % 256, id / 65536 % 256, id / 256 % 256, id % 256]),
        none⟩, none) := by
  rcases hm with rfl | rfl
  · unfold writeID
    by_cases h0 : id < 124
    · have : id % 256 = id := by omega
      simp [h0, Write_unbounded, this]
    · by_cases h1 : id < 256
      · have : id % 256 = id := by omega
        simp [h0, h1, Write_unbounded, this, andNot]
        decide
      · by_cases h2 : id < 65536
        · simp [h0, h1, h2, Write_unbounded, andNot, Nat.shiftRight_eq_div_pow]
          decide
        · by_cases h3 : id < 16777216
          · simp [h0, h1, h2, h3, Write_unbounded, andNot, Nat.shiftRight_eq_div_pow]
            decide
          · simp [h0, h1, h2, h3, Write_unbounded, andNot, Nat.shiftRight_eq_div_pow]
            decide
  · unfold writeID
    by_cases h0 : id < 60
    · have : id % 256 = id := by omega
      simp [h0, Write_unbounded, this]
    · by_cases h1 : id < 256
      · have : id % 256 = id := by omega
        simp [h0, h1, Write_unbounded, this, andNot]
        decide
      · by_cases h2 : id < 65536
        · simp [h0, h1, h2, Write_unbounded, andNot, Nat.shiftRight_eq_div_pow]
          decide
        · by_cases h3 : id < 16777216
          · simp [h0, h1, h2, h3, Write_unbounded, andNot, Nat.shiftRight_eq_div_pow]
            decide
          · simp [h0, h1, h2, h3, Write_unbounded, andNot, Nat.shiftRight_eq_div_pow]
            decide

/-- Clearing the mask bit of a compact key-ID byte gives the ID back. -/
theorem andNot_compact_key : ∀ id, id < 124 → andNot (128 ||| id) 128 = id := by
  decide

/-- Clearing the mask bit of a compact table-ID byte gives the ID back. -/
theorem andNot_compact_table : ∀ id, id < 60 → andNot (64 ||| id) 64 = id := by
  decide

/-- The compact branch of `readID`. -/
theorem readID_compact (m hd : Nat) (rest : List Nat)
    (h : andNot hd m < (m + 252) % 256) :
    readID (hd :: rest) m = ⟨andNot hd m, none, rest⟩ := by
  simp [readID, ReadFull, h]

/-- The extended branch of `readID` when the announced bytes are there. -/
theorem readID_extended (m hd k : Nat) (bs rest : List Nat)
    (h1 : ¬ andNot hd m < (m + 252) % 256) (h2 : andNot hd m &&& 3 = k)
    (hlen : bs.length = k + 1) :
    readID (hd :: (bs ++ rest)) m =
      ⟨bs.foldl (fun id b => ((id <<< 8) % 4294967296) ||| b) 0, none, rest⟩ := by
  simp [readID, ReadFull, h1, h2, hlen]

/-- The decoder `readID` inverts the byte layout of `writeID_unbounded`. -/
theorem readID_encoded (m id : Nat) (rest : List Nat) (hm : m = 128 ∨ m = 64)
    (hid : id < 4294967296) :
    readID
      ((if id < m - 4 then [m ||| id]
         else if id < 256 then [m + (m - 4), id]
         else if id < 65536 then [m + (m - 4) + 1, id / 256 % 256, id % 256]
         else if id < 16777216 then [m + (m - 4) + 2, id / 65536 % 256, id / 256 % 256, id % 256]
         else [m + (m - 4) + 3, id / 16777216 % 256, id / 65536 % 256, id / 256 % 256, id % 256])
        ++ rest) m = ⟨id, none, rest⟩ := by
  rcases hm with rfl | rfl
  · by_cases h0 : id < 124
    · have h := andNot_compact_key id h0
      simp only [h0, if_true, Nat.reduceSub, List.singleton_append]
      rw [readID_compact _ _ _ (by rw [h]; omega), h]
    · by_cases h1 : id < 256
      · have e : id = id % 256 := by omega
        simp only [h0, h1, if_true, if_false, Nat.reduceSub, Nat.reduceAdd, List.cons_append,
          List.nil_append]
        rw [show id :: rest = [id] ++ rest from rfl,
          readID_extended 128 252 0 [id] rest (by decide) (by decide) rfl]
        simp only [List.foldl]
        rw [e, readID_step]; simp
      · by_cases h2 : id < 65536
        · simp only [h0, h1, h2, if_true, if_false, Nat.reduceSub, Nat.reduceAdd,
            List.cons_append, List.nil_append]
          rw [show id / 256 % 256 :: id % 256 :: rest = [id / 256 % 256, id % 256] ++ rest from rfl,
            readID_extended 128 253 1 [id / 256 % 256, id % 256] rest (by decide) (by decide) rfl]
          simp only [List.foldl, readID_step]; simp; omega
        · by_cases h3 : id < 16777216
          · simp only [h0, h1, h2, h3, if_true, if_false, Nat.reduceSub, Nat.reduceAdd,
              List.cons_append, List.nil_append]
            rw [show id / 65536 % 256 :: id / 256 % 256 :: id % 256 :: rest
                = [id / 65536 % 256, id / 256 % 256, id % 256] ++ rest from rfl,
              readID_extended 128 254 2
                [id / 65536 % 256, id / 256 % 256, id % 256] rest (by decide) (by decide) rfl]
            simp only [List.foldl, readID_step]; simp; omega
          · simp only [h0, h1, h2, h3, if_true, if_false, Nat.reduceSub, Nat.reduceAdd,
              List.cons_append, List.nil_append]
            rw [show id / 16777216 % 256 :: id / 65536 % 256 :: id / 256 % 256 :: id % 256 :: rest
                = [id / 16777216 % 256, id / 65536 % 256, id / 256 % 256, id % 256] ++ rest
                from rfl,
              readID_extended 128 255 3
                [id / 16777216 % 256, id / 65536 % 256, id / 256 % 256, id % 256] rest (by decide) (by decide) rfl]
            simp only [List.foldl, readID_step]; simp; omega
  · by_cases h0 : id < 60
    · have h := andNot_compact_table id h0
      simp only [h0, if_true, Nat.reduceSub, List.singleton_append]
      rw [readID_compact _ _ _ (by rw [h]; omega), h]
    · by_cases h1 : id < 256
      · have e : id = id % 256 := by omega
        simp only [h0, h1, if_true, if_false, Nat.reduceSub, Nat.reduceAdd, List.cons_append,
          List.nil_append]
        rw [show id :: rest = [id] ++ rest from rfl,
          readID_extended 64 124 0 [id] rest (by decide) (by decide) rfl]
        simp only [List.foldl]
        rw [e, readID_step]; simp
      · by_cases h2 : id < 65536
        · simp only [h0, h1, h2, if_true, if_false, Nat.reduceSub, Nat.reduceAdd,
            List.cons_append, List.nil_append]
          rw [show id / 256 % 256 :: id % 256 :: rest = [id / 256 % 256, id % 256] ++ rest from rfl,
            readID_extended 64 125 1 [id / 256 % 256, id % 256] rest (by decide) (by decide) rfl]
          simp only [List.foldl, readID_step]; simp; omega
        · by_cases h3 : id < 16777216
          · simp only [h0, h1, h2, h3, if_true, if_false, Nat.reduceSub, Nat.reduceAdd,
              List.cons_append, List.nil_append]
            rw [show id / 65536 % 256 :: id / 256 % 256 :: id % 256 :: rest
                = [id / 65536 % 256, id / 256 % 256, id % 256] ++ rest from rfl,
              readID_extended 64 126 2
                [id / 65536 % 256, id / 256 % 256, id % 256] rest (by decide) (by decide) rfl]
            simp only [List.foldl, readID_step]; simp; omega
          · simp only [h0, h1, h2, h3, if_true, if_false, Nat.reduceSub, Nat.reduceAdd,
              List.cons_append, List.nil_append]
            rw [show id / 16777216 % 256 :: id / 65536 % 256 :: id / 256 % 256 :: id % 256 :: rest
                = [id / 16777216 % 256, id / 65536 % 256, id / 256 % 256, id % 256] ++ rest
                from rfl,
              readID_extended 64 127 3
                [id / 16777216 % 256, id / 65536 % 256, id / 256 % 256, id % 256] rest (by decide) (by decide) rfl]
            simp only [List.foldl, readID_step]; simp; omega

theorem mask_cases (m : Nat) (hm : m = codeID ∨ m = codeTableID) : m = 128 ∨ m = 64 := hm

/-! ## Identifier codec -/

/-- C1: for every 32-bit id `v` and each namespace mask (key `0x80`, table
`0x40`), `writeID` on a sink that accepts writes succeeds and appends some
bytes `bs`, and `readID` with the same mask on `bs` followed by any further
bytes `rest` returns `v` with no error and leaves exactly `rest` unread. -/
theorem readID_writeID_roundtrip (m v : Nat) (d rest : List Nat)
    (hm : m = codeID ∨ m = codeTableID) (hv : v < 4294967296) :
    ∃ bs, writeID ⟨d, none⟩ m v = (⟨d ++ bs, none⟩, none) ∧
      readID (bs ++ rest) m = ⟨v, none, rest⟩ :=
  ⟨_, writeID_unbounded d m v (mask_cases m hm), readID_encoded m v rest (mask_cases m hm) hv⟩

theorem readID_writeID_roundtrip_witness :
    (codeTableID = codeID ∨ codeTableID = codeTableID) ∧ 65536 < 4294967296 ∧
    ∃ bs, writeID ⟨[], none⟩ codeTableID 65536 = (⟨[] ++ bs, none⟩, none) ∧
      readID (bs ++ [7, 9]) codeTableID = ⟨65536, none, [7, 9]⟩ :=
  ⟨Or.inr rfl, by decide,
    readID_writeID_roundtrip codeTableID 65536 [] [7, 9] (Or.inr rfl) (by decide)⟩

/-- C7: for each mask `m` in {0x80, 0x40} and every 32-bit `id`: when
`id ≤ m - 5`, `writeID` writes the single byte `m | id`; otherwise it writes
the leading byte `m | ((m-1) & ~3) | (L-1)` followed by the `L` big-endian
bytes of `id`, where `L` in {1,2,3,4} is the least number of bytes in which
`id` fits. The canonical vectors of `idTests` come out byte for byte. -/
theorem writeID_format (m id : Nat) (d : List Nat)
    (hm : m = codeID ∨ m = codeTableID) (hid : id < 4294967296) :
    (id ≤ m - 5 → writeID ⟨d, none⟩ m id = (⟨d ++ [m ||| id], none⟩, none)) ∧
    (¬ id ≤ m - 5 → ∃ L, 1 ≤ L ∧ L ≤ 4 ∧ id < 256 ^ L ∧
      (∀ L', 1 ≤ L' → id < 256 ^ L' → L ≤ L') ∧
      writeID ⟨d, none⟩ m id =
        (⟨d ++ ((m ||| ((m - 1) &&& (255 ^^^ 3)) ||| (L - 1)) :: bigEndian L id), none⟩, none)) ∧
    (∀ t ∈ idTests, writeID Writer.buffer t.1 t.2.1 = (⟨t.2.2, none⟩, none)) := by
  have hw := writeID_unbounded d m id (mask_cases m hm)
  have hmin : ∀ L L', 1 ≤ L' → id < 256 ^ L' → 256 ^ (L - 1) ≤ id → 1 < L → L ≤ L' := by
    intro L L' _ h2 h3 _
    by_contra hlt
    have : 256 ^ L' ≤ 256 ^ (L - 1) := Nat.pow_le_pow_right (by decide) (by omega)
    omega
  refine ⟨?_, ?_, by decide⟩
  · intro h
    rcases mask_cases m hm with rfl | rfl
    · rw [hw, if_pos (by omega)]
    · rw [hw, if_pos (by omega)]
  · intro h
    rcases mask_cases m hm with rfl | rfl
    · by_cases h1 : id < 256
      · refine ⟨1, le_refl _, by decide, by omega, fun L' h _ => h, ?_⟩
        rw [hw, if_neg (by omega), if_pos h1]
        have : bigEndian 1 id = [id] := by simp [bigEndian]; omega
        rw [this]; rfl
      · by_cases h2 : id < 65536
        · refine ⟨2, by decide, by decide, by omega,
            fun L' a b => hmin 2 L' a b (by omega) (by decide), ?_⟩
          rw [hw, if_neg (by omega), if_neg h1, if_pos h2]
          have : bigEndian 2 id = [id / 256 % 256, id % 256] := by
            simp [bigEndian, List.range_succ]
          rw [this]; rfl
        · by_cases h3 : id < 16777216
          · refine ⟨3, by decide, by decide, by omega,
              fun L' a b => hmin 3 L' a b (by omega) (by decide), ?_⟩
            rw [hw, if_neg (by omega), if_neg h1, if_neg h2, if_pos h3]
            have : bigEndian 3 id = [id / 65536 % 256, id / 256 % 256, id % 256] := by
              simp [bigEndian, List.range_succ]
            rw [this]; rfl
          · refine ⟨4, by decide, by decide, by omega,
              fun L' a b => hmin 4 L' a b (by omega) (by decide), ?_⟩
            rw [hw, if_neg (by omega), if_neg h1, if_neg h2, if_neg h3]
            have : bigEndian 4 id =
                [id / 16777216 % 256, id / 65536 % 256, id / 256 % 256, id % 256] := by
              simp [bigEndian, List.range_succ]
            rw [this]; rfl
    · by_cases h1 : id < 256
      · refine ⟨1, le_refl _, by decide, by omega, fun L' h _ => h, ?_⟩
        rw [hw, if_neg (by omega), if_pos h1]
        have : bigEndian 1 id = [id] := by simp [bigEndian]; omega
        rw [this]; rfl
      · by_cases h2 : id < 65536
        · refine ⟨2, by decide, by decide, by omega,
            fun L' a b => hmin 2 L' a b (by omega) (by decide), ?_⟩
          rw [hw, if_neg (by omega), if_neg h1, if_pos h2]
          have : bigEndian 2 id = [id / 256 % 256, id % 256] := by
            simp [bigEndian, List.range_succ]
          rw [this]; rfl
        · by_cases h3 : id < 16777216
          · refine ⟨3, by decide, by decide, by omega,
              fun L' a b => hmin 3 L' a b (by omega) (by decide), ?_⟩
            rw [hw, if_neg (by omega), if_neg h1, if_neg h2, if_pos h3]
            have : bigEndian 3 id = [id / 65536 % 256, id / 256 % 256, id % 256] := by
              simp [bigEndian, List.range_succ]
            rw [this]; rfl
          · refine ⟨4, by decide, by decide, by omega,
              fun L' a b => hmin 4 L' a b (by omega) (by decide), ?_⟩
            rw [hw, if_neg (by omega), if_neg h1, if_neg h2, if_neg h3]
            have : bigEndian 4 id =
                [id / 16777216 % 256, id / 65536 % 256, id / 256 % 256, id % 256] := by
              simp [bigEndian, List.range_succ]
            rw [this]; rfl

theorem writeID_format_witness :
    (codeID = codeID ∨ codeID = codeTableID) ∧ 124 < 4294967296 ∧ ¬ 124 ≤ codeID - 5 ∧
    ∃ L, 1 ≤ L ∧ L ≤ 4 ∧ 124 < 256 ^ L ∧ (∀ L', 1 ≤ L' → 124 < 256 ^ L' → L ≤ L') ∧
      writeID ⟨[], none⟩ codeID 124 =
        (⟨[] ++ ((codeID ||| ((codeID - 1) &&& (255 ^^^ 3)) ||| (L - 1)) :: bigEndian L 124),
          none⟩, none) :=
  ⟨Or.inl rfl, by decide, by decide,
    (writeID_format codeID 124 [] (Or.inl rfl) (by decide)).2.1 (by decide)⟩

/-! ## String codec -/

/-- The two layouts of `writeString` on a sink that accepts writes. -/
theorem writeString_unbounded (s d : List Nat) (h0 : 0 ∉ s) :
    writeString ⟨d, none⟩ s =
      (⟨d ++ (if s.length < 255 then s.length :: s else 255 :: (s ++ [0])), none⟩, none) := by
  unfold writeString
  by_cases hl : s.length < 255
  · have : s.length % 256 = s.length := by omega
    simp [h0, hl, beginStringByte, Write_unbounded, this]
  · simp [h0, hl, beginStringByte, endStringByte, Write_unbounded]

/-- The null-terminated loop of `readString` on a null-free text followed by
the terminator: it returns the text as long as the text fits into the 360
bytes of the buffer together with the byte being examined, and faults
otherwise. -/
theorem readStringLoop_text (s : List Nat) (h0 : 0 ∉ s) (buf rest : List Nat) :
    readStringLoop buf (s ++ 0 :: rest) =
      if buf.length + s.length < 360 then Outcome.done ⟨buf ++ s, none, rest⟩
      else Outcome.panic := by
  induction s generalizing buf with
  | nil =>
    by_cases h : buf.length < 360
    · have h2 : ¬ 360 < buf.length + 1 := by omega
      simp [readStringLoop, endStringByte, h, h2]
    · have h2 : 360 < buf.length + 1 := by omega
      simp [readStringLoop, h, h2]
  | cons b s ih =>
    have hb : b ≠ 0 := fun e => h0 (by simp [e])
    have hs : 0 ∉ s := fun e => h0 (List.mem_cons_of_mem _ e)
    by_cases h : 360 < buf.length + 1
    · have h3 : ¬ buf.length + (s.length + 1) < 360 := by omega
      simp [readStringLoop, h, h3]
    · have e : (buf ++ [b]).length + s.length = buf.length + (s.length + 1) := by
        simp; omega
      have step : readStringLoop buf (b :: (s ++ 0 :: rest)) =
          readStringLoop (buf ++ [b]) (s ++ 0 :: rest) := by
        rw [readStringLoop, if_neg h, if_neg (by simpa [endStringByte] using hb)]
      rw [List.cons_append, step, ih hs, e]
      simp

/-- What `readString` makes of the bytes `writeString` produces for a
null-free string: the string itself up to 359 bytes, a fault from 360 on. -/
theorem readString_written (s rest : List Nat) (h0 : 0 ∉ s) :
    readString ((if s.length < 255 then s.length :: s else 255 :: (s ++ [0])) ++ rest) =
      if s.length < 360 then Outcome.done ⟨s, none, rest⟩ else Outcome.panic := by
  by_cases hl : s.length < 255
  · have h1 : s.length < 360 := by omega
    simp [hl, h1, readString, readByte, beginStringByte, ReadFull]
  · have := readStringLoop_text s h0 [] rest
    simp [hl, readString, readByte, beginStringByte, this]

/-- Round trip of short strings: for every null-free string of fewer than 360
bytes, `writeString` succeeds and `readString` on the written bytes, followed
by anything, returns the string with no error and leaves the rest unread. -/
theorem readString_writeString_below_360 (s d rest : List Nat) (h0 : 0 ∉ s)
    (hl : s.length < 360) :
    ∃ bs, writeString ⟨d, none⟩ s = (⟨d ++ bs, none⟩, none) ∧
      readString (bs ++ rest) = Outcome.done ⟨s, none, rest⟩ :=
  ⟨_, writeString_unbounded s d h0, by rw [readString_written s rest h0, if_pos hl]⟩

/-- No round trip for long strings: from 360 bytes on `writeString` still
succeeds, and `readString` faults on the bytes it wrote. -/
theorem readString_writeString_from_360 (s d rest : List Nat) (h0 : 0 ∉ s)
    (hl : 360 ≤ s.length) :
    ∃ bs, writeString ⟨d, none⟩ s = (⟨d ++ bs, none⟩, none) ∧
      readString (bs ++ rest) = Outcome.panic :=
  ⟨_, writeString_unbounded s d h0, by rw [readString_written s rest h0, if_neg (by omega)]⟩

/-- C2: the string of 360 bytes `'A'` has no null byte, `writeString` encodes
it as `ff`, the text, `00`, and `readString` applied to exactly these bytes
faults instead of returning the string. -/
theorem readString_faults_on_360_bytes :
    0 ∉ List.replicate 360 65 ∧
    writeString Writer.buffer (List.replicate 360 65) =
      (⟨255 :: (List.replicate 360 65 ++ [0]), none⟩, none) ∧
    readString (255 :: (List.replicate 360 65 ++ [0])) = Outcome.panic := by
  have h0 : 0 ∉ List.replicate 360 65 :=
    fun h => absurd (List.eq_of_mem_replicate h) (by decide)
  refine ⟨h0, ?_, ?_⟩
  · have := writeString_unbounded (List.replicate 360 65) [] h0
    rw [List.length_replicate, if_neg (by decide)] at this
    exact this
  · have := readString_written (List.replicate 360 65) [] h0
    rw [List.length_replicate, if_neg (by decide), if_neg (by decide), List.append_nil] at this
    exact this

/-- C8: for every null-free string, on a sink that accepts writes: a string
shorter than 255 bytes is written as one length byte equal to its length
followed by its bytes; a string of 255 bytes or more is written as the
sentinel `0xff`, its bytes, and the terminator `0x00`. -/
theorem writeString_format (s d : List Nat) (h0 : 0 ∉ s) :
    (s.length < 255 → writeString ⟨d, none⟩ s = (⟨d ++ s.length :: s, none⟩, none)) ∧
    (255 ≤ s.length →
      writeString ⟨d, none⟩ s = (⟨d ++ 0xff :: (s ++ [0x00]), none⟩, none)) := by
  have h := writeString_unbounded s d h0
  constructor
  · intro hl; rw [h, if_pos hl]
  · intro hl; rw [h, if_neg (by omega)]

theorem writeString_format_witness :
    0 ∉ List.replicate 254 65 ∧ (List.replicate 254 65).length < 255 ∧
    writeString ⟨[], none⟩ (List.replicate 254 65) =
      (⟨[] ++ (List.replicate 254 65).length :: List.replicate 254 65, none⟩, none) :=
  ⟨fun h => absurd (List.eq_of_mem_replicate h) (by decide),
    by rw [List.length_replicate]; decide,
    (writeString_format (List.replicate 254 65) []
      (fun h => absurd (List.eq_of_mem_replicate h) (by decide))).1
      (by rw [List.length_replicate]; decide)⟩

/-- A write fails only with the error of the sink. -/
theorem Write_error (w : Writer) (p : List Nat) :
    (w.Write p).2 = none ∨ (w.Write p).2 = some Error.ErrShortWrite := by
  unfold Writer.Write
  cases w.room with
  | none => exact Or.inl rfl
  | some k => by_cases h : p.length ≤ k <;> simp [h]

/-- C10: on a sink that accepts writes, `writeString` returns an error
exactly when the string contains a `0x00` byte; on any sink, a string with a
`0x00` byte gives the null-byte error with the sink untouched, and whenever
`writeString` returns the null-byte error nothing has been written. -/
theorem writeString_error_iff (s : List Nat) :
    (∀ d, (writeString ⟨d, none⟩ s).2 ≠ none ↔ 0 ∈ s) ∧
    (∀ w, 0 ∈ s → writeString w s = (w, some Error.nullInString)) ∧
    (∀ w, (writeString w s).2 = some Error.nullInString → (writeString w s).1 = w) := by
  refine ⟨?_, ?_, ?_⟩
  · intro d
    by_cases h0 : 0 ∈ s
    · simp [writeString, h0]
    · simp [writeString_unbounded s d h0, h0]
  · intro w h0
    simp [writeString, h0]
  · intro w
    by_cases h0 : 0 ∈ s
    · simp [writeString, h0]
    · intro h
      exfalso
      unfold writeString at h
      simp only [h0, if_false] at h
      by_cases hl : s.length < beginStringByte
      · simp only [hl, if_true] at h
        rcases e1 : w.Write [s.length % 256] with ⟨w1, _ | err⟩
        · rw [e1] at h
          rcases Write_error w1 s with h2 | h2 <;> rw [h2] at h <;> cases h
        · have h2 := Write_error w [s.length % 256]
          rw [e1] at h h2
          simp at h h2
          rw [h2] at h; cases h
      · simp only [hl, if_false] at h
        rcases e1 : w.Write [beginStringByte] with ⟨w1, _ | err⟩
        · rw [e1] at h
          simp only at h
          rcases e2 : w1.Write s with ⟨w2, _ | err2⟩
          · rw [e2] at h
            rcases Write_error w2 [endStringByte] with h2 | h2 <;> rw [h2] at h <;> cases h
          · have h2 := Write_error w1 s
            rw [e2] at h h2
            simp at h h2
            rw [h2] at h; cases h
        · have h2 := Write_error w [beginStringByte]
          rw [e1] at h h2
          simp at h h2
          rw [h2] at h; cases h

theorem writeString_error_iff_witness :
    0 ∈ [72, 0, 105] ∧
    writeString ⟨[1, 2], some 9⟩ [72, 0, 105] = (⟨[1, 2], some 9⟩, some Error.nullInString) :=
  ⟨by decide, (writeString_error_iff [72, 0, 105]).2.1 ⟨[1, 2], some 9⟩ (by decide)⟩

/-! ## Entry codec -/

/-- A low part below `2 ^ k` and a part shifted left by `k` share no bit. -/
theorem lor_shiftLeft (lo hi k : Nat) (h : lo < 2 ^ k) :
    lo ||| (hi <<< k) = lo + hi * 2 ^ k := by
  rw [Nat.lor_comm, Nat.shiftLeft_eq, Nat.mul_comm, ← Nat.mul_add_lt_is_or h]
  omega

theorem uint32_putUint32 (u : Nat) (hu : u < 4294967296) : uint32 (putUint32 u) = u := by
  simp only [uint32, putUint32, List.getD_cons_zero, List.getD_cons_succ,
    Nat.shiftRight_eq_div_pow]
  rw [lor_shiftLeft _ _ 8 (by omega), lor_shiftLeft _ _ 16 (by omega),
    lor_shiftLeft _ _ 24 (by omega)]
  omega

theorem uint64_putUint64 (u : Nat) (hu : u < 18446744073709551616) :
    uint64 (putUint64 u) = u := by
  simp only [uint64, putUint64, List.getD_cons_zero, List.getD_cons_succ,
    Nat.shiftRight_eq_div_pow]
  rw [lor_shiftLeft _ _ 8 (by omega), lor_shiftLeft _ _ 16 (by omega),
    lor_shiftLeft _ _ 24 (by omega), lor_shiftLeft _ _ 32 (by omega),
    lor_shiftLeft _ _ 40 (by omega), lor_shiftLeft _ _ 48 (by omega),
    lor_shiftLeft _ _ 56 (by omega)]
  omega

theorem int32_roundtrip (i : Int) (h1 : -2147483648 ≤ i) (h2 : i < 2147483648) :
    int32ToUint32 i < 4294967296 ∧ uint32ToInt32 (int32ToUint32 i) = i := by
  unfold uint32ToInt32 int32ToUint32
  constructor
  · omega
  · split_ifs <;> omega

/-- The bytes `Entry.encode` appends to a sink that accepts writes. -/
theorem Entry_encode_unbounded (e : Entry) (d : List Nat) :
    e.encode ⟨d, none⟩ =
      (⟨d ++ (match e with
          | Entry.Int i => codeInt :: putUint32 (int32ToUint32 i)
          | Entry.Double n => codeDouble :: putUint64 n
          | Entry.Bool b => [if b then codeBoolTrue else codeBoolFalse]), none⟩, none) := by
  cases e <;> simp [Entry.encode, Write_unbounded]

/-- C3: for every entry `e` (an `Int` in the 32-bit signed range, a `Double`
given by its 64-bit pattern, a `Bool`), `encode` on a sink that accepts writes
succeeds and appends some bytes `bs`, and `decodeEntry` on `bs` followed by
any further bytes `rest` returns `e` with no error and leaves exactly `rest`
unread. -/
theorem decodeEntry_encode_roundtrip (e : Entry) (d rest : List Nat) (he : e.WellFormed) :
    ∃ bs, e.encode ⟨d, none⟩ = (⟨d ++ bs, none⟩, none) ∧
      decodeEntry (bs ++ rest) = ⟨some e, none, rest⟩ := by
  refine ⟨_, Entry_encode_unbounded e d, ?_⟩
  cases e with
  | Int i =>
    obtain ⟨h1, h2⟩ := he
    obtain ⟨hu, hr⟩ := int32_roundtrip i h1 h2
    have hb : uint32 (putUint32 (int32ToUint32 i)) = int32ToUint32 i := uint32_putUint32 _ hu
    have e4 : ReadFull (putUint32 (int32ToUint32 i) ++ rest) 4 =
        ⟨putUint32 (int32ToUint32 i), none, rest⟩ := by
      simp [ReadFull, putUint32]
    simp only [List.cons_append]
    unfold decodeEntry
    simp only [readByte, codeInt, codeBoolTrue, codeBoolFalse]
    simp only [e4, hb, hr]
    simp
  | Double n =>
    have hn : n < 18446744073709551616 := he
    have hb := uint64_putUint64 n hn
    have e8 : ReadFull (putUint64 n ++ rest) 8 = ⟨putUint64 n, none, rest⟩ := by
      simp [ReadFull, putUint64]
    simp only [List.cons_append]
    unfold decodeEntry
    simp only [readByte, codeInt, codeBoolTrue, codeBoolFalse, codeDouble]
    simp only [e8, hb]
    simp
  | Bool b =>
    cases b <;> simp [decodeEntry, readByte, codeBoolTrue, codeBoolFalse]

theorem decodeEntry_encode_roundtrip_witness :
    (Entry.Int (-27)).WellFormed ∧
    ∃ bs, (Entry.Int (-27)).encode ⟨[], none⟩ = (⟨[] ++ bs, none⟩, none) ∧
      decodeEntry (bs ++ [3]) = ⟨some (Entry.Int (-27)), none, [3]⟩ :=
  ⟨by decide, decodeEntry_encode_roundtrip (Entry.Int (-27)) [] [3] (by decide)⟩

/-- C9: entry encoding is fixed-width and tagged, on a sink that accepts
writes: `Int(i)` for a 32-bit signed `i` is the tag `0x01` followed by the four
big-endian bytes of the two's-complement representation of `i`, a `Double` is
the tag `0x02` followed by the eight big-endian bytes of its 64-bit pattern,
`Bool(true)` is the single byte `0x05` and `Bool(false)` the single,
different byte `0x04`; `Int(-27)` is `01 ff ff ff e5`. -/
theorem Entry_encode_format (i : Int) (n : Nat) (d : List Nat)
    (h1 : -2147483648 ≤ i) (h2 : i < 2147483648) :
    (Entry.Int i).encode ⟨d, none⟩ =
      (⟨d ++ 0x01 :: bigEndian 4 (twosComplement32 i), none⟩, none) ∧
    (bigEndian 4 (twosComplement32 i)).length = 4 ∧
    (Entry.Double n).encode ⟨d, none⟩ = (⟨d ++ 0x02 :: bigEndian 8 n, none⟩, none) ∧
    (bigEndian 8 n).length = 8 ∧
    (Entry.Bool true).encode ⟨d, none⟩ = (⟨d ++ [0x05], none⟩, none) ∧
    (Entry.Bool false).encode ⟨d, none⟩ = (⟨d ++ [0x04], none⟩, none) ∧
    (Entry.Int (-27)).encode Writer.buffer = (⟨[0x01, 0xff, 0xff, 0xff, 0xe5], none⟩, none) := by
  have ht : int32ToUint32 i = twosComplement32 i := by
    unfold int32ToUint32 twosComplement32
    split_ifs <;> omega
  refine ⟨?_, by simp [bigEndian], ?_, by simp [bigEndian], ?_, ?_, by decide⟩
  · rw [Entry_encode_unbounded]
    simp [ht, codeInt, putUint32, bigEndian, List.range_succ, Nat.shiftRight_eq_div_pow]
  · rw [Entry_encode_unbounded]
    simp [codeDouble, putUint64, bigEndian, List.range_succ, Nat.shiftRight_eq_div_pow]
  · rw [Entry_encode_unbounded]; simp [codeBoolTrue]
  · rw [Entry_encode_unbounded]; simp [codeBoolFalse]

theorem Entry_encode_format_witness :
    (-2147483648 : Int) ≤ -2147483648 ∧ (-2147483648 : Int) < 2147483648 ∧
    (Entry.Int (-2147483648)).encode ⟨[], none⟩ =
      (⟨[] ++ 0x01 :: bigEndian 4 (twosComplement32 (-2147483648)), none⟩, none) :=
  ⟨by decide, by decide, (Entry_encode_format (-2147483648) 0 [] (by decide) (by decide)).1⟩

/-! ## Frames -/

theorem writeID_appends (d : List Nat) (m id : Nat) (hm : m = 128 ∨ m = 64) :
    writeID ⟨d, none⟩ m id = (⟨d ++ (writeID Writer.buffer m id).1.data, none⟩, none) := by
  rw [Writer.buffer, writeID_unbounded d m id hm, writeID_unbounded [] m id hm]
  simp

theorem writeString_appends (d s : List Nat) (h0 : 0 ∉ s) :
    writeString ⟨d, none⟩ s =
      (⟨d ++ (writeString Writer.buffer s).1.data, none⟩, none) := by
  rw [Writer.buffer, writeString_unbounded s d h0, writeString_unbounded s [] h0]
  simp

theorem Entry_encode_appends (d : List Nat) (e : Entry) :
    e.encode ⟨d, none⟩ = (⟨d ++ (e.encode Writer.buffer).1.data, none⟩, none) := by
  rw [Writer.buffer, Entry_encode_unbounded e d, Entry_encode_unbounded e []]
  simp

/-- The key-assignment frame on a sink that accepts writes: `0x06`, the table
ID in the table namespace, the name, the key ID in the key namespace. -/
theorem key_encode_unbounded (k : key) (d : List Nat) (h0 : 0 ∉ k.Name) :
    k.encode ⟨d, none⟩ =
      (⟨d ++ 0x06 :: ((writeID Writer.buffer codeTableID k.TableID).1.data ++
          (writeString Writer.buffer k.Name).1.data ++
          (writeID Writer.buffer codeID k.ID).1.data), none⟩, none) := by
  unfold key.encode
  rw [Write_unbounded]
  dsimp only
  rw [writeID_appends _ codeTableID _ (Or.inr rfl)]
  dsimp only
  rw [writeString_appends _ _ h0]
  dsimp only
  rw [writeID_appends _ codeID _ (Or.inl rfl)]
  simp [codeAssignment]

/-- The table-request frame on a sink that accepts writes: `0x0c`, the name,
the table ID in the table namespace. -/
theorem tableRequest_encode_unbounded (ta : tableRequest) (d : List Nat)
    (h0 : 0 ∉ ta.TableName) :
    ta.encode ⟨d, none⟩ =
      (⟨d ++ 0x0c :: ((writeString Writer.buffer ta.TableName).1.data ++
          (writeID Writer.buffer codeTableID ta.LocalID).1.data), none⟩, none) := by
  unfold tableRequest.encode
  rw [Write_unbounded]
  dsimp only
  rw [writeString_appends _ _ h0]
  dsimp only
  rw [writeID_appends _ codeTableID _ (Or.inr rfl)]
  simp [codeTableRequest]

/-- The data frame on a sink that accepts writes: the key ID in the key
namespace, then the encoded entry. -/
theorem entryData_encode_unbounded (e : entryData) (d : List Nat) :
    e.encode ⟨d, none⟩ =
      (⟨d ++ ((writeID Writer.buffer codeID e.LocalID).1.data ++
          (e.Value.encode Writer.buffer).1.data), none⟩, none) := by
  unfold entryData.encode
  rw [writeID_appends _ codeID _ (Or.inl rfl)]
  dsimp only
  rw [Entry_encode_appends]
  simp

/-! ## Maps -/

theorem lookup_store_self {κ ν : Type} [DecidableEq κ] (m : List (κ × ν)) (k : κ) (v : ν) :
    lookup (store m k v) k = some v := by
  induction m with
  | nil => simp [store, lookup]
  | cons p m ih =>
    obtain ⟨k1, v1⟩ := p
    by_cases h : k1 = k
    · simp [store, lookup, h]
    · simp [store, lookup, h, ih]

theorem lookup_store_other {κ ν : Type} [DecidableEq κ] (m : List (κ × ν)) (k k2 : κ) (v : ν)
    (hne : k ≠ k2) : lookup (store m k v) k2 = lookup m k2 := by
  induction m with
  | nil => simp [store, lookup, hne]
  | cons p m ih =>
    obtain ⟨k1, v1⟩ := p
    by_cases h : k1 = k
    · subst h; simp [store, lookup, hne]
    · by_cases h2 : k1 = k2
      · subst h2; simp [store, lookup, h]
      · simp [store, lookup, h, h2, ih]

/-! ## The client: tables and puts -/

/-- A key that is not registered yet is minted with the next key ID and
announced. -/
theorem getKeyID_fresh (c : Client) (tableID : Nat) (name : Str)
    (hnew : ∀ p ∈ c.keys, ¬ (p.2.TableID = tableID ∧ p.2.Name = name)) :
    c.getKeyID tableID name =
      ({ c with
          keys := store c.keys c.nextKeyID ⟨tableID, c.nextKeyID, name⟩
          nextKeyID := (c.nextKeyID + 1) % 4294967296
          writeChan := c.writeChan ++ [Frame.key ⟨tableID, c.nextKeyID, name⟩] },
        c.nextKeyID) := by
  have hf : c.keys.find? (fun p => decide (p.2.TableID = tableID ∧ p.2.Name = name)) = none := by
    rw [List.find?_eq_none]
    intro p hp
    simpa using hnew p hp
  unfold Client.getKeyID
  rw [hf]

/-- Neither `getKeyID` nor `sendPutRequest` touches a table object. -/
theorem getKeyID_heap (c : Client) (tableID : Nat) (name : Str) :
    (c.getKeyID tableID name).1.heap = c.heap := by
  unfold Client.getKeyID
  split <;> rfl

theorem sendPutRequest_heap (c c1 : Client) (req : putRequest)
    (h : c.sendPutRequest req = some c1) : c1.heap = c.heap := by
  unfold Client.sendPutRequest at h
  cases hT : c.heap[req.Table]? with
  | none => simp [hT] at h
  | some T =>
    simp only [hT, Option.some.injEq] at h
    rw [← h]
    exact getKeyID_heap c T.id req.Key

/-- A confirmed put of a key that is not registered: the key-assignment frame
for (`T.id`, `k`, `c.nextKeyID`) and then the data frame are enqueued after
what was enqueued before, the put returns nil and `Get(k)` on `T` returns `v`;
on the wire the first frame is `0x06`, table ID, name, key ID, and the second
is key ID, encoded entry. -/
theorem requests_confirmed (c : Client) (t : Nat) (T : Table) (k : Str) (v : Entry)
    (hT : c.heap[t]? = some T) (hk : 0 ∉ k)
    (hnew : ∀ p ∈ c.keys, ¬ (p.2.TableID = T.id ∧ p.2.Name = k)) :
    ∃ c1, c.requests ⟨t, k, v⟩ true = some (c1, none) ∧
      c1.writeChan = c.writeChan ++
        [Frame.key ⟨T.id, c.nextKeyID, k⟩, Frame.entryData ⟨c.nextKeyID, v⟩] ∧
      c1.Get t k = some (some v) ∧
      (Frame.key ⟨T.id, c.nextKeyID, k⟩).encode Writer.buffer =
        (⟨0x06 :: ((writeID Writer.buffer codeTableID T.id).1.data ++
            (writeString Writer.buffer k).1.data ++
            (writeID Writer.buffer codeID c.nextKeyID).1.data), none⟩, none) ∧
      (Frame.entryData ⟨c.nextKeyID, v⟩).encode Writer.buffer =
        (⟨(writeID Writer.buffer codeID c.nextKeyID).1.data ++
            (v.encode Writer.buffer).1.data, none⟩, none) := by
  have hlt : t < c.heap.length := by
    rcases Nat.lt_or_ge t c.heap.length with h | h
    · exact h
    · rw [List.getElem?_eq_none h] at hT; cases hT
  have hsend : c.sendPutRequest ⟨t, k, v⟩ =
      some ({ c with
        keys := store c.keys c.nextKeyID ⟨T.id, c.nextKeyID, k⟩
        nextKeyID := (c.nextKeyID + 1) % 4294967296
        writeChan := c.writeChan ++
          [Frame.key ⟨T.id, c.nextKeyID, k⟩, Frame.entryData ⟨c.nextKeyID, v⟩] }) := by
    unfold Client.sendPutRequest
    simp only [hT, getKeyID_fresh c T.id k hnew]
    simp
  refine ⟨{ c with
      keys := store c.keys c.nextKeyID ⟨T.id, c.nextKeyID, k⟩
      nextKeyID := (c.nextKeyID + 1) % 4294967296
      writeChan := c.writeChan ++
        [Frame.key ⟨T.id, c.nextKeyID, k⟩, Frame.entryData ⟨c.nextKeyID, v⟩]
      heap := c.heap.set t (T.update k v) }, ?_, ?_, ?_, ?_, ?_⟩
  · unfold Client.requests
    rw [hsend]
    simp only [if_true, Client.update, hT]
  · rfl
  · simp [Client.Get, hlt, Nettable.Table.Get, Nettable.Table.update, lookup_store_self]
  · have := key_encode_unbounded ⟨T.id, c.nextKeyID, k⟩ [] hk
    simpa [Frame.encode, Writer.buffer] using this
  · have := entryData_encode_unbounded ⟨c.nextKeyID, v⟩ []
    simpa [Frame.encode, Writer.buffer] using this

/-- C5: for every table object, key and value: when the signal answering the
put is a denial, the put returns `ErrDenial` and no table object is changed, so
`Get` returns for every table and every key, the one that was put included,
what it returned before the put. -/
theorem put_denied (c : Client) (req : putRequest) (T : Table)
    (hT : c.heap[req.Table]? = some T) :
    ∃ c1, c.requests req false = some (c1, some Error.ErrDenial) ∧
      c1.heap = c.heap ∧ ∀ t k, c1.Get t k = c.Get t k := by
  have hsend : ∃ c1, c.sendPutRequest req = some c1 := by
    unfold Client.sendPutRequest
    rw [hT]
    exact ⟨_, rfl⟩
  obtain ⟨c1, h1⟩ := hsend
  have hheap := sendPutRequest_heap c c1 req h1
  refine ⟨c1, ?_, hheap, ?_⟩
  · unfold Client.requests
    rw [h1]
    rfl
  · intro t k
    unfold Client.Get
    rw [hheap]

theorem put_denied_witness :
    (NewClient.Table [65]).1.heap[0]? = some ⟨0, []⟩ ∧
    ∃ c1, (NewClient.Table [65]).1.requests ⟨0, [66], Entry.Int (-27)⟩ false =
        some (c1, some Error.ErrDenial) ∧
      c1.heap = (NewClient.Table [65]).1.heap ∧
      ∀ t k, c1.Get t k = (NewClient.Table [65]).1.Get t k :=
  ⟨by decide, put_denied (NewClient.Table [65]).1 ⟨0, [66], Entry.Int (-27)⟩ ⟨0, []⟩ (by decide)⟩

/-- One call of `Table` in any client state. When the name is not
registered, the call allocates a fresh table object with the next local table
ID (0 on a new client), advances the counter, registers the object under that
ID and the ID under the name, enqueues exactly one table-request frame
(`0x0c`, name, table ID) and changes nothing else; a second call right after
it returns the same object and leaves the whole state as it is. When the name
is registered, the call returns the object registered for its ID and leaves
the whole state as it is. -/
theorem Table_call (c : Client) (name : Str) :
    (lookup c.tableNames name = none →
      ∃ c1, c.Table name = (c1, some c.heap.length) ∧
        c1.heap = c.heap ++ [⟨c.nextTableID, []⟩] ∧
        c1.nextTableID = (c.nextTableID + 1) % 4294967296 ∧
        lookup c1.tableNames name = some c.nextTableID ∧
        lookup c1.tables c.nextTableID = some c.heap.length ∧
        c1.writeChan = c.writeChan ++ [Frame.tableRequest ⟨name, c.nextTableID⟩] ∧
        c1.nextKeyID = c.nextKeyID ∧ c1.keys = c.keys ∧ c1.remoteKeys = c.remoteKeys ∧
        c1.remoteTables = c.remoteTables ∧ c1.confirmChan = c.confirmChan ∧
        c1.Table name = (c1, some c.heap.length)) ∧
    (∀ id, lookup c.tableNames name = some id → c.Table name = (c, lookup c.tables id)) ∧
    (c.Table name).1.Table name = c.Table name ∧
    NewClient.nextTableID = 0 ∧
    (∀ id, 0 ∉ name → (Frame.tableRequest ⟨name, id⟩).encode Writer.buffer =
      (⟨0x0c :: ((writeString Writer.buffer name).1.data ++
          (writeID Writer.buffer codeTableID id).1.data), none⟩, none)) ∧
    Client.write (NewClient.Table [65]).1.writeChan Writer.buffer = ⟨[0x0c, 0x01, 65, 0x40], none⟩ := by
  have hfirst : lookup c.tableNames name = none →
      c.Table name =
        ({ c with
            heap := c.heap ++ [⟨c.nextTableID, []⟩]
            nextTableID := (c.nextTableID + 1) % 4294967296
            tableNames := store c.tableNames name c.nextTableID
            tables := store c.tables c.nextTableID c.heap.length
            writeChan := c.writeChan ++ [Frame.tableRequest ⟨name, c.nextTableID⟩] },
          some c.heap.length) := by
    intro h
    unfold Client.Table
    rw [h]
  have hlater : ∀ (c0 : Client) id, lookup c0.tableNames name = some id →
      c0.Table name = (c0, lookup c0.tables id) := by
    intro c0 id h
    unfold Client.Table
    rw [h]
  refine ⟨?_, hlater c, ?_, rfl, ?_, by decide⟩
  · intro h
    refine ⟨_, hfirst h, rfl, rfl, lookup_store_self _ _ _, lookup_store_self _ _ _, rfl, rfl,
      rfl, rfl, rfl, rfl, ?_⟩
    rw [hlater _ c.nextTableID (lookup_store_self _ _ _)]
    simp only [lookup_store_self]
  · cases h : lookup c.tableNames name with
    | none =>
      rw [hfirst h, hlater _ c.nextTableID (lookup_store_self _ _ _)]
      simp only [lookup_store_self]
    | some id =>
      rw [hlater c id h, hlater c id h]
  · intro id h0
    have := tableRequest_encode_unbounded ⟨name, id⟩ [] h0
    simpa [Frame.encode, Writer.buffer] using this

/-- C11: for every input that starts with a byte other than the four entry
tags `0x01` (int), `0x02` (double), `0x04` (false), `0x05` (true),
`decodeEntry` consumes that byte, returns the unrecognized-entry-code error
and no entry; for an input that starts with one of the four tags and holds
the full payload (none for the booleans, four bytes for an int, eight for a
double), it returns an entry and no error, and consumes exactly the tag and
the payload. -/
theorem decodeEntry_tags (b : Nat) (rest : List Nat) :
    (b ≠ 0x01 → b ≠ 0x02 → b ≠ 0x04 → b ≠ 0x05 →
      decodeEntry (b :: rest) = ⟨none, some Error.unrecognizedEntryCode, rest⟩) ∧
    decodeEntry (0x05 :: rest) = ⟨some (Entry.Bool true), none, rest⟩ ∧
    decodeEntry (0x04 :: rest) = ⟨some (Entry.Bool false), none, rest⟩ ∧
    (4 ≤ rest.length → ∃ e, decodeEntry (0x01 :: rest) = ⟨some e, none, rest.drop 4⟩) ∧
    (8 ≤ rest.length → ∃ e, decodeEntry (0x02 :: rest) = ⟨some e, none, rest.drop 8⟩) := by
  refine ⟨?_, ?_, ?_, ?_, ?_⟩
  · intro h1 h2 h4 h5
    simp [decodeEntry, readByte, codeBoolTrue, codeBoolFalse, codeInt, codeDouble, h1, h2, h4, h5]
  · simp [decodeEntry, readByte, codeBoolTrue]
  · simp [decodeEntry, readByte, codeBoolTrue, codeBoolFalse]
  · intro h
    refine ⟨Entry.Int (uint32ToInt32 (uint32 (rest.take 4))), ?_⟩
    simp [decodeEntry, readByte, codeBoolTrue, codeBoolFalse, codeInt, ReadFull, h]
  · intro h
    refine ⟨Entry.Double (uint64 (rest.take 8)), ?_⟩
    simp [decodeEntry, readByte, codeBoolTrue, codeBoolFalse, codeInt, codeDouble, ReadFull, h]

theorem decodeEntry_tags_witness :
    (3 : Nat) ≠ 0x01 ∧ (3 : Nat) ≠ 0x02 ∧ (3 : Nat) ≠ 0x04 ∧ (3 : Nat) ≠ 0x05 ∧
    decodeEntry (3 :: [1, 2]) = ⟨none, some Error.unrecognizedEntryCode, [1, 2]⟩ :=
  ⟨by decide, by decide, by decide, by decide,
    (decodeEntry_tags 3 [1, 2]).1 (by decide) (by decide) (by decide) (by decide)⟩

/-- The null-terminated loop of `readString` on a null-free text with no
terminator after it: the text and `io.EOF` while the text fits into the
buffer together with the byte being examined, a fault otherwise. -/
theorem readStringLoop_unterminated (s : List Nat) (h0 : 0 ∉ s) (buf : List Nat) :
    readStringLoop buf s =
      if buf.length + s.length < 360 then Outcome.done ⟨buf ++ s, some Error.EOF, []⟩
      else Outcome.panic := by
  induction s generalizing buf with
  | nil =>
    by_cases h : buf.length < 360
    · have h2 : ¬ 360 < buf.length + 1 := by omega
      simp [readStringLoop, h, h2]
    · have h2 : 360 < buf.length + 1 := by omega
      simp [readStringLoop, h, h2]
  | cons b s ih =>
    have hb : b ≠ 0 := fun e => h0 (by simp [e])
    have hs : 0 ∉ s := fun e => h0 (List.mem_cons_of_mem _ e)
    by_cases h : 360 < buf.length + 1
    · have h3 : ¬ buf.length + (s.length + 1) < 360 := by omega
      simp [readStringLoop, h, h3]
    · have e : (buf ++ [b]).length + s.length = buf.length + (s.length + 1) := by
        simp; omega
      rw [readStringLoop, if_neg h, if_neg (by simpa [endStringByte] using hb), ih hs, e]
      simp

/-- After the sentinel `0xff`, `readString` is its null-terminated loop on an
empty buffer. -/
theorem readString_sentinel (t : List Nat) : readString (255 :: t) = readStringLoop [] t := by
  simp [readString, readByte, beginStringByte]

/-- C12: `readString` does fault. On `ff`, 359 bytes `'B'`, `00` it returns
the 359 bytes; on `ff`, 360 bytes `'B'`, `00` it faults instead of returning
the 360 bytes that precede the first `0x00`, and on `ff`, 360 bytes `'B'`
with nothing after them it faults instead of returning an error. -/
theorem readString_faults_past_capacity :
    readString (255 :: (List.replicate 359 66 ++ [0])) =
      Outcome.done ⟨List.replicate 359 66, none, []⟩ ∧
    readString (255 :: (List.replicate 360 66 ++ [0])) = Outcome.panic ∧
    readString (255 :: List.replicate 360 66) = Outcome.panic := by
  have h0 : ∀ n, 0 ∉ List.replicate n 66 :=
    fun n h => absurd (List.eq_of_mem_replicate h) (by decide)
  refine ⟨?_, ?_, ?_⟩
  · have := readStringLoop_text (List.replicate 359 66) (h0 _) [] []
    rw [List.length_replicate, if_pos (by decide)] at this
    rw [readString_sentinel, this, List.nil_append]
  · have := readStringLoop_text (List.replicate 360 66) (h0 _) [] []
    rw [List.length_replicate, if_neg (by decide)] at this
    rw [readString_sentinel, this]
  · have := readStringLoop_unterminated (List.replicate 360 66) (h0 _) []
    rw [List.length_replicate, if_neg (by decide)] at this
    rw [readString_sentinel, this]

/-- A frame whose name has a null byte is encoded with an error on every
sink. -/
theorem key_encode_null_error (k : key) (w : Writer) (h0 : 0 ∈ k.Name) :
    (k.encode w).2 ≠ none := by
  unfold key.encode
  rcases h1 : w.Write [codeAssignment] with ⟨w1, _ | e1⟩
  · rcases h2 : writeID w1 codeTableID k.TableID with ⟨w2, _ | e2⟩
    · simp [h2, writeString, h0]
    · simp [h2]
  · simp

theorem tableRequest_encode_null_error (ta : tableRequest) (w : Writer)
    (h0 : 0 ∈ ta.TableName) : (ta.encode w).2 ≠ none := by
  unfold tableRequest.encode
  rcases h1 : w.Write [codeTableRequest] with ⟨w1, _ | e1⟩
  · simp [writeString, h0]
  · simp

/-- C20, as stated, fails: the key-assignment frame for table 0, key 0 and
the name `41 00` is encoded onto an empty buffer with the null-byte error, but
the bytes `06 40` have been written; the table-request frame for the same
name leaves the byte `0c` behind. -/
theorem frame_encode_null_writes_bytes :
    0 ∈ [65, 0] ∧
    key.encode ⟨0, 0, [65, 0]⟩ Writer.buffer = (⟨[0x06, 0x40], none⟩, some Error.nullInString) ∧
    (key.encode ⟨0, 0, [65, 0]⟩ Writer.buffer).1 ≠ Writer.buffer ∧
    tableRequest.encode ⟨[65, 0], 0⟩ Writer.buffer = (⟨[0x0c], none⟩, some Error.nullInString) ∧
    (tableRequest.encode ⟨[65, 0], 0⟩ Writer.buffer).1 ≠ Writer.buffer := by
  decide

/-- C20, amended: for every key-assignment frame and every table-request
frame whose name contains a `0x00` byte, encoding returns an error on every
sink, and the name itself and everything after it is never written; on a sink
that accepts writes the error is the null-byte error and what has been written
is the part of the frame that precedes the name: `0x06` and the table ID for a
key-assignment frame, `0x0c` for a table-request frame. -/
theorem frame_encode_null (k : key) (ta : tableRequest) (d : List Nat)
    (hk : 0 ∈ k.Name) (hta : 0 ∈ ta.TableName) :
    (∀ w, (k.encode w).2 ≠ none) ∧
    (∀ w, (ta.encode w).2 ≠ none) ∧
    k.encode ⟨d, none⟩ =
      (⟨d ++ 0x06 :: (writeID Writer.buffer codeTableID k.TableID).1.data, none⟩,
        some Error.nullInString) ∧
    ta.encode ⟨d, none⟩ = (⟨d ++ [0x0c], none⟩, some Error.nullInString) := by
  refine ⟨fun w => key_encode_null_error k w hk,
    fun w => tableRequest_encode_null_error ta w hta, ?_, ?_⟩
  · unfold key.encode
    rw [Write_unbounded]
    dsimp only
    rw [writeID_appends _ codeTableID _ (Or.inr rfl)]
    simp [writeString, hk, codeAssignment]
  · unfold tableRequest.encode
    rw [Write_unbounded]
    simp [writeString, hta, codeTableRequest]

theorem frame_encode_null_witness :
    0 ∈ (⟨0, 0, [65, 0]⟩ : key).Name ∧ 0 ∈ (⟨[0], 7⟩ : tableRequest).TableName ∧
    (⟨0, 0, [65, 0]⟩ : key).encode ⟨[9], none⟩ =
      (⟨[9] ++ 0x06 :: (writeID Writer.buffer codeTableID 0).1.data, none⟩,
        some Error.nullInString) ∧
    (⟨[0], 7⟩ : tableRequest).encode ⟨[9], none⟩ =
      (⟨[9] ++ [0x0c], none⟩, some Error.nullInString) :=
  ⟨by decide, by decide,
    (frame_encode_null ⟨0, 0, [65, 0]⟩ ⟨[0], 7⟩ [9] (by decide) (by decide)).2.2⟩

/-! ## The reader -/

/-- What `readID` makes of the bytes `writeID` puts into an empty buffer. -/
theorem readID_written (m v : Nat) (rest : List Nat) (hm : m = 128 ∨ m = 64)
    (hv : v < 4294967296) :
    readID ((writeID Writer.buffer m v).1.data ++ rest) m = ⟨v, none, rest⟩ := by
  rw [Writer.buffer, writeID_unbounded [] m v hm]
  exact readID_encoded m v rest hm hv

/-- What `decodeEntry` makes of the bytes `encode` puts into an empty
buffer. -/
theorem decodeEntry_written (e : Entry) (rest : List Nat) (he : e.WellFormed) :
    decodeEntry ((e.encode Writer.buffer).1.data ++ rest) = ⟨some e, none, rest⟩ := by
  rw [Writer.buffer, Entry_encode_unbounded e []]
  cases e with
  | Int i =>
    obtain ⟨h1, h2⟩ := he
    obtain ⟨hu, hr⟩ := int32_roundtrip i h1 h2
    have hb : uint32 (putUint32 (int32ToUint32 i)) = int32ToUint32 i := uint32_putUint32 _ hu
    have e4 : ReadFull (putUint32 (int32ToUint32 i) ++ rest) 4 =
        ⟨putUint32 (int32ToUint32 i), none, rest⟩ := by
      simp [ReadFull, putUint32]
    simp only [List.nil_append, List.cons_append]
    unfold decodeEntry
    simp only [readByte, codeInt, codeBoolTrue, codeBoolFalse]
    simp only [e4, hb, hr]
    simp
  | Double n =>
    have hn : n < 18446744073709551616 := he
    have hb := uint64_putUint64 n hn
    have e8 : ReadFull (putUint64 n ++ rest) 8 = ⟨putUint64 n, none, rest⟩ := by
      simp [ReadFull, putUint64]
    simp only [List.nil_append, List.cons_append]
    unfold decodeEntry
    simp only [readByte, codeInt, codeBoolTrue, codeBoolFalse, codeDouble]
    simp only [e8, hb]
    simp
  | Bool b =>
    cases b <;> simp [decodeEntry, readByte, codeBoolTrue, codeBoolFalse]

theorem lor_compact_key : ∀ id, id < 124 → 128 ≤ 128 ||| id := by decide

/-- A key ID is written with a leading byte that has the key bit set. -/
theorem writeID_key_head (v : Nat) :
    ∃ hd tl, (writeID Writer.buffer 128 v).1.data = hd :: tl ∧ 128 ≤ hd := by
  rw [Writer.buffer, writeID_unbounded [] 128 v (Or.inl rfl)]
  by_cases h0 : v < 124
  · exact ⟨128 ||| v, [], by simp [h0], lor_compact_key v h0⟩
  · by_cases h1 : v < 256
    · exact ⟨252, [v], by simp [h0, h1], by decide⟩
    · by_cases h2 : v < 65536
      · exact ⟨253, [v / 256 % 256, v % 256], by simp [h0, h1, h2], by decide⟩
      · by_cases h3 : v < 16777216
        · exact ⟨254, [v / 65536 % 256, v / 256 % 256, v % 256], by simp [h0, h1, h2, h3],
            by decide⟩
        · exact ⟨255, [v / 16777216 % 256, v / 65536 % 256, v / 256 % 256, v % 256],
            by simp [h0, h1, h2, h3], by decide⟩

theorem andNot_confirmation : ∀ b, b < 64 → 32 ≤ b → andNot b 32 = b - 32 := by decide

theorem andNot_denial : ∀ b, b < 32 → 16 ≤ b → andNot b 16 = b - 16 := by decide

/-- C18: for every leading byte `b` below `0x80` other than `0x03` and
`0x06`, one pass of the reader consumes exactly that byte and leaves the
client as it is except for the signals sent to the coordinator: `b - 0x20`
times success when `0x20 ≤ b ≤ 0x3f`, `b - 0x10` times failure when
`0x10 ≤ b ≤ 0x1f`, none for every other such byte. -/
theorem read_signal_byte (c : Client) (b : Nat) (rest : List Nat)
    (hb : b < 0x80) (h3 : b ≠ 0x03) (h6 : b ≠ 0x06) :
    ∃ st, c.read (b :: rest) = some st ∧ st.rest = rest ∧
      st.client = { c with confirmChan := c.confirmChan ++
        (if 0x20 ≤ b ∧ b ≤ 0x3f then List.replicate (b - 0x20) true
         else if 0x10 ≤ b ∧ b ≤ 0x1f then List.replicate (b - 0x10) false
         else []) } := by
  have h128 : ¬ b ≥ 128 := by omega
  by_cases hc : 32 ≤ b
  · by_cases h64 : b < 64
    · have ha := andNot_confirmation b h64 hc
      have hle : b ≤ 63 := by omega
      refine ⟨⟨{ c with confirmChan := c.confirmChan ++ List.replicate (b - 32) true }, none,
        rest⟩, ?_, rfl, ?_⟩
      · have hn : ¬ (b < 32 ∨ 64 ≤ b) := by omega
        simp [Client.read, readByte, codeID, codeTableAssignment, codeTable, codeAssignment,
          codeConfirmation, h128, h3, h6, hc, Client.readConfirmation, hn, ha]
      · simp [hc, hle]
    · have hor : b < 32 ∨ 64 ≤ b := by omega
      have hn : ¬ b ≤ 63 := by omega
      have hn2 : ¬ b ≤ 31 := by omega
      refine ⟨⟨c, some Error.badConfirmation, rest⟩, ?_, rfl, ?_⟩
      · simp [Client.read, readByte, codeID, codeTableAssignment, codeTable, codeAssignment,
          codeConfirmation, h128, h3, h6, hc, Client.readConfirmation, hor]
      · simp [hn, hn2]
  · by_cases hd : 16 ≤ b
    · have ha := andNot_denial b (by omega) hd
      have hle : b ≤ 31 := by omega
      refine ⟨⟨{ c with confirmChan := c.confirmChan ++ List.replicate (b - 16) false }, none,
        rest⟩, ?_, rfl, ?_⟩
      · have hn : ¬ (b < 16 ∨ 32 ≤ b) := by omega
        simp [Client.read, readByte, codeID, codeTableAssignment, codeTable, codeAssignment,
          codeConfirmation, codeDenial, h128, h3, h6, hc, hd, Client.readDenial, hn, ha]
      · simp [hc, hd, hle]
    · refine ⟨⟨c, none, rest⟩, ?_, rfl, ?_⟩
      · simp [Client.read, readByte, codeID, codeTableAssignment, codeTable, codeAssignment,
          codeConfirmation, codeDenial, h128, h3, h6, hc, hd]
      · simp [hc, hd]

theorem read_signal_byte_witness :
    (0x21 : Nat) < 0x80 ∧ (0x21 : Nat) ≠ 0x03 ∧ (0x21 : Nat) ≠ 0x06 ∧
    ∃ st, NewClient.read (0x21 :: [7]) = some st ∧ st.rest = [7] ∧
      st.client = { NewClient with confirmChan := NewClient.confirmChan ++
        (if 0x20 ≤ 0x21 ∧ 0x21 ≤ 0x3f then List.replicate (0x21 - 0x20) true
         else if 0x10 ≤ 0x21 ∧ 0x21 ≤ 0x1f then List.replicate (0x21 - 0x10) false
         else []) } :=
  ⟨by decide, by decide, by decide,
    read_signal_byte NewClient 0x21 [7] (by decide) (by decide) (by decide)⟩

/-- A pass of the reader over bytes that start with `0x03` is
`readTableAssignment`. -/
theorem read_tableAssignment_dispatch (c : Client) (t : List Nat) :
    c.read (3 :: t) = c.readTableAssignment (3 :: t) := by
  simp [Client.read, readByte, codeID, codeTableAssignment, codeTable]

/-- A pass of the reader over bytes that start with `0x06` is
`readAssignment`. -/
theorem read_assignment_dispatch (c : Client) (t : List Nat) :
    c.read (6 :: t) = c.readAssignment (6 :: t) := by
  simp [Client.read, readByte, codeID, codeTableAssignment, codeTable, codeAssignment]

/-- A pass of the reader over bytes that start with a byte from `0x80` on is
`readData`. -/
theorem read_data_dispatch (c : Client) (hd : Nat) (t : List Nat) (h : 128 ≤ hd) :
    c.read (hd :: t) = c.readData (hd :: t) := by
  simp [Client.read, readByte, codeID, h]

/-- C17: one inbound table-assignment frame (`0x03`, local table ID `L`,
remote table ID `R`, both in the table namespace), followed by any bytes
`rest`. When `L` is the ID of a known local table, the pass leaves the client
as it is except that `remoteTables` maps `R` to `L` (and every other remote
ID as before); when `L` is unknown the client is unchanged. In both cases
exactly the frame is consumed, no error is returned and no frame is
enqueued. -/
theorem read_tableAssignment (c : Client) (L R : Nat) (rest : List Nat)
    (hL : L < 4294967296) (hR : R < 4294967296) :
    ((lookup c.tables L).isSome →
      c.read (0x03 :: ((writeID Writer.buffer codeTableID L).1.data ++
          ((writeID Writer.buffer codeTableID R).1.data ++ rest))) =
        some ⟨{ c with remoteTables := store c.remoteTables R L }, none, rest⟩ ∧
      lookup (store c.remoteTables R L) R = some L ∧
      ∀ x, x ≠ R → lookup (store c.remoteTables R L) x = lookup c.remoteTables x) ∧
    (lookup c.tables L = none →
      c.read (0x03 :: ((writeID Writer.buffer codeTableID L).1.data ++
          ((writeID Writer.buffer codeTableID R).1.data ++ rest))) =
        some ⟨c, none, rest⟩) := by
  have hrun : c.read (0x03 :: ((writeID Writer.buffer codeTableID L).1.data ++
        ((writeID Writer.buffer codeTableID R).1.data ++ rest))) =
      match lookup c.tables L with
      | none => some ⟨c, none, rest⟩
      | some _ => some ⟨{ c with remoteTables := store c.remoteTables R L }, none, rest⟩ := by
    rw [read_tableAssignment_dispatch]
    unfold Client.readTableAssignment
    simp only [readByte]
    rw [readID_written codeTableID L _ (Or.inr rfl) hL]
    simp only []
    simp only [readID_written codeTableID R _ (Or.inr rfl) hR]
  constructor
  · intro h
    obtain ⟨p, hp⟩ := Option.isSome_iff_exists.mp h
    rw [hrun, hp]
    exact ⟨rfl, lookup_store_self _ _ _, fun x hx => lookup_store_other _ _ _ _ (Ne.symm hx)⟩
  · intro h
    rw [hrun, h]

theorem read_tableAssignment_witness :
    (0 : Nat) < 4294967296 ∧ (10 : Nat) < 4294967296 ∧
    (lookup (NewClient.Table [65]).1.tables 0).isSome ∧
    (NewClient.Table [65]).1.read [0x03, 0x40, 0x4a] =
      some ⟨{ (NewClient.Table [65]).1 with
        remoteTables := store (NewClient.Table [65]).1.remoteTables 10 0 }, none, []⟩ ∧
    lookup (store (NewClient.Table [65]).1.remoteTables 10 0) 10 = some 0 :=
  ⟨by decide, by decide, by decide,
    ((read_tableAssignment (NewClient.Table [65]).1 0 10 [] (by decide) (by decide)).1
      (by decide)).1,
    ((read_tableAssignment (NewClient.Table [65]).1 0 10 [] (by decide) (by decide)).1
      (by decide)).2.1⟩

/-- The outcome of `readData` on a well-formed data frame, in terms of the
three lookups it makes. -/
theorem readData_frame (c : Client) (r : Nat) (e : Entry) (rest : List Nat)
    (hr : r < 4294967296) (he : e.WellFormed) :
    c.read ((writeID Writer.buffer codeID r).1.data ++
        ((e.encode Writer.buffer).1.data ++ rest)) =
      match lookup c.remoteKeys r with
      | none => some ⟨c, none, rest⟩
      | some localID =>
        match lookup c.tables
          ((lookup c.keys localID).getD { TableID := 0, ID := 0, Name := [] }).TableID with
        | none => none
        | some t =>
          match c.update t
            ((lookup c.keys localID).getD { TableID := 0, ID := 0, Name := [] }).Name e with
          | none => none
          | some c1 =>
            some ⟨{ c1 with writeChan := c1.writeChan ++ [Frame.confirmation 1] }, none, rest⟩ := by
  obtain ⟨hd, tl, hhd, hge⟩ := writeID_key_head r
  have hdisp : c.read ((writeID Writer.buffer codeID r).1.data ++
        ((e.encode Writer.buffer).1.data ++ rest)) =
      c.readData ((writeID Writer.buffer codeID r).1.data ++
        ((e.encode Writer.buffer).1.data ++ rest)) := by
    have : (writeID Writer.buffer codeID r).1.data = hd :: tl := hhd
    rw [this, List.cons_append]
    exact read_data_dispatch c hd _ hge
  rw [hdisp]
  unfold Client.readData
  rw [readID_written codeID r _ (Or.inl rfl) hr]
  simp only [decodeEntry_written e rest he]

/-- C15: one inbound data frame (key ID `r` in the key namespace, then the
entry `e`), followed by any bytes `rest`. When `remoteKeys` maps `r` to the
local key `k` of a table object `T`, the pass stores `e` under `k.Name` in
that object and enqueues the one frame `Confirmation(1)`, whose encoding is
the byte `0x21`: afterwards `Get(k.Name)` on the object returns `e`, every
other cached value of every object is what it was, and the registry and the
signals are unchanged. When `r` is not mapped, the client is unchanged and
nothing is enqueued. In both cases exactly the frame is consumed and no error
is returned. -/
theorem read_data (c : Client) (r : Nat) (e : Entry) (rest : List Nat)
    (hr : r < 4294967296) (he : e.WellFormed) :
    (∀ localID k t T, lookup c.remoteKeys r = some localID → lookup c.keys localID = some k →
      lookup c.tables k.TableID = some t → c.heap[t]? = some T →
      ∃ st, c.read ((writeID Writer.buffer codeID r).1.data ++
            ((e.encode Writer.buffer).1.data ++ rest)) = some st ∧
        st.err = none ∧ st.rest = rest ∧
        st.client = { c with
          heap := c.heap.set t (T.update k.Name e)
          writeChan := c.writeChan ++ [Frame.confirmation 1] } ∧
        st.client.Get t k.Name = some (some e) ∧
        (∀ t1 k1, ¬ (t1 = t ∧ k1 = k.Name) → st.client.Get t1 k1 = c.Get t1 k1) ∧
        (Frame.confirmation 1).encode Writer.buffer = (⟨[0x21], none⟩, none)) ∧
    (lookup c.remoteKeys r = none →
      c.read ((writeID Writer.buffer codeID r).1.data ++
          ((e.encode Writer.buffer).1.data ++ rest)) = some ⟨c, none, rest⟩) := by
  have hrun := readData_frame c r e rest hr he
  constructor
  · intro localID k t T h1 h2 h3 h4
    have hlt : t < c.heap.length := by
      rcases Nat.lt_or_ge t c.heap.length with h | h
      · exact h
      · rw [List.getElem?_eq_none h] at h4; cases h4
    refine ⟨⟨{ c with
        heap := c.heap.set t (T.update k.Name e)
        writeChan := c.writeChan ++ [Frame.confirmation 1] }, none, rest⟩, ?_, rfl, rfl, rfl,
      ?_, ?_, by decide⟩
    · rw [hrun, h1]
      simp only [h2, Option.getD_some, h3, Client.update, h4]
    · simp [Client.Get, hlt, Nettable.Table.Get, Nettable.Table.update, lookup_store_self]
    · intro t1 k1 hne
      by_cases ht : t1 = t
      · subst ht
        have hk : k.Name ≠ k1 := fun h => hne ⟨rfl, h.symm⟩
        simp [Client.Get, hlt, h4, Nettable.Table.Get, Nettable.Table.update,
          lookup_store_other _ _ _ _ hk]
      · have ht2 : t ≠ t1 := fun h => ht h.symm
        simp [Client.Get, List.getElem?_set_ne ht2]
  · intro h
    rw [hrun, h]

theorem read_data_witness :
    (5 : Nat) < 4294967296 ∧ (Entry.Int (-27)).WellFormed ∧
    lookup syncedClient.remoteKeys 5 = some 0 ∧
    lookup syncedClient.keys 0 = some ⟨0, 0, [66]⟩ ∧
    lookup syncedClient.tables 0 = some 0 ∧ syncedClient.heap[0]? = some ⟨0, []⟩ ∧
    ∃ st, syncedClient.read ((writeID Writer.buffer codeID 5).1.data ++
          (((Entry.Int (-27)).encode Writer.buffer).1.data ++ [9])) = some st ∧
      st.err = none ∧ st.rest = [9] ∧
      st.client.Get 0 [66] = some (some (Entry.Int (-27))) ∧
      st.client.writeChan = syncedClient.writeChan ++ [Frame.confirmation 1] := by
  refine ⟨by decide, by decide, by decide, by decide, by decide, by decide, ?_⟩
  obtain ⟨st, h1, h2, h3, h4, h5, _⟩ :=
    (read_data syncedClient 5 (Entry.Int (-27)) [9] (by decide) (by decide)).1
      0 ⟨0, 0, [66]⟩ 0 ⟨0, []⟩ (by decide) (by decide) (by decide) (by decide)
  exact ⟨st, h1, h2, h3, h5, by rw [h4]⟩

/-- What `readString` makes of the bytes `writeString` puts into an empty
buffer for a null-free string. -/
theorem readString_of_writeString (s rest : List Nat) (h0 : 0 ∉ s) :
    readString ((writeString Writer.buffer s).1.data ++ rest) =
      if s.length < 360 then Outcome.done ⟨s, none, rest⟩ else Outcome.panic := by
  rw [Writer.buffer, writeString_unbounded s [] h0]
  exact readString_written s rest h0

/-- The outcome of a pass of the reader over a key-assignment frame whose
name is null-free and shorter than 360 bytes. -/
theorem readAssignment_frame (c : Client) (R K : Nat) (n : Str) (rest : List Nat)
    (hR : R < 4294967296) (hK : K < 4294967296) (h0 : 0 ∉ n) (hl : n.length < 360) :
    c.read (0x06 :: ((writeID Writer.buffer codeTableID R).1.data ++
        ((writeString Writer.buffer n).1.data ++
          ((writeID Writer.buffer codeID K).1.data ++ rest)))) =
      some ⟨assignmentEffect c R n K, none, rest⟩ := by
  rw [read_assignment_dispatch]
  unfold Client.readAssignment
  simp only [readByte]
  rw [readID_written codeTableID R _ (Or.inr rfl) hR]
  simp only []
  rw [readString_of_writeString n _ h0, if_pos hl]
  simp only []
  rw [readID_written codeID K _ (Or.inl rfl) hK]
  simp only []
  unfold assignmentEffect
  cases hT : lookup c.remoteTables R with
  | none => rfl
  | some T =>
    simp only []
    cases hf : c.keys.find? (fun p => decide (p.2.TableID = T ∧ p.2.Name = n)) with
    | some p =>
      have hg : c.getKeyID T n = (c, p.2.ID) := by
        unfold Client.getKeyID
        rw [hf]
      simp only [hg]
    | none =>
      have hg : c.getKeyID T n =
          ({ c with
              keys := store c.keys c.nextKeyID ⟨T, c.nextKeyID, n⟩
              nextKeyID := (c.nextKeyID + 1) % 4294967296
              writeChan := c.writeChan ++ [Frame.key ⟨T, c.nextKeyID, n⟩] },
            c.nextKeyID) := by
        unfold Client.getKeyID
        rw [hf]
      simp only [hg]

/-- The key-assignment handler on frames with a short name: for every
null-free name shorter than 360 bytes, a pass of the reader over the frame
(`0x06`, remote table ID `R`, name `n`, remote key ID `K`) consumes exactly
the frame and returns no error; with no entry for `R` in `remoteTables` the
client is unchanged; with `remoteTables[R] = T` and a key `p` registered for
(`T`, `n`) only `remoteKeys[K]` changes, to the ID of `p`; with
`remoteTables[R] = T` and no such key, the key (`T`, `n`) is minted with the
next local key ID, one key-assignment frame for it is enqueued and
`remoteKeys[K]` becomes the new ID. -/
theorem read_assignment_short_name (c : Client) (R K : Nat) (n : Str) (rest : List Nat)
    (hR : R < 4294967296) (hK : K < 4294967296) (h0 : 0 ∉ n) (hl : n.length < 360) :
    (lookup c.remoteTables R = none →
      c.read (0x06 :: ((writeID Writer.buffer codeTableID R).1.data ++
          ((writeString Writer.buffer n).1.data ++
            ((writeID Writer.buffer codeID K).1.data ++ rest)))) = some ⟨c, none, rest⟩) ∧
    (∀ T p, lookup c.remoteTables R = some T →
      c.keys.find? (fun p => decide (p.2.TableID = T ∧ p.2.Name = n)) = some p →
      c.read (0x06 :: ((writeID Writer.buffer codeTableID R).1.data ++
          ((writeString Writer.buffer n).1.data ++
            ((writeID Writer.buffer codeID K).1.data ++ rest)))) =
        some ⟨{ c with remoteKeys := store c.remoteKeys K p.2.ID }, none, rest⟩ ∧
      lookup (store c.remoteKeys K p.2.ID) K = some p.2.ID) ∧
    (∀ T, lookup c.remoteTables R = some T →
      (∀ p ∈ c.keys, ¬ (p.2.TableID = T ∧ p.2.Name = n)) →
      c.read (0x06 :: ((writeID Writer.buffer codeTableID R).1.data ++
          ((writeString Writer.buffer n).1.data ++
            ((writeID Writer.buffer codeID K).1.data ++ rest)))) =
        some ⟨{ c with
            keys := store c.keys c.nextKeyID ⟨T, c.nextKeyID, n⟩
            nextKeyID := (c.nextKeyID + 1) % 4294967296
            writeChan := c.writeChan ++ [Frame.key ⟨T, c.nextKeyID, n⟩]
            remoteKeys := store c.remoteKeys K c.nextKeyID }, none, rest⟩ ∧
      lookup (store c.remoteKeys K c.nextKeyID) K = some c.nextKeyID) := by
  have hrun := readAssignment_frame c R K n rest hR hK h0 hl
  refine ⟨?_, ?_, ?_⟩
  · intro h
    rw [hrun, assignmentEffect, h]
  · intro T p h hf
    have hg : c.getKeyID T n = (c, p.2.ID) := by
      unfold Client.getKeyID
      rw [hf]
    refine ⟨?_, lookup_store_self _ _ _⟩
    rw [hrun, assignmentEffect, h]
    simp only [hg]
  · intro T h hnew
    refine ⟨?_, lookup_store_self _ _ _⟩
    rw [hrun, assignmentEffect, h]
    simp only [getKeyID_fresh c T n hnew]

/-- A pass of the reader over a key-assignment frame whose null-free name
has 360 bytes or more faults in `readString`, whatever follows the name. -/
theorem read_assignment_long_name (c : Client) (R : Nat) (n : Str) (rest : List Nat)
    (hR : R < 4294967296) (h0 : 0 ∉ n) (hl : 360 ≤ n.length) :
    c.read (0x06 :: ((writeID Writer.buffer codeTableID R).1.data ++
        ((writeString Writer.buffer n).1.data ++ rest))) = none := by
  rw [read_assignment_dispatch]
  unfold Client.readAssignment
  simp only [readByte]
  rw [readID_written codeTableID R _ (Or.inr rfl) hR]
  simp only []
  rw [readString_of_writeString n _ h0, if_neg (by omega)]

/-- C16: the frame `06 4a ff`, 360 bytes `'C'`, `00 86` is the key-assignment
frame for remote table 10, the 360-byte name and remote key 6; remote table
10 is known to `syncedClient`. The pass of the reader over it faults: the
frame is not consumed and no key is minted. -/
theorem read_assignment_faults_on_long_name :
    (writeID Writer.buffer codeTableID 10).1.data = [0x4a] ∧
    (writeString Writer.buffer (List.replicate 360 67)).1.data =
      0xff :: (List.replicate 360 67 ++ [0x00]) ∧
    (writeID Writer.buffer codeID 6).1.data = [0x86] ∧
    lookup syncedClient.remoteTables 10 = some 0 ∧
    syncedClient.read (0x06 :: ([0x4a] ++ (0xff :: (List.replicate 360 67 ++ [0x00]) ++
      [0x86]))) = none := by
  have h0 : 0 ∉ List.replicate 360 67 :=
    fun h => absurd (List.eq_of_mem_replicate h) (by decide)
  have hs : (writeString Writer.buffer (List.replicate 360 67)).1.data =
      0xff :: (List.replicate 360 67 ++ [0x00]) := by
    rw [Writer.buffer, writeString_unbounded _ [] h0, List.length_replicate,
      if_neg (by decide)]
    rfl
  have ht : (writeID Writer.buffer codeTableID 10).1.data = [0x4a] := by decide
  refine ⟨ht, hs, by decide, by decide, ?_⟩
  have := read_assignment_long_name syncedClient 10 (List.replicate 360 67) [0x86]
    (by decide) h0 (le_of_eq (List.length_replicate _ _).symm)
  rw [ht, hs] at this
  exact this

/-! ## What one pass of the reader can do to the client -/

theorem readData_effect (c : Client) (r : List Nat) (st : Step)
    (h : c.readData r = some st) :
    st.client = c ∨
    ∃ rid localID t e c1, lookup c.remoteKeys rid = some localID ∧
      lookup c.tables
        ((lookup c.keys localID).getD { TableID := 0, ID := 0, Name := [] }).TableID = some t ∧
      c.update t ((lookup c.keys localID).getD { TableID := 0, ID := 0, Name := [] }).Name e
        = some c1 ∧
      st.client = { c1 with writeChan := c1.writeChan ++ [Frame.confirmation 1] } := by
  unfold Client.readData at h
  split at h
  · cases h; exact Or.inl rfl
  · split at h
    · cases h; exact Or.inl rfl
    · cases h
    · split at h
      · cases h; exact Or.inl rfl
      · rename_i hl
        dsimp only at h
        split at h
        · cases h
        · rename_i ht
          split at h
          · cases h
          · rename_i hc1
            cases h
            exact Or.inr ⟨_, _, _, _, _, hl, ht, hc1, rfl⟩

theorem readTableAssignment_effect (c : Client) (r : List Nat) (st : Step)
    (h : c.readTableAssignment r = some st) :
    st.client = c ∨
    ∃ R L, (lookup c.tables L).isSome ∧
      st.client = { c with remoteTables := store c.remoteTables R L } := by
  unfold Client.readTableAssignment at h
  split at h
  · cases h; exact Or.inl rfl
  · split at h
    · cases h; exact Or.inl rfl
    · split at h
      · cases h; exact Or.inl rfl
      · split at h
        · cases h; exact Or.inl rfl
        · rename_i hp
          cases h
          exact Or.inr ⟨_, _, Option.isSome_iff_exists.mpr ⟨_, hp⟩, rfl⟩

theorem readAssignment_effect (c : Client) (r : List Nat) (st : Step)
    (h : c.readAssignment r = some st) :
    st.client = c ∨ ∃ R n K, st.client = assignmentEffect c R n K := by
  unfold Client.readAssignment at h
  split at h
  · cases h; exact Or.inl rfl
  · split at h
    · cases h; exact Or.inl rfl
    · split at h
      · cases h
      · cases h; exact Or.inl rfl
      · split at h
        · cases h; exact Or.inl rfl
        · split at h
          · cases h; exact Or.inl rfl
          · rename_i R _ _ _ n _ _ _ K _ _ _ T hT
            split at h
            · rename_i p hf
              cases h
              have hg : c.getKeyID T n = (c, p.2.ID) := by
                unfold Client.getKeyID
                rw [hf]
              refine Or.inr ⟨R, n, K, ?_⟩
              rw [assignmentEffect, hT]
              simp only [hg]
            · rename_i hf
              dsimp only at h
              cases h
              refine Or.inr ⟨R, n, K, ?_⟩
              rw [assignmentEffect, hT]
              have hr : (c.getKeyID T n).1.remoteKeys = c.remoteKeys := by
                unfold Client.getKeyID
                rw [hf]
              simp only [hr]

theorem readConfirmation_effect (c : Client) (r : List Nat) (st : Step)
    (h : c.readConfirmation r = some st) :
    st.client = c ∨
    ∃ n b, st.client = { c with confirmChan := c.confirmChan ++ List.replicate n b } := by
  unfold Client.readConfirmation at h
  split at h
  · cases h; exact Or.inl rfl
  · split at h
    · cases h; exact Or.inl rfl
    · cases h; exact Or.inr ⟨_, true, rfl⟩

theorem readDenial_effect (c : Client) (r : List Nat) (st : Step)
    (h : c.readDenial r = some st) :
    st.client = c ∨
    ∃ n b, st.client = { c with confirmChan := c.confirmChan ++ List.replicate n b } := by
  unfold Client.readDenial at h
  split at h
  · cases h; exact Or.inl rfl
  · split at h
    · cases h; exact Or.inl rfl
    · cases h; exact Or.inr ⟨_, false, rfl⟩

/-- The five things a pass of the reader can do to the client: nothing, the
update of one cached value with a confirmation enqueued, one store into
`remoteTables`, the effect of a key assignment, signals to the coordinator. -/
theorem read_effect (c : Client) (r : List Nat) (st : Step) (h : c.read r = some st) :
    st.client = c ∨
    (∃ rid localID t e c1, lookup c.remoteKeys rid = some localID ∧
      lookup c.tables
        ((lookup c.keys localID).getD { TableID := 0, ID := 0, Name := [] }).TableID = some t ∧
      c.update t ((lookup c.keys localID).getD { TableID := 0, ID := 0, Name := [] }).Name e
        = some c1 ∧
      st.client = { c1 with writeChan := c1.writeChan ++ [Frame.confirmation 1] }) ∨
    (∃ R L, (lookup c.tables L).isSome ∧
      st.client = { c with remoteTables := store c.remoteTables R L }) ∨
    (∃ R n K, st.client = assignmentEffect c R n K) ∨
    (∃ n b, st.client = { c with confirmChan := c.confirmChan ++ List.replicate n b }) := by
  unfold Client.read at h
  split at h
  · cases h; exact Or.inl rfl
  · split_ifs at h
    · rcases readData_effect c r st h with h1 | h1
      · exact Or.inl h1
      · exact Or.inr (Or.inl h1)
    · rcases readTableAssignment_effect c r st h with h1 | h1
      · exact Or.inl h1
      · exact Or.inr (Or.inr (Or.inl h1))
    · rcases readAssignment_effect c r st h with h1 | h1
      · exact Or.inl h1
      · exact Or.inr (Or.inr (Or.inr (Or.inl h1)))
    · rcases readConfirmation_effect c r st h with h1 | h1
      · exact Or.inl h1
      · exact Or.inr (Or.inr (Or.inr (Or.inr h1)))
    · rcases readDenial_effect c r st h with h1 | h1
      · exact Or.inl h1
      · exact Or.inr (Or.inr (Or.inr (Or.inr h1)))
    · cases h; exact Or.inl rfl

/-! ## The remote maps -/

theorem lookup_store_isSome {κ ν : Type} [DecidableEq κ] (m : List (κ × ν)) (k x : κ) (v : ν)
    (h : (lookup m x).isSome) : (lookup (store m k v) x).isSome := by
  by_cases hx : k = x
  · subst hx; rw [lookup_store_self]; rfl
  · rw [lookup_store_other _ _ _ _ hx]; exact h

theorem getKeyID_remote (c : Client) (tableID : Nat) (name : Str) :
    (c.getKeyID tableID name).1.remoteTables = c.remoteTables ∧
    (c.getKeyID tableID name).1.remoteKeys = c.remoteKeys := by
  unfold Client.getKeyID
  split <;> exact ⟨rfl, rfl⟩

theorem update_fields (c c1 : Client) (t : Nat) (k : Str) (e : Entry)
    (h : c.update t k e = some c1) :
    c1.remoteTables = c.remoteTables ∧ c1.remoteKeys = c.remoteKeys ∧ c1.keys = c.keys ∧
    c1.nextKeyID = c.nextKeyID ∧ c1.tables = c.tables ∧ c1.tableNames = c.tableNames ∧
    c1.nextTableID = c.nextTableID := by
  unfold Client.update at h
  split at h
  · cases h
  · cases h; exact ⟨rfl, rfl, rfl, rfl, rfl, rfl, rfl⟩

theorem requests_remote (c c1 : Client) (req : putRequest) (success : Bool) (e : Option Error)
    (h : c.requests req success = some (c1, e)) :
    c1.remoteTables = c.remoteTables ∧ c1.remoteKeys = c.remoteKeys := by
  unfold Client.requests at h
  split at h
  · cases h
  · rename_i c0 hs
    have h0 : c0.remoteTables = c.remoteTables ∧ c0.remoteKeys = c.remoteKeys := by
      unfold Client.sendPutRequest at hs
      split at hs
      · cases hs
      · cases hs
        rename_i T _
        exact getKeyID_remote c T.id req.Key
    split_ifs at h
    · split at h
      · cases h
      · rename_i c2 hu
        cases h
        obtain ⟨h1, h2, _⟩ := update_fields c0 c1 _ _ _ hu
        exact ⟨h1.trans h0.1, h2.trans h0.2⟩
    · cases h
      exact h0

/-- After a pass of the reader each remote map is what it was, or what it
was with one store. -/
theorem read_remote (c : Client) (r : List Nat) (st : Step) (h : c.read r = some st) :
    (st.client.remoteTables = c.remoteTables ∨
      ∃ R L, st.client.remoteTables = store c.remoteTables R L) ∧
    (st.client.remoteKeys = c.remoteKeys ∨
      ∃ K id, st.client.remoteKeys = store c.remoteKeys K id) := by
  rcases read_effect c r st h with h1 | ⟨_, _, t, e, c1, _, _, hu, h1⟩ | ⟨R, L, _, h1⟩ |
    ⟨R, n, K, h1⟩ | ⟨n, b, h1⟩
  · rw [h1]; exact ⟨Or.inl rfl, Or.inl rfl⟩
  · obtain ⟨e1, e2, _⟩ := update_fields c c1 _ _ _ hu
    rw [h1]; exact ⟨Or.inl e1, Or.inl e2⟩
  · rw [h1]; exact ⟨Or.inr ⟨R, L, rfl⟩, Or.inl rfl⟩
  · rw [h1]
    unfold assignmentEffect
    split
    · exact ⟨Or.inl rfl, Or.inl rfl⟩
    · rename_i T _
      exact ⟨Or.inl (getKeyID_remote c T n).1, Or.inr ⟨K, _, rfl⟩⟩
  · rw [h1]; exact ⟨Or.inl rfl, Or.inl rfl⟩

theorem store_keeps_entries (m m1 : List (Nat × Nat))
    (h : m1 = m ∨ ∃ k v, m1 = store m k v) :
    (∀ x, (lookup m x).isSome → (lookup m1 x).isSome) ∧
    ∃ X, ∀ x, x ≠ X → lookup m1 x = lookup m x := by
  rcases h with h | ⟨k, v, h⟩
  · subst h
    exact ⟨fun _ hx => hx, 0, fun _ _ => rfl⟩
  · subst h
    exact ⟨fun x hx => lookup_store_isSome m k x v hx, k,
      fun x hx => lookup_store_other m k x v (Ne.symm hx)⟩

theorem syncedClient_reachable : Reachable syncedClient := by
  have h1 : (NewClient.Table [65]).1.read [0x03, 0x40, 0x4a] =
      some ⟨assignedClient, none, []⟩ := by decide
  have h2 : assignedClient.read [0x06, 0x4a, 0x01, 66, 0x85] =
      some ⟨syncedClient, none, []⟩ := by decide
  exact Reachable.frame _ _ _ (Reachable.frame _ _ _ (Reachable.table _ _ Reachable.new) h1) h2

/-- C19, as stated, fails: in the reachable state `syncedClient` the remote
key 5 is mapped to the local key 0, and after the key-assignment frame
`06 4a 01 'C' 85` it is mapped to the local key 1; after `Table("B")` the
remote table 10 is mapped to the local table 0, and after the
table-assignment frame `03 41 4a` it is mapped to the local table 1. -/
theorem remote_entry_remapped :
    Reachable syncedClient ∧
    lookup syncedClient.remoteKeys 5 = some 0 ∧
    (syncedClient.read [0x06, 0x4a, 0x01, 67, 0x85]).map
      (fun st => (st.err, lookup st.client.remoteKeys 5)) = some (none, some 1) ∧
    lookup (syncedClient.Table [66]).1.remoteTables 10 = some 0 ∧
    ((syncedClient.Table [66]).1.read [0x03, 0x41, 0x4a]).map
      (fun st => (st.err, lookup st.client.remoteTables 10)) = some (none, some 1) :=
  ⟨syncedClient_reachable, by decide, by decide, by decide, by decide⟩

/-- C19, amended: no operation of the client removes an entry from
`remoteTables` or `remoteKeys`. `Table` and a served put leave both maps as
they are; after a pass of the reader over any inbound bytes every remote ID
that was present in a map is still present, and in each map at most one
remote ID, the one named by the assignment frame that was handled, has
another local ID than before. -/
theorem remote_maps_keep_entries (c : Client) :
    (∀ name, (c.Table name).1.remoteTables = c.remoteTables ∧
      (c.Table name).1.remoteKeys = c.remoteKeys) ∧
    (∀ req success c1 e, c.requests req success = some (c1, e) →
      c1.remoteTables = c.remoteTables ∧ c1.remoteKeys = c.remoteKeys) ∧
    (∀ r st, c.read r = some st →
      (∀ x, (lookup c.remoteTables x).isSome → (lookup st.client.remoteTables x).isSome) ∧
      (∀ x, (lookup c.remoteKeys x).isSome → (lookup st.client.remoteKeys x).isSome) ∧
      (∃ X, ∀ x, x ≠ X → lookup st.client.remoteTables x = lookup c.remoteTables x) ∧
      (∃ X, ∀ x, x ≠ X → lookup st.client.remoteKeys x = lookup c.remoteKeys x)) := by
  refine ⟨?_, ?_, ?_⟩
  · intro name
    unfold Client.Table
    split <;> exact ⟨rfl, rfl⟩
  · intro req success c1 e h
    exact requests_remote c c1 req success e h
  · intro r st h
    obtain ⟨h1, h2⟩ := read_remote c r st h
    obtain ⟨a1, a2⟩ := store_keeps_entries c.remoteTables st.client.remoteTables h1
    obtain ⟨b1, b2⟩ := store_keeps_entries c.remoteKeys st.client.remoteKeys h2
    exact ⟨a1, b1, a2, b2⟩

theorem remote_maps_keep_entries_witness :
    (lookup syncedClient.remoteKeys 5).isSome ∧
    ∃ st, syncedClient.read [0x06, 0x4a, 0x01, 67, 0x85] = some st ∧
      (lookup st.client.remoteKeys 5).isSome := by
  refine ⟨by decide, ?_⟩
  cases h : syncedClient.read [0x06, 0x4a, 0x01, 67, 0x85] with
  | none => exact absurd h (by decide)
  | some st =>
    exact ⟨st, rfl, ((remote_maps_keep_entries syncedClient).2.2 _ st h).2.1 5 (by decide)⟩

/-! ## The key registry -/

theorem mem_store {κ ν : Type} [DecidableEq κ] (m : List (κ × ν)) (k : κ) (v : ν)
    (p : κ × ν) (h : p ∈ store m k v) : p = (k, v) ∨ p ∈ m := by
  induction m with
  | nil => simp [store] at h; exact Or.inl h
  | cons q m ih =>
    obtain ⟨k1, v1⟩ := q
    by_cases hk : k1 = k
    · simp only [store, hk, if_true, List.mem_cons] at h
      rcases h with h | h
      · exact Or.inl h
      · exact Or.inr (List.mem_cons_of_mem _ h)
    · simp only [store, hk, if_false, List.mem_cons] at h
      rcases h with h | h
      · exact Or.inr (by rw [h]; exact List.mem_cons_self _ _)
      · rcases ih h with h1 | h1
        · exact Or.inl h1
        · exact Or.inr (List.mem_cons_of_mem _ h1)

theorem store_pairwise {κ ν : Type} [DecidableEq κ] (R : κ × ν → κ × ν → Prop)
    (m : List (κ × ν)) (k : κ) (v : ν) (hm : m.Pairwise R)
    (hnew : ∀ x ∈ m, R x (k, v) ∧ R (k, v) x) : (store m k v).Pairwise R := by
  induction m with
  | nil => simp [store]
  | cons q m ih =>
    obtain ⟨k1, v1⟩ := q
    rw [List.pairwise_cons] at hm
    have hm2 : ∀ x ∈ m, R x (k, v) ∧ R (k, v) x :=
      fun x hx => hnew x (List.mem_cons_of_mem _ hx)
    by_cases hk : k1 = k
    · simp only [store, hk, if_true]
      rw [List.pairwise_cons]
      exact ⟨fun x hx => (hm2 x hx).2, hm.2⟩
    · simp only [store, hk, if_false]
      rw [List.pairwise_cons]
      refine ⟨fun x hx => ?_, ih hm.2 hm2⟩
      rcases mem_store m k v x hx with h1 | h1
      · rw [h1]; exact (hnew (k1, v1) (List.mem_cons_self _ _)).1
      · exact hm.1 x h1

theorem store_fst_of_mem {κ ν : Type} [DecidableEq κ] (m : List (κ × ν)) (k : κ) (v : ν)
    (h : k ∈ m.map Prod.fst) : (store m k v).map Prod.fst = m.map Prod.fst := by
  induction m with
  | nil => simp at h
  | cons q m ih =>
    obtain ⟨k1, v1⟩ := q
    by_cases hk : k1 = k
    · simp [store, hk]
    · have h2 : k ∈ m.map Prod.fst := by
        simp only [List.map_cons, List.mem_cons] at h
        rcases h with h | h
        · exact absurd h.symm hk
        · exact h
      simp [store, hk, ih h2]

theorem store_of_not_mem {κ ν : Type} [DecidableEq κ] (m : List (κ × ν)) (k : κ) (v : ν)
    (h : k ∉ m.map Prod.fst) : store m k v = m ++ [(k, v)] := by
  induction m with
  | nil => rfl
  | cons q m ih =>
    obtain ⟨k1, v1⟩ := q
    have hk : k1 ≠ k := fun e => h (by simp [e])
    have h2 : k ∉ m.map Prod.fst := fun e => h (by simp [e])
    simp [store, hk, ih h2]

theorem lookup_iff_mem {κ ν : Type} [DecidableEq κ] (m : List (κ × ν))
    (hnd : (m.map Prod.fst).Nodup) (k : κ) (v : ν) :
    lookup m k = some v ↔ (k, v) ∈ m := by
  induction m with
  | nil => simp [lookup]
  | cons q m ih =>
    obtain ⟨k1, v1⟩ := q
    rw [List.map_cons, List.nodup_cons] at hnd
    by_cases hk : k1 = k
    · subst hk
      simp only [lookup, if_true, Option.some.injEq, List.mem_cons, Prod.mk.injEq, true_and]
      constructor
      · intro h; exact Or.inl h.symm
      · intro h
        rcases h with h | h
        · exact h.symm
        · exact absurd (List.mem_map_of_mem Prod.fst h) hnd.1
    · simp only [lookup, hk, if_false, List.mem_cons, Prod.mk.injEq]
      rw [ih hnd.2]
      constructor
      · intro h; exact Or.inr h
      · intro h
        rcases h with h | h
        · exact absurd h.1.symm hk
        · exact h

/-- The invariant of the key registry holds for a new client. -/
theorem KeysInvariant_new : KeysInvariant NewClient.keys NewClient.nextKeyID :=
  ⟨fun _ h => absurd h (List.not_mem_nil _), List.Pairwise.nil, by decide, Or.inl rfl⟩

/-- The call `getKeyID` keeps the invariant of the key registry. -/
theorem getKeyID_invariant (c : Client) (t : Nat) (n : Str)
    (h : KeysInvariant c.keys c.nextKeyID) :
    KeysInvariant (c.getKeyID t n).1.keys (c.getKeyID t n).1.nextKeyID := by
  cases hf : c.keys.find? (fun p => decide (p.2.TableID = t ∧ p.2.Name = n)) with
  | some p =>
    have hg : c.getKeyID t n = (c, p.2.ID) := by
      unfold Client.getKeyID
      rw [hf]
    rw [hg]; exact h
  | none =>
    have hnew : ∀ p ∈ c.keys, ¬ (p.2.TableID = t ∧ p.2.Name = n) := by
      intro p hp
      have := List.find?_eq_none.mp hf p hp
      simpa using this
    rw [getKeyID_fresh c t n hnew]
    obtain ⟨hA, hB, hC, hD⟩ := h
    refine ⟨?_, ?_, Nat.mod_lt _ (by decide), ?_⟩
    · intro p hp
      rcases mem_store _ _ _ p hp with h1 | h1
      · rw [h1]
      · exact hA p h1
    · apply store_pairwise _ _ _ _ hB
      intro x hx
      exact ⟨fun e => hnew x hx e, fun e => hnew x hx ⟨e.1.symm, e.2.symm⟩⟩
    · show (store c.keys c.nextKeyID _).map Prod.fst = List.range ((c.nextKeyID + 1) % 4294967296) ∨
        (store c.keys c.nextKeyID _).map Prod.fst = List.range 4294967296
      rcases hD with hD | hD
      · have hnm : c.nextKeyID ∉ c.keys.map Prod.fst := by
          rw [hD, List.mem_range]; omega
        rw [store_of_not_mem _ _ _ hnm, List.map_append, hD]
        by_cases hw : c.nextKeyID + 1 < 4294967296
        · left
          rw [Nat.mod_eq_of_lt hw, List.range_succ]
          rfl
        · right
          have : c.nextKeyID + 1 = 4294967296 := by omega
          rw [← this, List.range_succ]
          rfl
      · right
        have hm : c.nextKeyID ∈ c.keys.map Prod.fst := by
          rw [hD, List.mem_range]; exact hC
        rw [store_fst_of_mem _ _ _ hm, hD]

/-- A served put changes the key registry as one call of `getKeyID` does. -/
theorem requests_keys (c c1 : Client) (req : putRequest) (success : Bool) (e : Option Error)
    (h : c.requests req success = some (c1, e)) :
    ∃ t n, c1.keys = (c.getKeyID t n).1.keys ∧ c1.nextKeyID = (c.getKeyID t n).1.nextKeyID := by
  unfold Client.requests at h
  split at h
  · cases h
  · rename_i c0 hs
    have h0 : ∃ t n, c0.keys = (c.getKeyID t n).1.keys ∧
        c0.nextKeyID = (c.getKeyID t n).1.nextKeyID := by
      unfold Client.sendPutRequest at hs
      split at hs
      · cases hs
      · cases hs
        rename_i T _
        exact ⟨T.id, req.Key, rfl, rfl⟩
    obtain ⟨t, n, h1, h2⟩ := h0
    split_ifs at h
    · split at h
      · cases h
      · rename_i c2 hu
        cases h
        obtain ⟨_, _, e3, e4, _⟩ := update_fields c0 c1 _ _ _ hu
        exact ⟨t, n, e3.trans h1, e4.trans h2⟩
    · cases h
      exact ⟨t, n, h1, h2⟩

/-- A pass of the reader leaves the key registry as it is or changes it as
one call of `getKeyID` does. -/
theorem read_keys (c : Client) (r : List Nat) (st : Step) (h : c.read r = some st) :
    (st.client.keys = c.keys ∧ st.client.nextKeyID = c.nextKeyID) ∨
    ∃ t n, st.client.keys = (c.getKeyID t n).1.keys ∧
      st.client.nextKeyID = (c.getKeyID t n).1.nextKeyID := by
  rcases read_effect c r st h with h1 | ⟨_, _, t, e, c1, _, _, hu, h1⟩ | ⟨R, L, _, h1⟩ |
    ⟨R, n, K, h1⟩ | ⟨n, b, h1⟩
  · rw [h1]; exact Or.inl ⟨rfl, rfl⟩
  · obtain ⟨_, _, e3, e4, _⟩ := update_fields c c1 _ _ _ hu
    rw [h1]; exact Or.inl ⟨e3, e4⟩
  · rw [h1]; exact Or.inl ⟨rfl, rfl⟩
  · rw [h1]
    unfold assignmentEffect
    split
    · exact Or.inl ⟨rfl, rfl⟩
    · rename_i T _
      exact Or.inr ⟨T, n, rfl, rfl⟩
  · rw [h1]; exact Or.inl ⟨rfl, rfl⟩

theorem Table_keys (c : Client) (name : Str) :
    (c.Table name).1.keys = c.keys ∧ (c.Table name).1.nextKeyID = c.nextKeyID := by
  unfold Client.Table
  split <;> exact ⟨rfl, rfl⟩

/-- The invariant of the key registry holds in every reachable state. -/
theorem reachable_KeysInvariant (c : Client) (hc : Reachable c) :
    KeysInvariant c.keys c.nextKeyID := by
  induction hc with
  | new => exact KeysInvariant_new
  | table c name _ ih =>
    rw [(Table_keys c name).1, (Table_keys c name).2]; exact ih
  | put c c1 req success e _ h ih =>
    obtain ⟨t, n, h1, h2⟩ := requests_keys c c1 req success e h
    rw [h1, h2]; exact getKeyID_invariant c t n ih
  | frame c r st _ h ih =>
    rcases read_keys c r st h with ⟨h1, h2⟩ | ⟨t, n, h1, h2⟩
    · rw [h1, h2]; exact ih
    · rw [h1, h2]; exact getKeyID_invariant c t n ih

/-! ### The counter wraps around -/

theorem afterPuts_succ (n : Nat) : afterPuts (n + 1) = deniedPut (afterPuts n) n := by
  unfold afterPuts
  rw [List.range_succ, List.foldl_append]
  rfl

/-- A denied put of a key that is not registered, on a client whose table
object 0 has the ID 0. -/
theorem deniedPut_fresh (c : Client) (i : Nat) (T : Table) (hT : c.heap[0]? = some T)
    (hid : T.id = 0)
    (hnew : ∀ p ∈ c.keys, ¬ (p.2.TableID = 0 ∧ p.2.Name = List.replicate i 1)) :
    c.requests ⟨0, List.replicate i 1, Entry.Bool true⟩ false =
      some ({ c with
        keys := store c.keys c.nextKeyID ⟨0, c.nextKeyID, List.replicate i 1⟩
        nextKeyID := (c.nextKeyID + 1) % 4294967296
        writeChan := c.writeChan ++ [Frame.key ⟨0, c.nextKeyID, List.replicate i 1⟩,
          Frame.entryData ⟨c.nextKeyID, Entry.Bool true⟩] }, some Error.ErrDenial) := by
  have hsend : c.sendPutRequest ⟨0, List.replicate i 1, Entry.Bool true⟩ =
      some ({ c with
        keys := store c.keys c.nextKeyID ⟨0, c.nextKeyID, List.replicate i 1⟩
        nextKeyID := (c.nextKeyID + 1) % 4294967296
        writeChan := c.writeChan ++ [Frame.key ⟨0, c.nextKeyID, List.replicate i 1⟩,
          Frame.entryData ⟨c.nextKeyID, Entry.Bool true⟩] }) := by
    unfold Client.sendPutRequest
    simp only [hT, hid, getKeyID_fresh c 0 _ hnew]
    simp
  unfold Client.requests
  rw [hsend]
  rfl

/-- The state after `n` denied puts of `n` different keys, up to the
moment the counter wraps around. -/
theorem afterPuts_state (n : Nat) (hn : n ≤ 4294967296) :
    Reachable (afterPuts n) ∧
    (afterPuts n).keys = (List.range n).map (fun i => (i, ⟨0, i, List.replicate i 1⟩)) ∧
    (afterPuts n).nextKeyID = n % 4294967296 ∧
    (afterPuts n).heap = [⟨0, []⟩] := by
  induction n with
  | zero =>
    exact ⟨Reachable.table _ _ Reachable.new, rfl, rfl, rfl⟩
  | succ n ih =>
    obtain ⟨hr, hk, hx, hh⟩ := ih (by omega)
    have hlt : n < 4294967296 := by omega
    have hx2 : (afterPuts n).nextKeyID = n := by rw [hx, Nat.mod_eq_of_lt hlt]
    have hT : (afterPuts n).heap[0]? = some ⟨0, []⟩ := by rw [hh]; rfl
    have hnew : ∀ p ∈ (afterPuts n).keys,
        ¬ (p.2.TableID = 0 ∧ p.2.Name = List.replicate n 1) := by
      intro p hp
      rw [hk, List.mem_map] at hp
      obtain ⟨i, hi, rfl⟩ := hp
      rw [List.mem_range] at hi
      intro ⟨_, h2⟩
      have := congrArg List.length h2
      simp at this
      omega
    have hreq := deniedPut_fresh (afterPuts n) n ⟨0, []⟩ hT rfl hnew
    have hstep : afterPuts (n + 1) = { afterPuts n with
        keys := store (afterPuts n).keys (afterPuts n).nextKeyID
          ⟨0, (afterPuts n).nextKeyID, List.replicate n 1⟩
        nextKeyID := ((afterPuts n).nextKeyID + 1) % 4294967296
        writeChan := (afterPuts n).writeChan ++
          [Frame.key ⟨0, (afterPuts n).nextKeyID, List.replicate n 1⟩,
            Frame.entryData ⟨(afterPuts n).nextKeyID, Entry.Bool true⟩] } := by
      rw [afterPuts_succ, deniedPut, hreq]
    have hnm : n ∉ (afterPuts n).keys.map Prod.fst := by
      rw [hk, List.map_map]
      intro h
      rw [List.mem_map] at h
      obtain ⟨i, hi, h2⟩ := h
      rw [List.mem_range] at hi
      simp at h2
      omega
    refine ⟨?_, ?_, ?_, ?_⟩
    · rw [hstep]
      exact Reachable.put _ _ _ _ _ hr hreq
    · rw [hstep]
      show store (afterPuts n).keys (afterPuts n).nextKeyID _ = _
      rw [hx2, store_of_not_mem _ _ _ hnm, hk, List.range_succ, List.map_append]
      rfl
    · rw [hstep]
      show ((afterPuts n).nextKeyID + 1) % 4294967296 = _
      rw [hx2]
    · rw [hstep]
      exact hh

/-- One more denied put after `n` of them, for `n` up to `2 ^ 32`. -/
theorem afterPuts_step (n : Nat) (hn : n ≤ 4294967296) :
    (afterPuts n).requests ⟨0, List.replicate n 1, Entry.Bool true⟩ false =
      some (afterPuts (n + 1), some Error.ErrDenial) ∧
    (afterPuts (n + 1)).keys = store (afterPuts n).keys (afterPuts n).nextKeyID
      ⟨0, (afterPuts n).nextKeyID, List.replicate n 1⟩ := by
  obtain ⟨_, hk, _, hh⟩ := afterPuts_state n hn
  have hT : (afterPuts n).heap[0]? = some ⟨0, []⟩ := by rw [hh]; rfl
  have hnew : ∀ p ∈ (afterPuts n).keys,
      ¬ (p.2.TableID = 0 ∧ p.2.Name = List.replicate n 1) := by
    intro p hp
    rw [hk, List.mem_map] at hp
    obtain ⟨i, hi, rfl⟩ := hp
    rw [List.mem_range] at hi
    intro ⟨_, h2⟩
    have := congrArg List.length h2
    rw [List.length_replicate, List.length_replicate] at this
    omega
  have hreq := deniedPut_fresh (afterPuts n) n ⟨0, []⟩ hT rfl hnew
  have hstep : afterPuts (n + 1) = { afterPuts n with
      keys := store (afterPuts n).keys (afterPuts n).nextKeyID
        ⟨0, (afterPuts n).nextKeyID, List.replicate n 1⟩
      nextKeyID := ((afterPuts n).nextKeyID + 1) % 4294967296
      writeChan := (afterPuts n).writeChan ++
        [Frame.key ⟨0, (afterPuts n).nextKeyID, List.replicate n 1⟩,
          Frame.entryData ⟨(afterPuts n).nextKeyID, Entry.Bool true⟩] } := by
    rw [afterPuts_succ, deniedPut, hreq]
  constructor
  · rw [hreq, hstep]
  · rw [hstep]

/-- In a state that satisfies the invariant, a key is found under its ID. -/
theorem KeysInvariant_lookup (keys : List (Nat × key)) (next : Nat)
    (h : KeysInvariant keys next) (id : Nat) (k : key) :
    lookup keys id = some k ↔ (id, k) ∈ keys := by
  apply lookup_iff_mem
  rcases h.2.2.2 with hD | hD <;> rw [hD] <;> exact List.nodup_range _

/-- C14, as stated, fails: after `Table("A")` and `2 ^ 32` puts of `2 ^ 32`
different keys, a reachable state, `nextKeyID` is 0 again while the key with
the ID 0 (and every other key) is registered, so no key ID is smaller than
`nextKeyID`; the next put of a new key is given the ID 0 a second time and
replaces the key that was stored under it. -/
theorem key_ids_wrap_around :
    Reachable (afterPuts 4294967296) ∧
    (afterPuts 4294967296).nextKeyID = 0 ∧
    lookup (afterPuts 4294967296).keys 0 = some ⟨0, 0, []⟩ ∧
    ¬ (∀ p ∈ (afterPuts 4294967296).keys, p.1 < (afterPuts 4294967296).nextKeyID) ∧
    Reachable (afterPuts (4294967296 + 1)) ∧
    lookup (afterPuts (4294967296 + 1)).keys 0 =
      some ⟨0, 0, List.replicate 4294967296 1⟩ := by
  obtain ⟨hr, hk, hx, _⟩ := afterPuts_state 4294967296 (le_refl _)
  have hx0 : (afterPuts 4294967296).nextKeyID = 0 := by rw [hx]
  have hmem : (0, (⟨0, 0, []⟩ : key)) ∈ (afterPuts 4294967296).keys := by
    rw [hk, List.mem_map]
    exact ⟨0, List.mem_range.mpr (by decide), rfl⟩
  obtain ⟨hreq, hkeys⟩ := afterPuts_step 4294967296 (le_refl _)
  refine ⟨hr, hx0,
    (KeysInvariant_lookup _ _ (reachable_KeysInvariant _ hr) 0 _).mpr hmem, ?_,
    Reachable.put _ _ _ _ _ hr hreq, ?_⟩
  · intro h
    have := h _ hmem
    rw [hx0] at this
    exact absurd this (Nat.lt_irrefl 0)
  · rw [hkeys, hx0]
    exact lookup_store_self _ _ _

/-- While fewer than `2 ^ 32` keys are registered the counter has not wrapped
around: the IDs in use are `0 .. nextKeyID - 1` and `nextKeyID` is the
number of keys. -/
theorem KeysInvariant_not_wrapped (keys : List (Nat × key)) (next : Nat)
    (h : KeysInvariant keys next) (hl : keys.length < 4294967296) :
    keys.map Prod.fst = List.range next ∧ next = keys.length := by
  rcases h.2.2.2 with hD | hD
  · refine ⟨hD, ?_⟩
    have := congrArg List.length hD
    rw [List.length_map, List.length_range] at this
    exact this.symm
  · have := congrArg List.length hD
    rw [List.length_map, List.length_range] at this
    omega

/-- While fewer than `2 ^ 32` keys are registered, `getKeyID` keeps every
registered key under its ID. -/
theorem getKeyID_keeps (c : Client) (t : Nat) (n : Str)
    (h : KeysInvariant c.keys c.nextKeyID) (hl : c.keys.length < 4294967296)
    (id : Nat) (k : key) (hk : lookup c.keys id = some k) :
    lookup (c.getKeyID t n).1.keys id = some k := by
  cases hf : c.keys.find? (fun p => decide (p.2.TableID = t ∧ p.2.Name = n)) with
  | some p =>
    have hg : c.getKeyID t n = (c, p.2.ID) := by
      unfold Client.getKeyID
      rw [hf]
    rw [hg]; exact hk
  | none =>
    have hnew : ∀ p ∈ c.keys, ¬ (p.2.TableID = t ∧ p.2.Name = n) := by
      intro p hp
      have := List.find?_eq_none.mp hf p hp
      simpa using this
    rw [getKeyID_fresh c t n hnew]
    have hmem := (KeysInvariant_lookup _ _ h id k).mp hk
    have hid : id ∈ c.keys.map Prod.fst := List.mem_map_of_mem Prod.fst hmem
    rw [(KeysInvariant_not_wrapped _ _ h hl).1, List.mem_range] at hid
    show lookup (store c.keys c.nextKeyID _) id = some k
    rw [lookup_store_other _ _ _ _ (by omega)]
    exact hk

/-- C14, amended: in every state reachable from a new client through
`Table` calls, puts and inbound frames, the key registry holds at most one
key per (table ID, name) pair and every key is stored under its own ID; while
it holds fewer than `2 ^ 32` keys (the `uint32` counter `nextKeyID` has not
wrapped around) the IDs in use are exactly `0 .. nextKeyID - 1`, so every key
ID is smaller than `nextKeyID`, and no operation removes a key or changes
the key stored under an ID. `getKeyID` for a pair that is not registered
mints the key with the current `nextKeyID`, advances the counter by one
modulo `2 ^ 32` and enqueues the key-assignment frame of the new key;
`getKeyID` for a registered pair returns the ID of its key, changes nothing
and enqueues nothing. A new client has no key and starts at 0. -/
theorem key_registry (c : Client) (hc : Reachable c) :
    (∀ p ∈ c.keys, ∀ q ∈ c.keys, p.2.TableID = q.2.TableID → p.2.Name = q.2.Name → p = q) ∧
    (∀ id k, lookup c.keys id = some k ↔ (id, k) ∈ c.keys) ∧
    (∀ p ∈ c.keys, p.2.ID = p.1) ∧
    (c.keys.length < 4294967296 →
      c.keys.map Prod.fst = List.range c.nextKeyID ∧
      (∀ p ∈ c.keys, p.1 < c.nextKeyID) ∧
      (∀ name id k, lookup c.keys id = some k → lookup (c.Table name).1.keys id = some k) ∧
      (∀ req success c1 e, c.requests req success = some (c1, e) →
        ∀ id k, lookup c.keys id = some k → lookup c1.keys id = some k) ∧
      (∀ r st, c.read r = some st →
        ∀ id k, lookup c.keys id = some k → lookup st.client.keys id = some k)) ∧
    (∀ t n, (∀ p ∈ c.keys, ¬ (p.2.TableID = t ∧ p.2.Name = n)) →
      (c.getKeyID t n).2 = c.nextKeyID ∧
      (c.getKeyID t n).1.nextKeyID = (c.nextKeyID + 1) % 4294967296 ∧
      (c.keys.length + 1 < 4294967296 → (c.getKeyID t n).1.nextKeyID = c.nextKeyID + 1) ∧
      (c.getKeyID t n).1.writeChan = c.writeChan ++ [Frame.key ⟨t, c.nextKeyID, n⟩] ∧
      lookup (c.getKeyID t n).1.keys c.nextKeyID = some ⟨t, c.nextKeyID, n⟩) ∧
    (∀ t n, ∀ p ∈ c.keys, p.2.TableID = t → p.2.Name = n → c.getKeyID t n = (c, p.2.ID)) ∧
    NewClient.nextKeyID = 0 ∧ NewClient.keys = [] := by
  have hinv := reachable_KeysInvariant c hc
  have huniq : ∀ p ∈ c.keys, ∀ q ∈ c.keys, p.2.TableID = q.2.TableID →
      p.2.Name = q.2.Name → p = q := by
    intro p hp q hq h1 h2
    by_contra hne
    have hsym : Symmetric (fun a b : Nat × key =>
        ¬ (a.2.TableID = b.2.TableID ∧ a.2.Name = b.2.Name)) :=
      fun a b hab e => hab ⟨e.1.symm, e.2.symm⟩
    exact List.Pairwise.forall hsym hinv.2.1 hp hq hne ⟨h1, h2⟩
  refine ⟨huniq, KeysInvariant_lookup _ _ hinv, hinv.1, ?_, ?_, ?_, rfl, rfl⟩
  · intro hl
    obtain ⟨hids, _⟩ := KeysInvariant_not_wrapped _ _ hinv hl
    refine ⟨hids, ?_, ?_, ?_, ?_⟩
    · intro p hp
      have : p.1 ∈ c.keys.map Prod.fst := List.mem_map_of_mem Prod.fst hp
      rw [hids, List.mem_range] at this
      exact this
    · intro name id k hk
      rw [(Table_keys c name).1]; exact hk
    · intro req success c1 e h id k hk
      obtain ⟨t, n, h1, _⟩ := requests_keys c c1 req success e h
      rw [h1]; exact getKeyID_keeps c t n hinv hl id k hk
    · intro r st h id k hk
      rcases read_keys c r st h with ⟨h1, _⟩ | ⟨t, n, h1, _⟩
      · rw [h1]; exact hk
      · rw [h1]; exact getKeyID_keeps c t n hinv hl id k hk
  · intro t n hnew
    rw [getKeyID_fresh c t n hnew]
    refine ⟨rfl, rfl, ?_, rfl, lookup_store_self _ _ _⟩
    intro hl
    obtain ⟨_, hlen⟩ := KeysInvariant_not_wrapped _ _ hinv (by omega)
    show (c.nextKeyID + 1) % 4294967296 = c.nextKeyID + 1
    rw [Nat.mod_eq_of_lt (by omega)]
  · intro t n p hp h1 h2
    cases hf : c.keys.find? (fun p => decide (p.2.TableID = t ∧ p.2.Name = n)) with
    | none =>
      have := List.find?_eq_none.mp hf p hp
      simp [h1, h2] at this
    | some q =>
      have hq : q ∈ c.keys := List.mem_of_find?_eq_some hf
      have hqp := List.find?_some hf
      simp only [decide_eq_true_eq] at hqp
      have : q = p := huniq q hq p hp (hqp.1.trans h1.symm) (hqp.2.trans h2.symm)
      unfold Client.getKeyID
      rw [hf, this]

theorem key_registry_witness :
    Reachable syncedClient ∧ syncedClient.keys.length < 4294967296 ∧
    syncedClient.keys.map Prod.fst = List.range syncedClient.nextKeyID ∧
    (∀ p ∈ syncedClient.keys, p.1 < syncedClient.nextKeyID) :=
  ⟨syncedClient_reachable, by decide,
    ((key_registry syncedClient syncedClient_reachable).2.2.2.1 (by decide)).1,
    ((key_registry syncedClient syncedClient_reachable).2.2.2.1 (by decide)).2.1⟩

/-! ## Referential integrity -/

theorem fst_mem_store_self {κ ν : Type} [DecidableEq κ] (m : List (κ × ν)) (k : κ) (v : ν) :
    k ∈ (store m k v).map Prod.fst := by
  induction m with
  | nil => simp [store]
  | cons q m ih =>
    obtain ⟨k1, v1⟩ := q
    by_cases hk : k1 = k
    · simp [store, hk]
    · simp only [store, hk, if_false, List.map_cons, List.mem_cons]
      exact Or.inr ih

theorem fst_mem_store_of_mem {κ ν : Type} [DecidableEq κ] (m : List (κ × ν)) (k x : κ)
    (v : ν) (h : x ∈ m.map Prod.fst) : x ∈ (store m k v).map Prod.fst := by
  induction m with
  | nil => simp at h
  | cons q m ih =>
    obtain ⟨k1, v1⟩ := q
    simp only [List.map_cons, List.mem_cons] at h
    by_cases hk : k1 = k
    · simp only [store, hk, if_true, List.map_cons, List.mem_cons]
      rcases h with h | h
      · exact Or.inl (h.trans hk)
      · exact Or.inr h
    · simp only [store, hk, if_false, List.map_cons, List.mem_cons]
      rcases h with h | h
      · exact Or.inl h
      · exact Or.inr (ih h)

theorem lookup_mem {κ ν : Type} [DecidableEq κ] (m : List (κ × ν)) (k : κ) (v : ν)
    (h : lookup m k = some v) : (k, v) ∈ m := by
  induction m with
  | nil => simp [lookup] at h
  | cons q m ih =>
    obtain ⟨k1, v1⟩ := q
    by_cases hk : k1 = k
    · simp only [lookup, hk, if_true, Option.some.injEq] at h
      rw [hk, h]; exact List.mem_cons_self _ _
    · simp only [lookup, hk, if_false] at h
      exact List.mem_cons_of_mem _ (ih h)

theorem lookup_of_fst_mem {κ ν : Type} [DecidableEq κ] (m : List (κ × ν)) (k : κ)
    (h : k ∈ m.map Prod.fst) : ∃ v, lookup m k = some v := by
  induction m with
  | nil => simp at h
  | cons q m ih =>
    obtain ⟨k1, v1⟩ := q
    by_cases hk : k1 = k
    · exact ⟨v1, by simp [lookup, hk]⟩
    · simp only [List.map_cons, List.mem_cons] at h
      rcases h with h | h
      · exact absurd h.symm hk
      · obtain ⟨v, hv⟩ := ih h
        exact ⟨v, by simp [lookup, hk, hv]⟩

theorem fst_mem_of_lookup {κ ν : Type} [DecidableEq κ] (m : List (κ × ν)) (k : κ) (v : ν)
    (h : lookup m k = some v) : k ∈ m.map Prod.fst :=
  List.mem_map_of_mem Prod.fst (lookup_mem m k v h)

theorem lookup_none_of_not_mem {κ ν : Type} [DecidableEq κ] (m : List (κ × ν)) (k : κ)
    (h : k ∉ m.map Prod.fst) : lookup m k = none := by
  cases hl : lookup m k with
  | none => rfl
  | some v => exact absurd (fst_mem_of_lookup m k v hl) h

/-- A store under the counter keeps the IDs in use an initial segment of the
naturals, or all of the `uint32` values once the counter has wrapped. -/
theorem store_counter {ν : Type} (m : List (Nat × ν)) (next : Nat) (v : ν)
    (hC : next < 4294967296)
    (hD : m.map Prod.fst = List.range next ∨ m.map Prod.fst = List.range 4294967296) :
    (store m next v).map Prod.fst = List.range ((next + 1) % 4294967296) ∨
    (store m next v).map Prod.fst = List.range 4294967296 := by
  rcases hD with hD | hD
  · have hnm : next ∉ m.map Prod.fst := by
      rw [hD, List.mem_range]; omega
    rw [store_of_not_mem _ _ _ hnm, List.map_append, hD]
    by_cases hw : next + 1 < 4294967296
    · left
      rw [Nat.mod_eq_of_lt hw, List.range_succ]
      rfl
    · right
      have : next + 1 = 4294967296 := by omega
      rw [← this, List.range_succ]
      rfl
  · right
    have hm : next ∈ m.map Prod.fst := by
      rw [hD, List.mem_range]; exact hC
    rw [store_fst_of_mem _ _ _ hm, hD]

theorem RegistryInvariant_new : RegistryInvariant NewClient :=
  ⟨fun _ h => absurd h (List.not_mem_nil _), fun _ h => absurd h (List.not_mem_nil _),
    fun _ h => absurd h (List.not_mem_nil _), fun _ h => absurd h (List.not_mem_nil _),
    fun _ h => absurd h (List.not_mem_nil _), fun _ h => absurd h (List.not_mem_nil _),
    by decide, Or.inl rfl⟩

/-- The invariant does not depend on the two channels. -/
theorem RegistryInvariant_of_fields (c c1 : Client) (h : RegistryInvariant c)
    (h1 : c1.remoteKeys = c.remoteKeys) (h2 : c1.keys = c.keys) (h3 : c1.tables = c.tables)
    (h4 : c1.remoteTables = c.remoteTables) (h5 : c1.tableNames = c.tableNames)
    (h6 : c1.heap = c.heap) (h7 : c1.nextTableID = c.nextTableID) : RegistryInvariant c1 := by
  unfold RegistryInvariant
  rw [h1, h2, h3, h4, h5, h6, h7]
  exact h

/-- The call `Table` keeps the invariant. -/
theorem Table_invariant (c : Client) (name : Str) (h : RegistryInvariant c) :
    RegistryInvariant (c.Table name).1 := by
  unfold Client.Table
  split
  · exact h
  · obtain ⟨h1, h2, h3, h4, h5, h6, h7, h8⟩ := h
    refine ⟨h1, ?_, ?_, ?_, ?_, ?_, Nat.mod_lt _ (by decide), store_counter _ _ _ h7 h8⟩
    · intro p hp
      exact fst_mem_store_of_mem _ _ _ _ (h2 p hp)
    · intro p hp
      exact fst_mem_store_of_mem _ _ _ _ (h3 p hp)
    · intro p hp
      rcases mem_store _ _ _ p hp with e | hp
      · rw [e]; exact fst_mem_store_self _ _ _
      · exact fst_mem_store_of_mem _ _ _ _ (h4 p hp)
    · intro p hp
      show p.2 < (c.heap ++ [_]).length
      rw [List.length_append]
      rcases mem_store _ _ _ p hp with e | hp
      · rw [e]; simp
      · have := h5 p hp
        omega
    · intro T hT
      rw [List.mem_append] at hT
      rcases hT with hT | hT
      · exact fst_mem_store_of_mem _ _ _ _ (h6 T hT)
      · rw [List.mem_singleton] at hT
        rw [hT]; exact fst_mem_store_self _ _ _

/-- The ID that `getKeyID` returns is a key of `keys` afterwards. -/
theorem getKeyID_id_mem (c : Client) (t : Nat) (n : Str)
    (hk : KeysInvariant c.keys c.nextKeyID) :
    (c.getKeyID t n).2 ∈ (c.getKeyID t n).1.keys.map Prod.fst := by
  cases hf : c.keys.find? (fun p => decide (p.2.TableID = t ∧ p.2.Name = n)) with
  | some p =>
    have hg : c.getKeyID t n = (c, p.2.ID) := by
      unfold Client.getKeyID
      rw [hf]
    rw [hg]
    have hp : p ∈ c.keys := List.mem_of_find?_eq_some hf
    show p.2.ID ∈ c.keys.map Prod.fst
    rw [hk.1 p hp]
    exact List.mem_map_of_mem Prod.fst hp
  | none =>
    have hnew : ∀ p ∈ c.keys, ¬ (p.2.TableID = t ∧ p.2.Name = n) := by
      intro p hp
      have := List.find?_eq_none.mp hf p hp
      simpa using this
    rw [getKeyID_fresh c t n hnew]
    exact fst_mem_store_self _ _ _

/-- The call `getKeyID` for a registered table ID keeps the invariant. -/
theorem getKeyID_registry (c : Client) (t : Nat) (n : Str) (h : RegistryInvariant c)
    (ht : t ∈ c.tables.map Prod.fst) : RegistryInvariant (c.getKeyID t n).1 := by
  cases hf : c.keys.find? (fun p => decide (p.2.TableID = t ∧ p.2.Name = n)) with
  | some p =>
    have hg : c.getKeyID t n = (c, p.2.ID) := by
      unfold Client.getKeyID
      rw [hf]
    rw [hg]; exact h
  | none =>
    have hnew : ∀ p ∈ c.keys, ¬ (p.2.TableID = t ∧ p.2.Name = n) := by
      intro p hp
      have := List.find?_eq_none.mp hf p hp
      simpa using this
    rw [getKeyID_fresh c t n hnew]
    obtain ⟨h1, h2, h3, h4, h5, h6, h7, h8⟩ := h
    refine ⟨?_, ?_, h3, h4, h5, h6, h7, h8⟩
    · intro p hp
      exact fst_mem_store_of_mem _ _ _ _ (h1 p hp)
    · intro p hp
      rcases mem_store _ _ _ p hp with e | hp
      · rw [e]; exact ht
      · exact h2 p hp

/-- The call `update` through a pointer keeps the invariant. -/
theorem update_registry (c c1 : Client) (t : Nat) (k : Str) (e : Entry)
    (h : RegistryInvariant c) (hu : c.update t k e = some c1) : RegistryInvariant c1 := by
  unfold Client.update at hu
  split at hu
  · cases hu
  · rename_i T hT
    cases hu
    obtain ⟨h1, h2, h3, h4, h5, h6, h7, h8⟩ := h
    refine ⟨h1, h2, h3, h4, ?_, ?_, h7, h8⟩
    · intro p hp
      show p.2 < (c.heap.set t _).length
      rw [List.length_set]
      exact h5 p hp
    · intro T1 hT1
      rcases List.mem_or_eq_of_mem_set hT1 with h9 | h9
      · exact h6 T1 h9
      · rw [h9]
        exact h6 T (List.getElem?_mem hT)

/-- A served put keeps the invariant. -/
theorem requests_registry (c c1 : Client) (req : putRequest) (success : Bool)
    (e : Option Error) (h : RegistryInvariant c)
    (hr : c.requests req success = some (c1, e)) : RegistryInvariant c1 := by
  unfold Client.requests at hr
  split at hr
  · cases hr
  · rename_i c0 hs
    have h0 : RegistryInvariant c0 := by
      unfold Client.sendPutRequest at hs
      split at hs
      · cases hs
      · rename_i T hT
        cases hs
        have hg := getKeyID_registry c T.id req.Key h (h.2.2.2.2.2.1 T (List.getElem?_mem hT))
        exact RegistryInvariant_of_fields _ _ hg rfl rfl rfl rfl rfl rfl rfl
    split_ifs at hr
    · split at hr
      · cases hr
      · rename_i c2 hu
        cases hr
        exact update_registry c0 c1 _ _ _ h0 hu
    · cases hr
      exact h0

/-- A pass of the reader keeps the invariant. -/
theorem read_registry (c : Client) (r : List Nat) (st : Step) (h : RegistryInvariant c)
    (hk : KeysInvariant c.keys c.nextKeyID) (hr : c.read r = some st) :
    RegistryInvariant st.client := by
  rcases read_effect c r st hr with h1 | ⟨_, _, t, e, c1, _, _, hu, h1⟩ | ⟨R, L, hL, h1⟩ |
    ⟨R, n, K, h1⟩ | ⟨n, b, h1⟩
  · rw [h1]; exact h
  · rw [h1]
    exact RegistryInvariant_of_fields _ _ (update_registry c c1 _ _ _ h hu)
      rfl rfl rfl rfl rfl rfl rfl
  · rw [h1]
    obtain ⟨p, hp⟩ := Option.isSome_iff_exists.mp hL
    obtain ⟨a1, a2, a3, a4, a5, a6, a7, a8⟩ := h
    refine ⟨a1, a2, ?_, a4, a5, a6, a7, a8⟩
    intro q hq
    rcases mem_store _ _ _ q hq with e | hq
    · rw [e]; exact fst_mem_of_lookup _ _ _ hp
    · exact a3 q hq
  · rw [h1]
    unfold assignmentEffect
    split
    · exact h
    · rename_i T hT
      have hTm : T ∈ c.tables.map Prod.fst := h.2.2.1 (R, T) (lookup_mem _ _ _ hT)
      obtain ⟨a1, a2, a3, a4, a5, a6, a7, a8⟩ := getKeyID_registry c T n h hTm
      refine ⟨?_, a2, a3, a4, a5, a6, a7, a8⟩
      intro q hq
      rcases mem_store _ _ _ q hq with e | hq
      · rw [e]; exact getKeyID_id_mem c T n hk
      · rw [← (getKeyID_remote c T n).2] at hq
        exact a1 q hq
  · rw [h1]
    exact RegistryInvariant_of_fields _ _ h rfl rfl rfl rfl rfl rfl rfl

/-- Referential integrity holds in every reachable state. -/
theorem reachable_RegistryInvariant (c : Client) (hc : Reachable c) : RegistryInvariant c := by
  induction hc with
  | new => exact RegistryInvariant_new
  | table c name _ ih => exact Table_invariant c name ih
  | put c c1 req success e _ h ih => exact requests_registry c c1 req success e ih h
  | frame c r st hc h ih => exact read_registry c r st ih (reachable_KeysInvariant c hc) h

/-- `decodeEntry` returns an entry whenever it returns no error. -/
theorem decodeEntry_entry (r : List Nat) (h : (decodeEntry r).err = none) :
    ∃ e, (decodeEntry r).val = some e := by
  unfold decodeEntry at h ⊢
  split
  · rename_i heq
    rw [heq] at h
    simp at h
  · split_ifs
    · exact ⟨_, rfl⟩
    · exact ⟨_, rfl⟩
    · split <;> exact ⟨_, rfl⟩
    · split <;> exact ⟨_, rfl⟩
    · rename_i heq h1 h2 h3 h4
      rw [heq] at h
      simp [h1, h2, h3, h4] at h

/-- In a state with referential integrity the lookups that follow a mapped
remote key ID all find an entry. -/
theorem RegistryInvariant_lookups (c : Client) (h : RegistryInvariant c) (r localID : Nat)
    (hl : lookup c.remoteKeys r = some localID) :
    ∃ k t T, lookup c.keys localID = some k ∧ lookup c.tables k.TableID = some t ∧
      c.heap[t]? = some T := by
  obtain ⟨k, hk⟩ := lookup_of_fst_mem _ _ (h.1 _ (lookup_mem _ _ _ hl))
  obtain ⟨t, ht⟩ := lookup_of_fst_mem _ _ (h.2.1 _ (lookup_mem _ _ _ hk))
  have hlt : t < c.heap.length := h.2.2.2.2.1 _ (lookup_mem _ _ _ ht)
  exact ⟨k, t, c.heap[t], hk, ht, List.getElem?_eq_getElem hlt⟩

/-- In a state with referential integrity `readData` does not fault, whatever
the bytes it reads. -/
theorem readData_total (c : Client) (h : RegistryInvariant c) (r : List Nat) :
    ∃ st, c.readData r = some st := by
  unfold Client.readData
  split
  · exact ⟨_, rfl⟩
  · split
    · exact ⟨_, rfl⟩
    · rename_i heq
      exfalso
      obtain ⟨e, he⟩ := decodeEntry_entry _ (by rw [heq])
      rw [heq] at he
      cases he
    · split
      · exact ⟨_, rfl⟩
      · rename_i localID hl
        obtain ⟨k, t, T, hk, ht, hT⟩ := RegistryInvariant_lookups c h _ localID hl
        simp only [hk, Option.getD_some, ht, Client.update, hT]
        exact ⟨_, rfl⟩

/-! ### The table counter wraps around -/

theorem afterTables_succ (n : Nat) :
    afterTables (n + 1) = ((afterTables n).Table (List.replicate n 1)).1 := by
  unfold afterTables
  rw [List.range_succ, List.foldl_append]
  rfl

/-- The state after `n` calls of `Table` with `n` different names, up to the
moment the counter wraps around. -/
theorem afterTables_state (n : Nat) (hn : n ≤ 4294967296) :
    Reachable (afterTables n) ∧
    (afterTables n).tableNames.map Prod.fst = (List.range n).map (fun i => List.replicate i 1) ∧
    (afterTables n).tables.map Prod.fst = List.range n ∧
    (afterTables n).nextTableID = n % 4294967296 ∧
    (0 < n → lookup (afterTables n).tableNames [] = some 0 ∧
      lookup (afterTables n).tables 0 = some 0) := by
  induction n with
  | zero =>
    exact ⟨Reachable.new, rfl, rfl, rfl, fun h => absurd h (Nat.lt_irrefl 0)⟩
  | succ n ih =>
    obtain ⟨hr, hnames, htables, hx, hzero⟩ := ih (by omega)
    have hlt : n < 4294967296 := by omega
    have hx2 : (afterTables n).nextTableID = n := by rw [hx, Nat.mod_eq_of_lt hlt]
    have hnm : List.replicate n 1 ∉ (afterTables n).tableNames.map Prod.fst := by
      rw [hnames]
      intro h
      rw [List.mem_map] at h
      obtain ⟨i, hi, h2⟩ := h
      rw [List.mem_range] at hi
      have := congrArg List.length h2
      rw [List.length_replicate, List.length_replicate] at this
      omega
    have hnone : lookup (afterTables n).tableNames (List.replicate n 1) = none :=
      lookup_none_of_not_mem _ _ hnm
    have hnt : n ∉ (afterTables n).tables.map Prod.fst := by
      rw [htables, List.mem_range]; omega
    have hstep : afterTables (n + 1) = { afterTables n with
        heap := (afterTables n).heap ++ [⟨(afterTables n).nextTableID, []⟩]
        nextTableID := ((afterTables n).nextTableID + 1) % 4294967296
        tableNames := store (afterTables n).tableNames (List.replicate n 1)
          (afterTables n).nextTableID
        tables := store (afterTables n).tables (afterTables n).nextTableID
          (afterTables n).heap.length
        writeChan := (afterTables n).writeChan ++
          [Frame.tableRequest ⟨List.replicate n 1, (afterTables n).nextTableID⟩] } := by
      rw [afterTables_succ]
      unfold Client.Table
      rw [hnone]
    refine ⟨?_, ?_, ?_, ?_, ?_⟩
    · rw [afterTables_succ]
      exact Reachable.table _ _ hr
    · rw [hstep]
      show (store (afterTables n).tableNames _ _).map Prod.fst = _
      rw [store_of_not_mem _ _ _ hnm, List.map_append, hnames, List.range_succ,
        List.map_append]
      rfl
    · rw [hstep]
      show (store (afterTables n).tables _ _).map Prod.fst = _
      rw [hx2, store_of_not_mem _ _ _ hnt, List.map_append, htables, List.range_succ]
      rfl
    · rw [hstep]
      show ((afterTables n).nextTableID + 1) % 4294967296 = _
      rw [hx2]
    · intro _
      rw [hstep]
      show lookup (store (afterTables n).tableNames _ _) [] = some 0 ∧
        lookup (store (afterTables n).tables _ _) 0 = some 0
      by_cases h0 : n = 0
      · subst h0
        have e1 : (afterTables 0).nextTableID = 0 := rfl
        have e2 : (afterTables 0).heap.length = 0 := rfl
        rw [e1, e2]
        exact ⟨lookup_store_self _ _ _, lookup_store_self _ _ _⟩
      · obtain ⟨z1, z2⟩ := hzero (by omega)
        have hne : List.replicate n 1 ≠ [] := by
          intro h
          have := congrArg List.length h
          rw [List.length_replicate] at this
          exact h0 this
        rw [lookup_store_other _ _ _ _ hne, hx2, lookup_store_other _ _ _ _ h0]
        exact ⟨z1, z2⟩

/-- C21, as stated, fails: after `2 ^ 32` calls of `Table` with `2 ^ 32`
different names, a reachable state, `nextTableID` is 0 again while
`tableNames` maps the empty name to the table ID 0 and `tables` has the key
0, so these table IDs are not below `nextTableID`. -/
theorem table_ids_wrap_around :
    Reachable (afterTables 4294967296) ∧
    (afterTables 4294967296).nextTableID = 0 ∧
    lookup (afterTables 4294967296).tableNames [] = some 0 ∧
    lookup (afterTables 4294967296).tables 0 = some 0 ∧
    ¬ (∀ name L, lookup (afterTables 4294967296).tableNames name = some L →
      L < (afterTables 4294967296).nextTableID) := by
  obtain ⟨hr, _, _, hx, hzero⟩ := afterTables_state 4294967296 (le_refl _)
  obtain ⟨z1, z2⟩ := hzero (by decide)
  have hx0 : (afterTables 4294967296).nextTableID = 0 := by rw [hx]
  refine ⟨hr, hx0, z1, z2, ?_⟩
  intro h
  have := h [] 0 z1
  rw [hx0] at this
  exact absurd this (Nat.lt_irrefl 0)

/-- While fewer than `2 ^ 32` tables are registered the table counter has not
wrapped around: the table IDs in use are `0 .. nextTableID - 1`. -/
theorem RegistryInvariant_not_wrapped (c : Client) (h : RegistryInvariant c)
    (hl : c.tables.length < 4294967296) (id : Nat) (hid : id ∈ c.tables.map Prod.fst) :
    id < c.nextTableID := by
  rcases h.2.2.2.2.2.2.2 with hD | hD
  · rw [hD, List.mem_range] at hid
    exact hid
  · have := congrArg List.length hD
    rw [List.length_map, List.length_range] at this
    omega

/-- C21, amended: in every state reachable from a new client through `Table`
calls, puts and inbound frames, every local ID stored as a value in
`remoteKeys` is a key of the `keys` map, the `TableID` of every registered
key is a key of the `tables` map, every value of `remoteTables` and of
`tableNames` is a key of the `tables` map, and every pointer in `tables`
points to a table object; while `tables` holds fewer than `2 ^ 32` entries
(the `uint32` counter `nextTableID` has not wrapped around) all these table
IDs are below `nextTableID`. Consequently the two unchecked lookups of the
data-frame handler, `keys[localID]` and `tables[k.TableID]`, find an entry
for every mapped remote key, and the handler does not fault on any bytes: a
pass of the reader over bytes that start with a key-namespace byte always
returns. -/
theorem registry_integrity (c : Client) (hc : Reachable c) :
    (∀ r id, lookup c.remoteKeys r = some id → ∃ k, lookup c.keys id = some k) ∧
    (∀ id k, lookup c.keys id = some k → ∃ t, lookup c.tables k.TableID = some t) ∧
    (∀ R L, lookup c.remoteTables R = some L → ∃ t, lookup c.tables L = some t) ∧
    (∀ name L, lookup c.tableNames name = some L → ∃ t, lookup c.tables L = some t) ∧
    (∀ id t, lookup c.tables id = some t → ∃ T, c.heap[t]? = some T) ∧
    (c.tables.length < 4294967296 →
      (∀ id t, lookup c.tables id = some t → id < c.nextTableID) ∧
      (∀ id k, lookup c.keys id = some k → k.TableID < c.nextTableID) ∧
      (∀ R L, lookup c.remoteTables R = some L → L < c.nextTableID) ∧
      (∀ name L, lookup c.tableNames name = some L → L < c.nextTableID)) ∧
    (∀ r localID, lookup c.remoteKeys r = some localID →
      ∃ k t T, lookup c.keys localID = some k ∧ lookup c.tables k.TableID = some t ∧
        c.heap[t]? = some T) ∧
    (∀ r, ∃ st, c.readData r = some st) ∧
    (∀ hd rest, 128 ≤ hd → ∃ st, c.read (hd :: rest) = some st) := by
  have h := reachable_RegistryInvariant c hc
  refine ⟨?_, ?_, ?_, ?_, ?_, ?_, RegistryInvariant_lookups c h, readData_total c h, ?_⟩
  · intro r id hl
    exact lookup_of_fst_mem _ _ (h.1 _ (lookup_mem _ _ _ hl))
  · intro id k hl
    exact lookup_of_fst_mem _ _ (h.2.1 _ (lookup_mem _ _ _ hl))
  · intro R L hl
    exact lookup_of_fst_mem _ _ (h.2.2.1 _ (lookup_mem _ _ _ hl))
  · intro name L hl
    exact lookup_of_fst_mem _ _ (h.2.2.2.1 _ (lookup_mem _ _ _ hl))
  · intro id t hl
    have hlt : t < c.heap.length := h.2.2.2.2.1 _ (lookup_mem _ _ _ hl)
    exact ⟨c.heap[t], List.getElem?_eq_getElem hlt⟩
  · intro hlen
    refine ⟨?_, ?_, ?_, ?_⟩
    · intro id t hl
      exact RegistryInvariant_not_wrapped c h hlen id (fst_mem_of_lookup _ _ _ hl)
    · intro id k hl
      exact RegistryInvariant_not_wrapped c h hlen _ (h.2.1 _ (lookup_mem _ _ _ hl))
    · intro R L hl
      exact RegistryInvariant_not_wrapped c h hlen _ (h.2.2.1 _ (lookup_mem _ _ _ hl))
    · intro name L hl
      exact RegistryInvariant_not_wrapped c h hlen _ (h.2.2.2.1 _ (lookup_mem _ _ _ hl))
  · intro hd rest hge
    rw [read_data_dispatch c hd rest hge]
    exact readData_total c h _

theorem registry_integrity_witness :
    Reachable syncedClient ∧ lookup syncedClient.remoteKeys 5 = some 0 ∧
    (∃ k t T, lookup syncedClient.keys 0 = some k ∧
      lookup syncedClient.tables k.TableID = some t ∧ syncedClient.heap[t]? = some T) ∧
    ∃ st, syncedClient.read (0x85 :: [0x01, 0xff, 0xff, 0xff, 0xe5]) = some st :=
  ⟨syncedClient_reachable, by decide,
    (registry_integrity syncedClient syncedClient_reachable).2.2.2.2.2.2.1 5 0 (by decide),
    (registry_integrity syncedClient syncedClient_reachable).2.2.2.2.2.2.2.2 0x85
      [0x01, 0xff, 0xff, 0xff, 0xe5] (by decide)⟩

/-! ## Puts and the key counter -/

/-- After `n` puts of the keys `0 .. n - 1`, the key whose name is `n` bytes
`0x01` is not registered. -/
theorem afterPuts_fresh (n : Nat) (hn : n ≤ 4294967296) :
    ∀ p ∈ (afterPuts n).keys, ¬ (p.2.TableID = 0 ∧ p.2.Name = List.replicate n 1) := by
  obtain ⟨_, hk, _, _⟩ := afterPuts_state n hn
  intro p hp
  rw [hk, List.mem_map] at hp
  obtain ⟨i, hi, rfl⟩ := hp
  rw [List.mem_range] at hi
  intro ⟨_, h2⟩
  have := congrArg List.length h2
  rw [List.length_replicate, List.length_replicate] at this
  omega

theorem replicate_no_null (n : Nat) : 0 ∉ List.replicate n 1 :=
  fun h => absurd (List.eq_of_mem_replicate h) (by decide)

/-- The state after a confirmed put of a key that is not registered. -/
theorem requests_confirmed_state (c : Client) (t : Nat) (T : Table) (k : Str) (v : Entry)
    (hT : c.heap[t]? = some T)
    (hnew : ∀ p ∈ c.keys, ¬ (p.2.TableID = T.id ∧ p.2.Name = k)) :
    c.requests ⟨t, k, v⟩ true =
      some ({ c with
        keys := store c.keys c.nextKeyID ⟨T.id, c.nextKeyID, k⟩
        nextKeyID := (c.nextKeyID + 1) % 4294967296
        writeChan := c.writeChan ++
          [Frame.key ⟨T.id, c.nextKeyID, k⟩, Frame.entryData ⟨c.nextKeyID, v⟩]
        heap := c.heap.set t (T.update k v) }, none) := by
  have hsend : c.sendPutRequest ⟨t, k, v⟩ =
      some ({ c with
        keys := store c.keys c.nextKeyID ⟨T.id, c.nextKeyID, k⟩
        nextKeyID := (c.nextKeyID + 1) % 4294967296
        writeChan := c.writeChan ++
          [Frame.key ⟨T.id, c.nextKeyID, k⟩, Frame.entryData ⟨c.nextKeyID, v⟩] }) := by
    unfold Client.sendPutRequest
    simp only [hT, getKeyID_fresh c T.id k hnew]
    simp
  unfold Client.requests
  rw [hsend]
  simp only [if_true, Client.update, hT]

/-- A confirmed put of the next key after `n` puts, for `n` up to `2 ^ 32`:
the frames carry the current `nextKeyID`, and the key is stored under it. -/
theorem afterPuts_confirmed (n : Nat) (hn : n ≤ 4294967296) :
    ∃ c1, (afterPuts n).requests ⟨0, List.replicate n 1, Entry.Bool true⟩ true =
        some (c1, none) ∧
      c1.writeChan = (afterPuts n).writeChan ++
        [Frame.key ⟨0, (afterPuts n).nextKeyID, List.replicate n 1⟩,
          Frame.entryData ⟨(afterPuts n).nextKeyID, Entry.Bool true⟩] ∧
      lookup c1.keys (afterPuts n).nextKeyID =
        some ⟨0, (afterPuts n).nextKeyID, List.replicate n 1⟩ := by
  obtain ⟨_, _, _, hh⟩ := afterPuts_state n hn
  have hT : (afterPuts n).heap[0]? = some ⟨0, []⟩ := by rw [hh]; rfl
  exact ⟨_, requests_confirmed_state (afterPuts n) 0 ⟨0, []⟩ (List.replicate n 1)
    (Entry.Bool true) hT (afterPuts_fresh n hn), rfl, lookup_store_self _ _ _⟩

/-- C4, as stated, fails: in the reachable state after `2 ^ 32` puts of
`2 ^ 32` different keys on table `"A"`, the key whose name is `2 ^ 32` bytes
`0x01` is null-free and not registered, and a confirmed put of it enqueues the
key-assignment frame and the data frame with the key ID 0, which is not an
unused ID: the key with the empty name is registered under it, and the put
replaces that key. -/
theorem put_reuses_key_id :
    Reachable (afterPuts 4294967296) ∧
    (afterPuts 4294967296).heap[0]? = some ⟨0, []⟩ ∧
    0 ∉ List.replicate 4294967296 1 ∧
    (∀ p ∈ (afterPuts 4294967296).keys,
      ¬ (p.2.TableID = 0 ∧ p.2.Name = List.replicate 4294967296 1)) ∧
    lookup (afterPuts 4294967296).keys 0 = some ⟨0, 0, []⟩ ∧
    ∃ c1, (afterPuts 4294967296).requests
        ⟨0, List.replicate 4294967296 1, Entry.Bool true⟩ true = some (c1, none) ∧
      c1.writeChan = (afterPuts 4294967296).writeChan ++
        [Frame.key ⟨0, 0, List.replicate 4294967296 1⟩, Frame.entryData ⟨0, Entry.Bool true⟩] ∧
      lookup c1.keys 0 = some ⟨0, 0, List.replicate 4294967296 1⟩ := by
  obtain ⟨hr, hk, hx, hh⟩ := afterPuts_state 4294967296 (le_refl _)
  have hx0 : (afterPuts 4294967296).nextKeyID = 0 := by rw [hx]
  have hT : (afterPuts 4294967296).heap[0]? = some ⟨0, []⟩ := by rw [hh]; rfl
  have hnew := afterPuts_fresh 4294967296 (le_refl _)
  have hmem : (0, (⟨0, 0, []⟩ : key)) ∈ (afterPuts 4294967296).keys := by
    rw [hk, List.mem_map]
    exact ⟨0, List.mem_range.mpr (by decide), rfl⟩
  obtain ⟨c1, h1, h2, h3⟩ := afterPuts_confirmed 4294967296 (le_refl _)
  rw [hx0] at h2 h3
  exact ⟨hr, hT, replicate_no_null _, hnew,
    (KeysInvariant_lookup _ _ (reachable_KeysInvariant _ hr) 0 _).mpr hmem, c1, h1, h2, h3⟩

/-- C4, amended: for every table object `T` (pointer `t`, local ID `T.id`),
every null-free key name `k` with no key registered for (`T.id`, `k`), and
every entry `v`: serving `Put(k, v)` with a success signal enqueues, after
what was enqueued before and with nothing in between, the key-assignment
frame for (`T.id`, `k`, `n`) and then the data frame (`n`, `v`), where `n` is
the current `nextKeyID`; the put returns nil and `Get(k)` on `T` returns `v`.
On the wire the first frame is `0x06`, table ID, name, key ID, and the second
is key ID, encoded entry. In a reachable state that holds fewer than `2 ^ 32`
keys, `n` is the next unused local key ID: no key is registered under `n`,
and every smaller ID is in use. -/
theorem put_confirmed (c : Client) (t : Nat) (T : Table) (k : Str) (v : Entry)
    (hT : c.heap[t]? = some T) (hk : 0 ∉ k)
    (hnew : ∀ p ∈ c.keys, ¬ (p.2.TableID = T.id ∧ p.2.Name = k)) :
    (∃ c1, c.requests ⟨t, k, v⟩ true = some (c1, none) ∧
      c1.writeChan = c.writeChan ++
        [Frame.key ⟨T.id, c.nextKeyID, k⟩, Frame.entryData ⟨c.nextKeyID, v⟩] ∧
      c1.Get t k = some (some v) ∧
      (Frame.key ⟨T.id, c.nextKeyID, k⟩).encode Writer.buffer =
        (⟨0x06 :: ((writeID Writer.buffer codeTableID T.id).1.data ++
            (writeString Writer.buffer k).1.data ++
            (writeID Writer.buffer codeID c.nextKeyID).1.data), none⟩, none) ∧
      (Frame.entryData ⟨c.nextKeyID, v⟩).encode Writer.buffer =
        (⟨(writeID Writer.buffer codeID c.nextKeyID).1.data ++
            (v.encode Writer.buffer).1.data, none⟩, none)) ∧
    (Reachable c → c.keys.length < 4294967296 →
      lookup c.keys c.nextKeyID = none ∧
      (∀ id, id < c.nextKeyID → (lookup c.keys id).isSome) ∧
      (∀ id, (lookup c.keys id).isSome → id < c.nextKeyID)) := by
  refine ⟨requests_confirmed c t T k v hT hk hnew, ?_⟩
  intro hc hl
  obtain ⟨hids, _⟩ :=
    KeysInvariant_not_wrapped _ _ (reachable_KeysInvariant c hc) hl
  refine ⟨?_, ?_, ?_⟩
  · apply lookup_none_of_not_mem
    rw [hids, List.mem_range]
    exact Nat.lt_irrefl _
  · intro id hid
    obtain ⟨x, hx⟩ := lookup_of_fst_mem c.keys id (by rw [hids, List.mem_range]; exact hid)
    rw [hx]; rfl
  · intro id hid
    obtain ⟨x, hx⟩ := Option.isSome_iff_exists.mp hid
    have := fst_mem_of_lookup _ _ _ hx
    rw [hids, List.mem_range] at this
    exact this

theorem put_confirmed_witness :
    (NewClient.Table [65]).1.heap[0]? = some ⟨0, []⟩ ∧ 0 ∉ [66] ∧
    Reachable (NewClient.Table [65]).1 ∧
    (∃ c1, (NewClient.Table [65]).1.requests ⟨0, [66], Entry.Int (-27)⟩ true = some (c1, none) ∧
      c1.writeChan = (NewClient.Table [65]).1.writeChan ++
        [Frame.key ⟨0, 0, [66]⟩, Frame.entryData ⟨0, Entry.Int (-27)⟩] ∧
      c1.Get 0 [66] = some (some (Entry.Int (-27)))) ∧
    lookup (NewClient.Table [65]).1.keys (NewClient.Table [65]).1.nextKeyID = none ∧
    (Frame.key ⟨0, 0, [66]⟩).encode Writer.buffer = (⟨[0x06, 0x40, 0x01, 66, 0x80], none⟩, none) ∧
    (Frame.entryData ⟨0, Entry.Int (-27)⟩).encode Writer.buffer =
      (⟨[0x80, 0x01, 0xff, 0xff, 0xff, 0xe5], none⟩, none) := by
  have h := put_confirmed (NewClient.Table [65]).1 0 ⟨0, []⟩ [66] (Entry.Int (-27)) (by decide)
    (by decide) (by decide)
  obtain ⟨⟨c1, h1, h2, h3, _⟩, h4⟩ := h
  exact ⟨by decide, by decide, Reachable.table _ _ Reachable.new, ⟨c1, h1, h2, h3⟩,
    (h4 (Reachable.table _ _ Reachable.new) (by decide)).1, by decide, by decide⟩

/-! ## Later calls of `Table` -/

theorem length_store_ge {κ ν : Type} [DecidableEq κ] (m : List (κ × ν)) (k : κ) (v : ν) :
    m.length ≤ (store m k v).length := by
  induction m with
  | nil => simp [store]
  | cons q m ih =>
    obtain ⟨k1, v1⟩ := q
    by_cases hk : k1 = k
    · simp [store, hk]
    · simp only [store, hk, if_false, List.length_cons]
      omega

theorem getKeyID_tables (c : Client) (tableID : Nat) (name : Str) :
    (c.getKeyID tableID name).1.tables = c.tables ∧
    (c.getKeyID tableID name).1.tableNames = c.tableNames := by
  unfold Client.getKeyID
  split <;> exact ⟨rfl, rfl⟩

/-- A served put leaves `tables` and `tableNames` as they are. -/
theorem requests_tables (c c1 : Client) (req : putRequest) (success : Bool) (e : Option Error)
    (h : c.requests req success = some (c1, e)) :
    c1.tables = c.tables ∧ c1.tableNames = c.tableNames := by
  unfold Client.requests at h
  split at h
  · cases h
  · rename_i c0 hs
    have h0 : c0.tables = c.tables ∧ c0.tableNames = c.tableNames := by
      unfold Client.sendPutRequest at hs
      split at hs
      · cases hs
      · cases hs
        rename_i T _
        exact getKeyID_tables c T.id req.Key
    split_ifs at h
    · split at h
      · cases h
      · rename_i c2 hu
        cases h
        obtain ⟨_, _, _, _, e5, e6, _⟩ := update_fields c0 c1 _ _ _ hu
        exact ⟨e5.trans h0.1, e6.trans h0.2⟩
    · cases h
      exact h0

/-- A pass of the reader leaves `tables` and `tableNames` as they are. -/
theorem read_tables (c : Client) (r : List Nat) (st : Step) (h : c.read r = some st) :
    st.client.tables = c.tables ∧ st.client.tableNames = c.tableNames := by
  rcases read_effect c r st h with h1 | ⟨_, _, t, e, c1, _, _, hu, h1⟩ | ⟨R, L, _, h1⟩ |
    ⟨R, n, K, h1⟩ | ⟨n, b, h1⟩
  · rw [h1]; exact ⟨rfl, rfl⟩
  · obtain ⟨_, _, _, _, e5, e6, _⟩ := update_fields c c1 _ _ _ hu
    rw [h1]; exact ⟨e5, e6⟩
  · rw [h1]; exact ⟨rfl, rfl⟩
  · rw [h1]
    unfold assignmentEffect
    split
    · exact ⟨rfl, rfl⟩
    · rename_i T _
      exact getKeyID_tables c T n
  · rw [h1]; exact ⟨rfl, rfl⟩

/-- Every state that comes after a reachable state is reachable. -/
theorem Later_reachable (c c2 : Client) (hc : Reachable c) (hL : Later c c2) :
    Reachable c2 := by
  induction hL with
  | refl => exact hc
  | table c1 name _ ih => exact Reachable.table _ _ ih
  | put c1 c2 req success e _ h ih => exact Reachable.put _ _ _ _ _ ih h
  | frame c1 r st _ h ih => exact Reachable.frame _ _ _ ih h

/-- A call of `Table`, for any name, keeps a name bound to its table object,
as long as the table counter has not wrapped around after the call. -/
theorem Table_keeps_binding (c : Client) (hI : RegistryInvariant c) (name name2 : Str)
    (id p : Nat) (h1 : lookup c.tableNames name = some id) (h2 : lookup c.tables id = some p)
    (hl : (c.Table name2).1.tables.length < 4294967296) :
    lookup (c.Table name2).1.tableNames name = some id ∧
    lookup (c.Table name2).1.tables id = some p := by
  cases hn : lookup c.tableNames name2 with
  | some id2 =>
    have : c.Table name2 = (c, lookup c.tables id2) := by
      unfold Client.Table
      rw [hn]
    rw [this]
    exact ⟨h1, h2⟩
  | none =>
    have hstep : (c.Table name2).1 = { c with
        heap := c.heap ++ [⟨c.nextTableID, []⟩]
        nextTableID := (c.nextTableID + 1) % 4294967296
        tableNames := store c.tableNames name2 c.nextTableID
        tables := store c.tables c.nextTableID c.heap.length
        writeChan := c.writeChan ++ [Frame.tableRequest ⟨name2, c.nextTableID⟩] } := by
      unfold Client.Table
      rw [hn]
    rw [hstep] at hl ⊢
    have hne : name2 ≠ name := by
      intro e
      rw [e, h1] at hn
      cases hn
    have hlen : c.tables.length < 4294967296 :=
      Nat.lt_of_le_of_lt (length_store_ge c.tables c.nextTableID c.heap.length) hl
    have hid : id < c.nextTableID :=
      RegistryInvariant_not_wrapped c hI hlen id (fst_mem_of_lookup _ _ _ h2)
    have hne2 : c.nextTableID ≠ id := by omega
    exact ⟨(lookup_store_other _ _ _ _ hne).trans h1,
      (lookup_store_other _ _ _ _ hne2).trans h2⟩

theorem Table_tables_length (c : Client) (name : Str) :
    c.tables.length ≤ (c.Table name).1.tables.length := by
  unfold Client.Table
  split
  · exact le_refl _
  · exact length_store_ge _ _ _

/-- A name stays bound to its table object in every later state in which the
table counter has not wrapped around. -/
theorem Later_keeps_binding (c c2 : Client) (hc : Reachable c) (name : Str) (id p : Nat)
    (h1 : lookup c.tableNames name = some id) (h2 : lookup c.tables id = some p)
    (hL : Later c c2) :
    Reachable c2 ∧ (c2.tables.length < 4294967296 →
      lookup c2.tableNames name = some id ∧ lookup c2.tables id = some p) := by
  induction hL with
  | refl => exact ⟨hc, fun _ => ⟨h1, h2⟩⟩
  | table c1 name2 _ ih =>
    refine ⟨Reachable.table _ _ ih.1, fun hl => ?_⟩
    obtain ⟨b1, b2⟩ := ih.2 (Nat.lt_of_le_of_lt (Table_tables_length c1 name2) hl)
    exact Table_keeps_binding c1 (reachable_RegistryInvariant c1 ih.1) name name2 id p b1 b2 hl
  | put c1 c2 req success e _ h ih =>
    obtain ⟨e1, e2⟩ := requests_tables c1 c2 req success e h
    refine ⟨Reachable.put _ _ _ _ _ ih.1 h, fun hl => ?_⟩
    rw [e1, e2]
    rw [e1] at hl
    exact ih.2 hl
  | frame c1 r st _ h ih =>
    obtain ⟨e1, e2⟩ := read_tables c1 r st h
    refine ⟨Reachable.frame _ _ _ ih.1 h, fun hl => ?_⟩
    rw [e1, e2]
    rw [e1] at hl
    exact ih.2 hl

/-- After a call of `Table` that returned an object, the name is bound to
that object. -/
theorem Table_binds (c : Client) (name : Str) (p : Nat) (h : (c.Table name).2 = some p) :
    ∃ id, lookup (c.Table name).1.tableNames name = some id ∧
      lookup (c.Table name).1.tables id = some p := by
  cases hn : lookup c.tableNames name with
  | some id =>
    have e : c.Table name = (c, lookup c.tables id) := by
      unfold Client.Table
      rw [hn]
    rw [e] at h ⊢
    exact ⟨id, hn, h⟩
  | none =>
    have e : c.Table name = ({ c with
        heap := c.heap ++ [⟨c.nextTableID, []⟩]
        nextTableID := (c.nextTableID + 1) % 4294967296
        tableNames := store c.tableNames name c.nextTableID
        tables := store c.tables c.nextTableID c.heap.length
        writeChan := c.writeChan ++ [Frame.tableRequest ⟨name, c.nextTableID⟩] },
        some c.heap.length) := by
      unfold Client.Table
      rw [hn]
    rw [e] at h ⊢
    have hp : c.heap.length = p := by
      simpa using h
    rw [← hp]
    exact ⟨c.nextTableID, lookup_store_self _ _ _, lookup_store_self _ _ _⟩

theorem afterTables_reachable (n : Nat) : Reachable (afterTables n) := by
  induction n with
  | zero => exact Reachable.new
  | succ n ih => rw [afterTables_succ]; exact Reachable.table _ _ ih

theorem afterTables_later (n : Nat) : Later (afterTables 1) (afterTables (n + 1)) := by
  induction n with
  | zero => exact Later.refl
  | succ n ih => rw [afterTables_succ (n + 1)]; exact Later.table _ _ ih

/-- One more call of `Table` with a new name after `n` of them, for `n` up
to `2 ^ 32`. -/
theorem afterTables_step (n : Nat) (hn : n ≤ 4294967296) :
    afterTables (n + 1) = { afterTables n with
      heap := (afterTables n).heap ++ [⟨(afterTables n).nextTableID, []⟩]
      nextTableID := ((afterTables n).nextTableID + 1) % 4294967296
      tableNames := store (afterTables n).tableNames (List.replicate n 1)
        (afterTables n).nextTableID
      tables := store (afterTables n).tables (afterTables n).nextTableID
        (afterTables n).heap.length
      writeChan := (afterTables n).writeChan ++
        [Frame.tableRequest ⟨List.replicate n 1, (afterTables n).nextTableID⟩] } := by
  obtain ⟨_, hnames, _, _, _⟩ := afterTables_state n hn
  have hnm : List.replicate n 1 ∉ (afterTables n).tableNames.map Prod.fst := by
    rw [hnames]
    intro h
    rw [List.mem_map] at h
    obtain ⟨i, hi, h2⟩ := h
    rw [List.mem_range] at hi
    have := congrArg List.length h2
    rw [List.length_replicate, List.length_replicate] at this
    omega
  rw [afterTables_succ]
  unfold Client.Table
  rw [lookup_none_of_not_mem _ _ hnm]

/-- Every call of `Table` with a new name allocates one table object. -/
theorem afterTables_heap (n : Nat) (hn : n ≤ 4294967296) : (afterTables n).heap.length = n := by
  induction n with
  | zero => rfl
  | succ n ih =>
    rw [afterTables_step n (by omega)]
    show ((afterTables n).heap ++ [_]).length = n + 1
    rw [List.length_append, ih (by omega)]
    rfl

/-- When the table counter is back at 0 after `n` calls of `Table`, the next
call with a new name takes over the table ID 0, and `Table` with the empty
name, the name of the first call, returns the object of that last call. -/
theorem afterTables_rebound (n : Nat) (hn : n ≤ 4294967296) (h0 : 0 < n)
    (hx : (afterTables n).nextTableID = 0) :
    (afterTables (n + 1)).Table [] = (afterTables (n + 1), some n) := by
  obtain ⟨_, _, _, _, hzero⟩ := afterTables_state n hn
  obtain ⟨z1, _⟩ := hzero h0
  have hne : List.replicate n 1 ≠ [] := by
    intro h
    have := congrArg List.length h
    rw [List.length_replicate, List.length_nil] at this
    omega
  have e1 : lookup (afterTables (n + 1)).tableNames [] = some 0 := by
    rw [afterTables_step n hn]
    show lookup (store (afterTables n).tableNames _ _) [] = some 0
    rw [lookup_store_other _ _ _ _ hne]
    exact z1
  have e2 : lookup (afterTables (n + 1)).tables 0 = some n := by
    rw [afterTables_step n hn]
    show lookup (store (afterTables n).tables _ _) 0 = some n
    rw [hx, afterTables_heap n hn]
    exact lookup_store_self _ _ _
  unfold Client.Table
  rw [e1]
  simp only [e2]

/-- C6, as stated, fails: `Table("")` on a new client returns the table
object 0; `2 ^ 32` calls of `Table` with other names later, in a reachable
state that comes after that first call, `Table("")` returns the table object
`2 ^ 32`, the one that took over the table ID 0 when the counter wrapped
around, not the object of the first call. -/
theorem table_instance_replaced :
    NewClient.Table [] = (afterTables 1, some 0) ∧
    Later (afterTables 1) (afterTables (4294967296 + 1)) ∧
    Reachable (afterTables (4294967296 + 1)) ∧
    (afterTables (4294967296 + 1)).Table [] =
      (afterTables (4294967296 + 1), some 4294967296) := by
  obtain ⟨_, _, _, hx, _⟩ := afterTables_state 4294967296 (le_refl _)
  have hx0 : (afterTables 4294967296).nextTableID = 0 := by rw [hx]
  exact ⟨by decide, afterTables_later 4294967296, afterTables_reachable _,
    afterTables_rebound 4294967296 (le_refl _) (by decide) hx0⟩

/-- C6, amended: for every client state and every name. When the name is not
registered, `Table(name)` allocates a fresh table object with the next local
table ID (0 on a new client), advances the counter, registers the object under
that ID and the ID under the name, enqueues exactly one table-request frame
(`0x0c`, name, table ID) and changes nothing else. When the name is
registered, the call returns the object registered for its ID, enqueues no
frame and leaves the whole state, the registry included, as it is; a call
right after another one with the same name returns the same object. In a
reachable state, every later call with the same name, after any `Table`
calls, puts and inbound frames, returns the object that the earlier call
returned, as long as `tables` holds fewer than `2 ^ 32` entries (the `uint32`
counter `nextTableID` has not wrapped around). -/
theorem Table_idempotent (c : Client) (name : Str) :
    ((lookup c.tableNames name = none →
      ∃ c1, c.Table name = (c1, some c.heap.length) ∧
        c1.heap = c.heap ++ [⟨c.nextTableID, []⟩] ∧
        c1.nextTableID = (c.nextTableID + 1) % 4294967296 ∧
        lookup c1.tableNames name = some c.nextTableID ∧
        lookup c1.tables c.nextTableID = some c.heap.length ∧
        c1.writeChan = c.writeChan ++ [Frame.tableRequest ⟨name, c.nextTableID⟩] ∧
        c1.nextKeyID = c.nextKeyID ∧ c1.keys = c.keys ∧ c1.remoteKeys = c.remoteKeys ∧
        c1.remoteTables = c.remoteTables ∧ c1.confirmChan = c.confirmChan ∧
        c1.Table name = (c1, some c.heap.length)) ∧
    (∀ id, lookup c.tableNames name = some id → c.Table name = (c, lookup c.tables id)) ∧
    (c.Table name).1.Table name = c.Table name ∧
    NewClient.nextTableID = 0 ∧
    (∀ id, 0 ∉ name → (Frame.tableRequest ⟨name, id⟩).encode Writer.buffer =
      (⟨0x0c :: ((writeString Writer.buffer name).1.data ++
          (writeID Writer.buffer codeTableID id).1.data), none⟩, none)) ∧
    Client.write (NewClient.Table [65]).1.writeChan Writer.buffer =
      ⟨[0x0c, 0x01, 65, 0x40], none⟩) ∧
    (Reachable c → ∀ p c2, (c.Table name).2 = some p → Later (c.Table name).1 c2 →
      c2.tables.length < 4294967296 → c2.Table name = (c2, some p)) := by
  refine ⟨Table_call c name, ?_⟩
  intro hc p c2 hp hL hl
  obtain ⟨id, b1, b2⟩ := Table_binds c name p hp
  obtain ⟨_, hb⟩ := Later_keeps_binding (c.Table name).1 c2 (Reachable.table _ _ hc) name id p
    b1 b2 hL
  obtain ⟨e1, e2⟩ := hb hl
  unfold Client.Table
  rw [e1]
  simp only [e2]

theorem Table_idempotent_witness :
    lookup NewClient.tableNames [65] = none ∧
    (∃ c1, NewClient.Table [65] = (c1, some NewClient.heap.length) ∧
      c1.heap = NewClient.heap ++ [⟨NewClient.nextTableID, []⟩] ∧
      c1.writeChan = NewClient.writeChan ++ [Frame.tableRequest ⟨[65], NewClient.nextTableID⟩] ∧
      c1.Table [65] = (c1, some NewClient.heap.length)) ∧
    Reachable NewClient ∧ (NewClient.Table [65]).2 = some 0 ∧
    Later (NewClient.Table [65]).1 syncedClient ∧ syncedClient.tables.length < 4294967296 ∧
    syncedClient.Table [65] = (syncedClient, some 0) := by
  have hL : Later (NewClient.Table [65]).1 syncedClient := by
    have h1 : (NewClient.Table [65]).1.read [0x03, 0x40, 0x4a] =
        some ⟨assignedClient, none, []⟩ := by decide
    have h2 : assignedClient.read [0x06, 0x4a, 0x01, 66, 0x85] =
        some ⟨syncedClient, none, []⟩ := by decide
    exact Later.frame _ _ _ (Later.frame _ _ _ Later.refl h1) h2
  refine ⟨by decide, ?_, Reachable.new, by decide, hL, by decide, ?_⟩
  · obtain ⟨c1, h1, h2, _, _, _, h6, _, _, _, _, _, h12⟩ :=
      (Table_idempotent NewClient [65]).1.1 (by decide)
    exact ⟨c1, h1, h2, h6, h12⟩
  · exact (Table_idempotent NewClient [65]).2 Reachable.new 0 syncedClient (by decide) hL
      (by decide)

end Nettable
